import Mathlib

/-!
Field-map tags of the tag parser.

A shallow embedding of `FieldMapBasedTag` (src/fieldbasedtag.h): the tag stores its
fields in a `std::multimap` keyed by the field identifier.  The multimap is embedded as
the list of its entries in iteration order; iterators are positions in that list, and an
iterator range is the list segment between two positions.
-/

set_option linter.unusedSectionVars false

namespace Media

/-! ## Tag values and tag fields -/

/-- Modelled from the spec: the text encodings a text value can carry (`TagTextEncoding`
of tagvalue.h, which is not among the sources). -/
inductive TagTextEncoding where
  | latin1
  | utf8
  | utf16LittleEndian
  | utf16BigEndian
deriving DecidableEq, Repr

/-- Modelled from the spec: the class `TagValue` (tagvalue.h is not among the sources).
The spec describes it as a discriminated value
{empty | text | integer | position-in-set | binary | date-time | standard-genre-index},
where empty is distinct from zero-length text. -/
inductive TagValue where
  | empty
  | text (encoding : TagTextEncoding) (bytes : List Nat)
  | integer (n : Int)
  | positionInSet (position total : Int)
  | binary (mime : String) (bytes : List Nat)
  | dateTime (instant : Int)
  | standardGenreIndex (index : Nat)
deriving DecidableEq, Repr

/-- Modelled from the spec: `TagValue::isEmpty()`, true exactly for the empty value. -/
def TagValue.isEmpty : TagValue → Bool
  | .empty => true
  | _ => false

/-- Modelled from the spec: the field class `FieldType` the tag template is instantiated
with (generictagfield.h is not among the sources).  Only the members the tag uses are
kept: the identifier `id()`, the value `value()`, and the optional type info
(`isTypeInfoAssigned()` / `typeInfo()`), `none` standing for "not assigned". -/
structure TagField (Id TI : Type) where
  id : Id
  value : TagValue
  typeInfo : Option TI
deriving DecidableEq, Repr

/-- The constructor `FieldType(id, value)`: a field without type info. -/
def TagField.create {Id TI : Type} (id : Id) (value : TagValue) : TagField Id TI :=
  { id := id, value := value, typeInfo := none }

/-- The member `FieldType::setValue(value)`: replaces the value, keeps everything else. -/
def TagField.setValue {Id TI : Type} (f : TagField Id TI) (value : TagValue) : TagField Id TI :=
  { f with value := value }

/-- Modelled from the spec: the enumeration `KnownField` of semantic fields (tag.h is not
among the sources); the spec lists Title, Artist, Album, Genre, TrackPosition,
DiskPosition, Comment, Cover, Year, Encoder, and mp4tag.h names EncoderSettings. -/
inductive KnownField where
  | title
  | artist
  | album
  | genre
  | trackPosition
  | diskPosition
  | comment
  | cover
  | year
  | encoder
  | encoderSettings
deriving DecidableEq, Repr

/-! ## The multimap -/

/-- The member `m_fields`: the entries (key, field) of the multimap in iteration order. -/
abbrev FieldMap (Id TI : Type) := List (Id × TagField Id TI)

namespace FieldMap

variable {Id TI : Type} [LinearOrder Id]

/-- The container invariant of `std::multimap`: iteration visits the keys in
non-decreasing order of `Compare`. -/
def KeyOrdered (m : FieldMap Id TI) : Prop :=
  m.Pairwise (fun a b => a.1 ≤ b.1)

instance decidableKeyOrdered (m : FieldMap Id TI) : Decidable (KeyOrdered m) := by
  unfold KeyOrdered
  infer_instance

/-- Entries in front of `lower_bound(id)`: the leading entries whose key is less than `id`. -/
def beforeLowerBound (m : FieldMap Id TI) (id : Id) : FieldMap Id TI :=
  m.takeWhile (fun e => decide (e.1 < id))

/-- Entries from `lower_bound(id)` on: from the first entry whose key is not less than `id`. -/
def fromLowerBound (m : FieldMap Id TI) (id : Id) : FieldMap Id TI :=
  m.dropWhile (fun e => decide (e.1 < id))

/-- The range `equal_range(id)`, from `lower_bound(id)` up to `upper_bound(id)`, the
first entry behind the lower bound whose key is greater than `id`. -/
def equalRange (m : FieldMap Id TI) (id : Id) : FieldMap Id TI :=
  (fromLowerBound m id).takeWhile (fun e => !decide (id < e.1))

/-- Entries from `upper_bound(id)` on, that is from `equal_range(id).second` on. -/
def fromUpperBound (m : FieldMap Id TI) (id : Id) : FieldMap Id TI :=
  (fromLowerBound m id).dropWhile (fun e => !decide (id < e.1))

/-- The lookup `find(id)`: the entry at `lower_bound(id)` unless that is `end()` or its
key is greater than `id`. -/
def find (m : FieldMap Id TI) (id : Id) : Option (Id × TagField Id TI) :=
  match fromLowerBound m id with
  | [] => none
  | e :: _ => if id < e.1 then none else some e

/-- The insertion `insert(std::make_pair(key, field))`: the new entry is placed at the
upper bound of the range of entries with an equivalent key. -/
def insert (m : FieldMap Id TI) (key : Id) (field : TagField Id TI) : FieldMap Id TI :=
  beforeLowerBound m key ++ equalRange m key ++ (key, field) :: fromUpperBound m key

/-- The erasure `erase(id)`: removes every entry whose key is `id`. -/
def erase (m : FieldMap Id TI) (id : Id) : FieldMap Id TI :=
  m.filter (fun e => !decide (e.1 = id))

end FieldMap

/-! ## FieldMapBasedTag -/

namespace FieldMapBasedTag

variable {Id TI : Type} [LinearOrder Id]

/-- The accessor `value(id)` (fieldbasedtag.h:83-88). -/
def value (m : FieldMap Id TI) (id : Id) : TagValue :=
  match FieldMap.find m id with
  | some e => e.2.value
  | none => TagValue.empty

/-- The loop of `values(id)` over an iterator range, pushing the non-empty values. -/
def valuesLoop : List (Id × TagField Id TI) → List TagValue → List TagValue
  | [], acc => acc
  | e :: rest, acc =>
    if !e.2.value.isEmpty then valuesLoop rest (acc ++ [e.2.value])
    else valuesLoop rest acc

/-- The accessor `values(id)` (fieldbasedtag.h:100-111). -/
def values (m : FieldMap Id TI) (id : Id) : List TagValue :=
  valuesLoop (FieldMap.equalRange m id) []

/-- The mutator `setValue(id, value)` (fieldbasedtag.h:129-141): the returned flag and
the field map afterwards. -/
def setValue (m : FieldMap Id TI) (id : Id) (value : TagValue) : Bool × FieldMap Id TI :=
  match FieldMap.fromLowerBound m id with
  | e :: rest =>
    if id < e.1 then
      if !value.isEmpty then (true, FieldMap.insert m id (TagField.create id value))
      else (false, m)
    else (true, FieldMap.beforeLowerBound m id ++ (e.1, e.2.setValue value) :: rest)
  | [] =>
    if !value.isEmpty then (true, FieldMap.insert m id (TagField.create id value))
    else (false, m)

/-- The first loop of `setValues` (fieldbasedtag.h:155-161) over the specified values
and the range of existing entries: returns the entries passed by `range.first`, the
values not yet visited, and the entries still in the range. -/
def setValuesReplace : List TagValue → List (Id × TagField Id TI) →
    List (Id × TagField Id TI) × List TagValue × List (Id × TagField Id TI)
  | [], range => ([], [], range)
  | v :: vs, [] => ([], v :: vs, [])
  | v :: vs, e :: range =>
    if !v.isEmpty then
      let r := setValuesReplace vs range
      ((e.1, e.2.setValue v) :: r.1, r.2.1, r.2.2)
    else setValuesReplace vs (e :: range)

/-- The mutator `setValues(id, values)` (fieldbasedtag.h:149-171): after the first loop
the remaining values are inserted at the upper bound of the range (second loop) and the
entries still in the range get the empty value (third loop). -/
def setValues (m : FieldMap Id TI) (id : Id) (values : List TagValue) : Bool × FieldMap Id TI :=
  let r := setValuesReplace values (FieldMap.equalRange m id)
  (true,
    FieldMap.beforeLowerBound m id ++ r.1
      ++ r.2.2.map (fun e => (e.1, e.2.setValue TagValue.empty))
      ++ r.2.1.map (fun v => (id, TagField.create id v))
      ++ FieldMap.fromUpperBound m id)

/-- The entries `setValues` leaves under `id`: the replaced ones, the ones given the
empty value, and the inserted ones. -/
def setValuesRange (m : FieldMap Id TI) (id : Id) (vs : List TagValue) : FieldMap Id TI :=
  (setValuesReplace vs (FieldMap.equalRange m id)).1
    ++ (setValuesReplace vs (FieldMap.equalRange m id)).2.2.map
        (fun e => (e.1, e.2.setValue TagValue.empty))
    ++ (setValuesReplace vs (FieldMap.equalRange m id)).2.1.map
        (fun v => (id, TagField.create id v))

/-- The loop of `hasField(id)` over an iterator range. -/
def hasFieldLoop : List (Id × TagField Id TI) → Bool
  | [] => false
  | e :: rest => if !e.2.value.isEmpty then true else hasFieldLoop rest

/-- The query `hasField(id)` (fieldbasedtag.h:194-203). -/
def hasField (m : FieldMap Id TI) (id : Id) : Bool :=
  hasFieldLoop (FieldMap.equalRange m id)

/-- The loop of `fieldCount()` over all entries, with the running counter.  The counter
is an `unsigned int` in the source; it counts entries held in memory and is embedded as a
natural number. -/
def fieldCountLoop : List (Id × TagField Id TI) → Nat → Nat
  | [], count => count
  | e :: rest, count =>
    if !e.2.value.isEmpty then fieldCountLoop rest (count + 1)
    else fieldCountLoop rest count

/-- The query `fieldCount()` (fieldbasedtag.h:229-239). -/
def fieldCount (m : FieldMap Id TI) : Nat :=
  fieldCountLoop m 0

/-- The mutator `removeAllFields()` (fieldbasedtag.h:205-209). -/
def removeAllFields (_m : FieldMap Id TI) : FieldMap Id TI :=
  []

/-- The type-info test of `insertFields` (fieldbasedtag.h:275-277): both fields have type
info assigned and it is equal, or neither has type info assigned. -/
def typeInfoMatches [DecidableEq TI] (fromField ownField : TagField Id TI) : Bool :=
  (fromField.typeInfo.isSome && ownField.typeInfo.isSome
      && decide (fromField.typeInfo = ownField.typeInfo))
    || (!fromField.typeInfo.isSome && !ownField.typeInfo.isSome)

/-- The inner loop of `insertFields` (fieldbasedtag.h:273-285) over the range of own
entries, threading the counter `fieldsInserted` and the flag `fieldInserted`: returns the
entries of the range afterwards, the counter and the flag. -/
def insertFieldsInner [DecidableEq TI] (fromField : TagField Id TI) (overwrite : Bool) :
    List (Id × TagField Id TI) → Nat → Bool → List (Id × TagField Id TI) × Nat × Bool
  | [], fieldsInserted, fieldInserted => ([], fieldsInserted, fieldInserted)
  | e :: range, fieldsInserted, fieldInserted =>
    if typeInfoMatches fromField e.2 then
      if overwrite || e.2.value.isEmpty then
        let r := insertFieldsInner fromField overwrite range (fieldsInserted + 1) true
        ((e.1, fromField) :: r.1, r.2.1, r.2.2)
      else
        let r := insertFieldsInner fromField overwrite range fieldsInserted true
        (e :: r.1, r.2.1, r.2.2)
    else
      let r := insertFieldsInner fromField overwrite range fieldsInserted fieldInserted
      (e :: r.1, r.2.1, r.2.2)

/-- The body of the outer loop of `insertFields` (fieldbasedtag.h:268-289) for one field
of the source tag: the counter and the own field map afterwards. -/
def insertFieldsBody [DecidableEq TI] (own : FieldMap Id TI) (fieldsInserted : Nat)
    (fromField : TagField Id TI) (overwrite : Bool) : Nat × FieldMap Id TI :=
  if fromField.value.isEmpty then (fieldsInserted, own)
  else
    let r := insertFieldsInner fromField overwrite (FieldMap.equalRange own fromField.id)
      fieldsInserted false
    let updated := FieldMap.beforeLowerBound own fromField.id ++ r.1
      ++ FieldMap.fromUpperBound own fromField.id
    if !r.2.2 then (r.2.1 + 1, FieldMap.insert updated fromField.id fromField)
    else (r.2.1, updated)

/-- The outer loop of `insertFields` over the entries of the source tag. -/
def insertFieldsLoop [DecidableEq TI] : List (Id × TagField Id TI) → FieldMap Id TI → Nat →
    Bool → Nat × FieldMap Id TI
  | [], own, fieldsInserted, _ => (fieldsInserted, own)
  | pair :: rest, own, fieldsInserted, overwrite =>
    insertFieldsLoop rest (insertFieldsBody own fieldsInserted pair.2 overwrite).2
      (insertFieldsBody own fieldsInserted pair.2 overwrite).1 overwrite

/-- The mutator `insertFields(from, overwrite)` (fieldbasedtag.h:263-292): the returned
number and the own field map afterwards.  The source tag `from` is a tag other than the
receiving one, so its entries do not change during the call.  The counter is an `int` in
the source; it counts assignments to and insertions of entries held in memory and is
embedded as a natural number. -/
def insertFields [DecidableEq TI] (own source : FieldMap Id TI) (overwrite : Bool) :
    Nat × FieldMap Id TI :=
  insertFieldsLoop source own 0 overwrite

/-- Whether the inner loop of `insertFields` assigns `fromField` to the own entry `e`
(fieldbasedtag.h:275-279): the type info matches and the entry may be overwritten. -/
def isOverwritten [DecidableEq TI] (fromField : TagField Id TI) (overwrite : Bool)
    (e : Id × TagField Id TI) : Bool :=
  typeInfoMatches fromField e.2 && (overwrite || e.2.value.isEmpty)

/-- The own entry `e` after the inner loop of `insertFields` has passed it. -/
def overwrittenEntry [DecidableEq TI] (fromField : TagField Id TI) (overwrite : Bool)
    (e : Id × TagField Id TI) : Id × TagField Id TI :=
  if isOverwritten fromField overwrite e then (e.1, fromField) else e

/-- The entries the body of `insertFields` leaves under the identifier of a non-empty
`fromField`: the entries of the range after the inner loop, followed by the inserted
entry when no entry matched. -/
def insertFieldsRange [DecidableEq TI] (own : FieldMap Id TI) (fromField : TagField Id TI)
    (overwrite : Bool) : FieldMap Id TI :=
  (FieldMap.equalRange own fromField.id).map (overwrittenEntry fromField overwrite)
    ++ (if (FieldMap.equalRange own fromField.id).any (fun e => typeInfoMatches fromField e.2)
        then [] else [(fromField.id, fromField)])

/-- The overload `value(KnownField)` (fieldbasedtag.h:90-94); `fieldId` is the mapping
the subclass implements. -/
def valueKnown (fieldId : KnownField → Id) (m : FieldMap Id TI) (field : KnownField) :
    TagValue :=
  value m (fieldId field)

/-- The overload `values(KnownField)` (fieldbasedtag.h:113-117). -/
def valuesKnown (fieldId : KnownField → Id) (m : FieldMap Id TI) (field : KnownField) :
    List TagValue :=
  values m (fieldId field)

/-- The overload `setValue(KnownField, value)` (fieldbasedtag.h:119-123). -/
def setValueKnown (fieldId : KnownField → Id) (m : FieldMap Id TI) (field : KnownField)
    (value : TagValue) : Bool × FieldMap Id TI :=
  setValue m (fieldId field) value

/-- The overload `setValues(KnownField, values)` (fieldbasedtag.h:179-183). -/
def setValuesKnown (fieldId : KnownField → Id) (m : FieldMap Id TI) (field : KnownField)
    (values : List TagValue) : Bool × FieldMap Id TI :=
  setValues m (fieldId field) values

/-- The overload `hasField(KnownField)` (fieldbasedtag.h:185-189). -/
def hasFieldKnown (fieldId : KnownField → Id) (m : FieldMap Id TI) (field : KnownField) :
    Bool :=
  hasField m (fieldId field)

/-- The query `supportsField(field)` (fieldbasedtag.h:241-246) of a tag with the field
map `m`; the static local `def` is the default-constructed identifier. -/
def supportsField [Inhabited Id] (fieldId : KnownField → Id) (_m : FieldMap Id TI)
    (field : KnownField) : Bool :=
  decide (fieldId field ≠ default)

end FieldMapBasedTag

/-! ## The MP4 tag -/

/-- Modelled from the spec: the field class `Mp4TagField` (mp4tagfield.h is not among the
sources): a tag field with a four-byte identifier and type info, and the `mean` and
`name` strings of an extended field, as the bytes of a `std::string`. -/
structure Mp4TagField extends TagField Nat Nat where
  mean : List Nat
  name : List Nat
deriving DecidableEq, Repr

/-- The struct `Mp4ExtendedFieldId` (mp4tag.h:14-28).  A `const char *` is `none` for the
null pointer and otherwise the bytes found at the pointer. -/
structure Mp4ExtendedFieldId where
  mean : Option (List Nat)
  name : Option (List Nat)
  updateOnly : Bool
deriving DecidableEq, Repr

/-- The C string at a pointer: the bytes in front of the first NUL byte. -/
def cString (bytes : List Nat) : List Nat :=
  bytes.takeWhile (fun b => !decide (b = 0))

namespace Mp4ExtendedFieldId

/-- The constructor `Mp4ExtendedFieldId(mean, name, updateOnly)` (mp4tag.h:33-37). -/
def create (mean name : Option (List Nat)) (updateOnly : Bool) : Mp4ExtendedFieldId :=
  { mean := mean, name := name, updateOnly := updateOnly }

/-- The default construction `Mp4ExtendedFieldId()`, with the default arguments of the
declaration (mp4tag.h:16): null pointers and `updateOnly = false`. -/
def createDefault : Mp4ExtendedFieldId :=
  create none none false

/-- The conversion `operator bool()` (mp4tag.h:42-45). -/
def isValid (id : Mp4ExtendedFieldId) : Bool :=
  id.mean.isSome && id.name.isSome

/-- The member `matches(field)` (mp4tag.h:50-53).  Comparing a `std::string` with a null
pointer has no defined result, which is `none`; the second comparison is only evaluated
when the first one holds. -/
def «matches» (id : Mp4ExtendedFieldId) (field : Mp4TagField) : Option Bool :=
  match id.mean with
  | none => none
  | some mean =>
    if field.mean = cString mean then
      match id.name with
      | none => none
      | some name => some (decide (field.name = cString name))
    else some false

end Mp4ExtendedFieldId

namespace Mp4Tag

/-- The query `Mp4Tag::supportsField(field)` (mp4tag.h:151-159); `fieldId` is
`Mp4Tag::fieldId`, whose table is not among the sources. -/
def supportsField (fieldId : KnownField → Nat) (m : FieldMap Nat Nat) (field : KnownField) :
    Bool :=
  match field with
  | KnownField.encoderSettings => true
  | _ => FieldMapBasedTag.supportsField fieldId m field

end Mp4Tag

namespace Mp4Tag

/-- Modelled from the spec: the overload `Mp4Tag::setValue(KnownField, value)`, declared
in mp4tag.h:114 and defined in mp4tag.cpp, which is not among the sources.  Per the spec
a known field has zero or one identifier, the setter by known field delegates through
this mapping to `set_value(id, v)`, and without a mapping for the field the call is a
no-op returning false.  "No mapping" is the default-constructed identifier 0, the
sentinel `supportsField` of the base class tests against (fieldbasedtag.h:244-245). -/
def setValueKnown (fieldId : KnownField → Nat) (m : FieldMap Nat Nat) (field : KnownField)
    (value : TagValue) : Bool × FieldMap Nat Nat :=
  if fieldId field = default then (false, m)
  else FieldMapBasedTag.setValue m (fieldId field) value

end Mp4Tag

/-! ## The tag target -/

/-- The class `TagTarget` (tagtarget.h:31-64): the stored level `m_level`, the level name
and the four id lists; levels and ids are `uint64` values. -/
structure TagTarget where
  storedLevel : Nat
  levelName : String
  tracks : List Nat
  chapters : List Nat
  editions : List Nat
  attachments : List Nat
deriving DecidableEq, Repr

namespace TagTarget

/-- The constructor `TagTarget(level, tracks, chapters, editions, attachments)`
(tagtarget.h:70-77); the level name is default-constructed, that is empty. -/
def create (level : Nat) (tracks chapters editions attachments : List Nat) : TagTarget :=
  { storedLevel := level, levelName := "", tracks := tracks, chapters := chapters,
    editions := editions, attachments := attachments }

/-- The default construction `TagTarget()`, with the default arguments of the declaration
(tagtarget.h:37): level 0 and empty id lists. -/
def createDefault : TagTarget :=
  create 0 [] [] [] []

/-- The getter `level()` (tagtarget.h:82-85). -/
def level (t : TagTarget) : Nat :=
  if t.storedLevel ≠ 0 then t.storedLevel else 50

/-- The setter `setLevel(level)` (tagtarget.h:90-93). -/
def setLevel (t : TagTarget) (level : Nat) : TagTarget :=
  { t with storedLevel := level }

/-- The setter `setLevelName(levelName)` (tagtarget.h:106-109). -/
def setLevelName (t : TagTarget) (levelName : String) : TagTarget :=
  { t with levelName := levelName }

/-- The query `isEmpty()` (tagtarget.h:178-186). -/
def isEmpty (t : TagTarget) : Bool :=
  decide (t.storedLevel = 0) && t.levelName.isEmpty && t.tracks.isEmpty
    && t.chapters.isEmpty && t.editions.isEmpty && t.attachments.isEmpty

/-- The mutator `clear()` (tagtarget.h:191-199). -/
def clear (_t : TagTarget) : TagTarget :=
  { storedLevel := 0, levelName := "", tracks := [], chapters := [], editions := [],
    attachments := [] }

/-- The comparison `operator ==` (tagtarget.h:205-212). -/
def equals (a b : TagTarget) : Bool :=
  decide (a.level = b.level) && decide (a.tracks = b.tracks)
    && decide (a.chapters = b.chapters) && decide (a.editions = b.editions)
    && decide (a.attachments = b.attachments)

end TagTarget

/-! ## Tag target levels -/

/-- The enumeration `TagTargetLevel` (tagtarget.h:17-27). -/
inductive TagTargetLevel where
  | unspecified
  | shot
  | subtrack
  | track
  | part
  | album
  | edition
  | collection
deriving DecidableEq, Repr

namespace TagTarget

/-- The overload `toString(tagTargetMapping)` (tagtarget.h:218-221).  The overload
`toString(TagTargetLevel)` it calls is only declared in the header (tagtarget.h:54) and
is the parameter `toStringLevel`; a `std::function` holding no target is `none`. -/
def toString (toStringLevel : TagTarget → TagTargetLevel → String) (t : TagTarget)
    (tagTargetMapping : Option (Nat → TagTargetLevel)) : String :=
  toStringLevel t
    (match tagTargetMapping with
      | some mapping => mapping t.level
      | none => TagTargetLevel.unspecified)

end TagTarget

/-! ## The rewrite planner -/

deriving instance DecidableEq for Except

/-- Modelled from the spec: the values `Keep | BeforeData | AfterData` of the options
`tag_position` and `index_position`; the planner itself (mp4container.cpp) is not among
the sources. -/
inductive ElementPosition where
  | keep
  | beforeData
  | afterData
deriving DecidableEq, Repr

/-- Modelled from the spec: the severity of a notification, `None | Information |
Warning | Critical` (notification.h is not among the sources). -/
inductive NotificationType where
  | none
  | information
  | warning
  | critical
deriving DecidableEq, Repr

/-- Modelled from the spec: a notification record {severity, message, context}. -/
structure Notification where
  severity : NotificationType
  message : String
  context : String
deriving DecidableEq, Repr

/-- Modelled from the spec: the top-level atoms other than `ftyp`, `moov` and `mdat` the
planner places (`free`, `uuid`, `moof`, `mfra`). -/
inductive OtherAtom where
  | free
  | uuid
  | moof
  | mfra
deriving DecidableEq, Repr

/-- Modelled from the spec: a top-level atom of an MP4 file, by its type. -/
inductive TopLevelAtom where
  | ftyp
  | moov
  | mdat
  | other (atom : OtherAtom)
deriving DecidableEq, Repr

/-- Modelled from the spec: the configuration surface of the planner. -/
structure PlannerConfig where
  tagPosition : ElementPosition
  indexPosition : ElementPosition
  forceTagPosition : Bool
  forceIndexPosition : Bool
  forceRewrite : Bool
  preferredPadding : Nat
  minPadding : Nat
  maxPadding : Nat
deriving DecidableEq, Repr

/-- Modelled from the spec: what the planner reads off the parsed file: the document
type, the top-level atoms in file order, the current `meta` size M and the slack F of
the sibling `free` atom inside `udta`. -/
structure ParsedLayout where
  documentTypeDash : Bool
  atoms : List TopLevelAtom
  metaSize : Nat
  freeSlack : Nat
deriving DecidableEq, Repr

/-- Modelled from the spec: the result of planning: whether the file is patched in
place, the order of the top-level atoms of the output, the final padding and the
notifications emitted. -/
structure RewriteOutcome where
  inPlace : Bool
  atomOrder : List TopLevelAtom
  padding : Nat
  notifications : List Notification
deriving DecidableEq, Repr

/-- Modelled from the spec: the error of a configuration with `min_padding` above
`max_padding`, which is rejected. -/
inductive PlannerError where
  | invalidConfig
deriving DecidableEq, Repr

namespace Planner

/-- Modelled from the spec: the warning of the DASH coercion. -/
def dashWarning : Notification :=
  { severity := NotificationType.warning,
    message := "Sorry, but putting index/tags at the end is not possible when dealing with DASH files.",
    context := "making file" }

/-- Modelled from the spec: the fragmented-MP4 test of step 4: the document type is
`dash` or a `moof` atom exists. -/
def isDash (layout : ParsedLayout) : Bool :=
  layout.documentTypeDash || layout.atoms.contains (TopLevelAtom.other OtherAtom.moof)

/-- The other atoms among a list of top-level atoms, in their order. -/
def others : List TopLevelAtom → List TopLevelAtom
  | [] => []
  | TopLevelAtom.other a :: rest => TopLevelAtom.other a :: others rest
  | _ :: rest => others rest

/-- Modelled from the spec: the other top-level atoms on the side in front of `mdat`. -/
def othersBeforeData (layout : ParsedLayout) : List TopLevelAtom :=
  others (layout.atoms.takeWhile (fun a => !decide (a = TopLevelAtom.mdat)))

/-- Modelled from the spec: the other top-level atoms on the side behind `mdat`. -/
def othersAfterData (layout : ParsedLayout) : List TopLevelAtom :=
  others (layout.atoms.dropWhile (fun a => !decide (a = TopLevelAtom.mdat)))

/-- Whether `moov` comes in front of `mdat` in a list of top-level atoms. -/
def moovFirst (atoms : List TopLevelAtom) : Bool :=
  (atoms.takeWhile (fun a => !decide (a = TopLevelAtom.mdat))).contains TopLevelAtom.moov

/-- Modelled from the spec: step 3, the order of the top-level atoms of a full rewrite:
`ftyp` first, then `moov` then `mdat` (BeforeData) or `mdat` then `moov` (AfterData), the
other atoms keeping their relative order and their side of `mdat`; with Keep, `moov`
stays on its side of `mdat`. -/
def fullRewriteOrder (position : ElementPosition) (layout : ParsedLayout) :
    List TopLevelAtom :=
  match position with
  | ElementPosition.beforeData =>
    TopLevelAtom.ftyp :: TopLevelAtom.moov :: othersBeforeData layout
      ++ TopLevelAtom.mdat :: othersAfterData layout
  | ElementPosition.afterData =>
    TopLevelAtom.ftyp :: othersBeforeData layout
      ++ TopLevelAtom.mdat :: TopLevelAtom.moov :: othersAfterData layout
  | ElementPosition.keep =>
    if moovFirst layout.atoms then
      TopLevelAtom.ftyp :: TopLevelAtom.moov :: othersBeforeData layout
        ++ TopLevelAtom.mdat :: othersAfterData layout
    else
      TopLevelAtom.ftyp :: othersBeforeData layout
        ++ TopLevelAtom.mdat :: TopLevelAtom.moov :: othersAfterData layout

/-- Modelled from the spec: the test of step 2 on the padding left by an in-place patch,
`min_padding ≤ M + F − M' ≤ max_padding`. -/
def fitsInPlace (cfg : PlannerConfig) (layout : ParsedLayout) (newMetaSize : Nat) : Bool :=
  decide (newMetaSize ≤ layout.metaSize + layout.freeSlack)
    && decide (cfg.minPadding ≤ layout.metaSize + layout.freeSlack - newMetaSize)
    && decide (layout.metaSize + layout.freeSlack - newMetaSize ≤ cfg.maxPadding)

/-- Modelled from the spec: step 6, the preferred padding clamped to the bounds. -/
def clampPadding (cfg : PlannerConfig) : Nat :=
  max cfg.minPadding (min cfg.preferredPadding cfg.maxPadding)

/-- Modelled from the spec: the decision procedure of the rewrite planner (steps 1 to 4
and 6), for the new `meta` size M'.  `preferKeep` is the choice the planner has when
`force_tag_position` is not set: it may override `tag_position` to Keep when respecting
it would force a full rewrite. -/
def plan (cfg : PlannerConfig) (layout : ParsedLayout) (newMetaSize : Nat)
    (preferKeep : Bool) : Except PlannerError RewriteOutcome :=
  if cfg.maxPadding < cfg.minPadding then Except.error PlannerError.invalidConfig
  else
    let position :=
      if !cfg.forceTagPosition && preferKeep && !cfg.forceRewrite
          && fitsInPlace cfg layout newMetaSize
      then ElementPosition.keep else cfg.tagPosition
    if !cfg.forceRewrite && decide (position = ElementPosition.keep)
        && fitsInPlace cfg layout newMetaSize then
      Except.ok
        { inPlace := true, atomOrder := layout.atoms,
          padding := layout.metaSize + layout.freeSlack - newMetaSize,
          notifications := [] }
    else if isDash layout && decide (position = ElementPosition.afterData) then
      Except.ok
        { inPlace := false, atomOrder := fullRewriteOrder ElementPosition.beforeData layout,
          padding := clampPadding cfg, notifications := [dashWarning] }
    else
      Except.ok
        { inPlace := false, atomOrder := fullRewriteOrder position layout,
          padding := clampPadding cfg, notifications := [] }

end Planner

/-! ## The backup helper -/

/-- Modelled from the spec: the files the rewrite touches, by path; a path without a file
gives `none`.  The functions of the backup helper are only declared in backuphelper.h,
their definitions (backuphelper.cpp) are not among the sources. -/
abbrev FileSystem := String → Option (List Nat)

/-- The file system with the file at `path` replaced (or removed, for `none`). -/
def FileSystem.put (fs : FileSystem) (path : String) (content : Option (List Nat)) :
    FileSystem :=
  fun p => if p = path then content else fs p

/-- Modelled from the spec: the errors of a rewrite: `BackupIoError` before the original
was modified, `RewriteFailed{context}` after the backup was restored. -/
inductive RewriteError where
  | backupIoError
  | rewriteFailed (context : String)
deriving DecidableEq, Repr

namespace BackupHelper

/-- Modelled from the spec: `createBackupFile` moves (renames) the original to the backup
path, so that the original path is free for a fresh output stream; it fails with
`BackupIoError` when there is no original to move, without side effects. -/
def createBackupFile (fs : FileSystem) (originalPath backupPath : String) :
    Except RewriteError FileSystem :=
  match fs originalPath with
  | none => Except.error RewriteError.backupIoError
  | some content => Except.ok ((fs.put originalPath none).put backupPath (some content))

/-- Modelled from the spec: `restoreOriginalFileFromBackupFile` renames the backup to the
original path. -/
def restoreOriginalFileFromBackupFile (fs : FileSystem) (originalPath backupPath : String) :
    FileSystem :=
  (fs.put originalPath (fs backupPath)).put backupPath none

/-- Modelled from the spec: `handleFailureAfterFileModified` restores the original from
the backup and then re-raises a `RewriteFailed{context}` error; the default context of
the declaration is "making file" (backuphelper.h:17). -/
def handleFailureAfterFileModified (fs : FileSystem) (originalPath backupPath : String)
    (context : String) : RewriteError × FileSystem :=
  (RewriteError.rewriteFailed context,
    restoreOriginalFileFromBackupFile fs originalPath backupPath)

/-- Modelled from the spec: the write protocol of a full rewrite: the source is moved
aside by the backup helper, the output is streamed to a new file at the original path,
and on success the backup is deleted.  `failAfter = some k` injects an I/O failure after
`k` bytes of the output were written, which is handled by
`handleFailureAfterFileModified`. -/
def fullRewrite (fs : FileSystem) (originalPath backupPath : String) (output : List Nat)
    (failAfter : Option Nat) : Except RewriteError Unit × FileSystem :=
  match createBackupFile fs originalPath backupPath with
  | Except.error e => (Except.error e, fs)
  | Except.ok moved =>
    match failAfter with
    | some k =>
      (Except.error
          (handleFailureAfterFileModified (moved.put originalPath (some (output.take k)))
            originalPath backupPath "making file").1,
        (handleFailureAfterFileModified (moved.put originalPath (some (output.take k)))
          originalPath backupPath "making file").2)
    | none => (Except.ok (), (moved.put originalPath (some output)).put backupPath none)

end BackupHelper

/-! ## Rewrite plans and chunk offsets -/

/-- Modelled from the spec: a segment of a rewrite plan: a copy of the source range
[start, stop), literal bytes, or a zero-fill of a given length. -/
inductive Segment where
  | copy (start stop : Nat)
  | literal (bytes : List Nat)
  | zeroFill (length : Nat)
deriving DecidableEq, Repr

/-- The bytes a segment contributes to the output, given the source file. -/
def Segment.bytes (source : List Nat) : Segment → List Nat
  | Segment.copy start stop => (source.drop start).take (stop - start)
  | Segment.literal bytes => bytes
  | Segment.zeroFill length => List.replicate length 0

/-- Modelled from the spec: the output of a rewrite plan, its segments streamed one after
the other. -/
def planOutput (source : List Nat) : List Segment → List Nat
  | [] => []
  | segment :: rest => segment.bytes source ++ planOutput source rest

/-- Modelled from the spec: the final layout of a full rewrite around the media data:
the segments in front of `mdat`, the source range [mdatStart, mdatStop) of the media
data, and the segments behind it. -/
structure MediaPlan where
  front : List Segment
  mdatStart : Nat
  mdatStop : Nat
  back : List Segment
deriving DecidableEq, Repr

/-- The segments of the layout in output order. -/
def MediaPlan.segments (p : MediaPlan) : List Segment :=
  p.front ++ Segment.copy p.mdatStart p.mdatStop :: p.back

/-- Modelled from the spec: step 5, the new absolute offset of the media data. -/
def MediaPlan.newMdatOffset (p : MediaPlan) (source : List Nat) : Nat :=
  (planOutput source p.front).length

/-- Modelled from the spec: step 5, the delta between the new and the old offset of the
media data. -/
def MediaPlan.delta (p : MediaPlan) (source : List Nat) : Int :=
  (p.newMdatOffset source : Int) - (p.mdatStart : Int)

/-- Modelled from the spec: the two kinds of chunk offset table, `stco` with 32-bit and
`co64` with 64-bit entries. -/
inductive OffsetTableKind where
  | stco
  | co64
deriving DecidableEq, Repr

/-- Modelled from the spec: a chunk offset table of a track. -/
structure ChunkOffsetTable where
  kind : OffsetTableKind
  offsets : List Nat
deriving DecidableEq, Repr

/-- Modelled from the spec: the error `OffsetOverflow`: after promotion a chunk offset
still does not fit. -/
inductive OffsetError where
  | offsetOverflow
deriving DecidableEq, Repr

/-- Modelled from the spec: step 5, the delta applied to every chunk offset of a table.
A 32-bit table an offset of which would overflow is promoted to 64 bit; the entries are
stored with the width of the table. -/
def shiftTable (delta : Int) (t : ChunkOffsetTable) : Except OffsetError ChunkOffsetTable :=
  if (t.offsets.map (fun (o : Nat) => ((o : Int) + delta).toNat)).any (fun o => decide (2 ^ 64 ≤ o))
  then Except.error OffsetError.offsetOverflow
  else if decide (t.kind = OffsetTableKind.stco)
      && (t.offsets.map (fun (o : Nat) => ((o : Int) + delta).toNat)).all (fun o => decide (o < 2 ^ 32))
  then Except.ok
    { kind := OffsetTableKind.stco,
      offsets := t.offsets.map (fun (o : Nat) => ((o : Int) + delta).toNat % 2 ^ 32) }
  else Except.ok
    { kind := OffsetTableKind.co64,
      offsets := t.offsets.map (fun (o : Nat) => ((o : Int) + delta).toNat % 2 ^ 64) }

/-! ## The MP4 tag maker -/

/-- A 32-bit unsigned integer in big-endian byte order (the value is taken modulo
2^32). -/
def uint32BE (n : Nat) : List Nat :=
  [n / 16777216 % 256, n / 65536 % 256, n / 256 % 256, n % 256]

/-- Modelled from the spec: a `data` atom of a field: `size, 'data', type_indicator:u32,
locale:u32, payload`. -/
structure Mp4DataAtom where
  typeIndicator : Nat
  locale : Nat
  payload : List Nat
deriving DecidableEq, Repr

/-- Modelled from the spec: a child of `ilst` as it is serialized: the identifier, for an
extended field the `mean` and `name` strings, and the `data` atoms of its values. -/
structure Mp4FieldAtom where
  id : Nat
  extended : Option (List Nat × List Nat)
  data : List Mp4DataAtom
deriving DecidableEq, Repr

/-- The bytes of a `data` atom. -/
def Mp4DataAtom.bytes (d : Mp4DataAtom) : List Nat :=
  uint32BE (16 + d.payload.length) ++ [100, 97, 116, 97] ++ uint32BE d.typeIndicator
    ++ uint32BE d.locale ++ d.payload

/-- Modelled from the spec: the maker of one field (`Mp4TagFieldMaker`, mp4tagfield.h is
not among the sources): the field and its size, computed at preparation. -/
structure Mp4TagFieldMaker where
  field : Mp4FieldAtom
  requiredSize : Nat
deriving DecidableEq, Repr

namespace Mp4TagFieldMaker

/-- Modelled from the spec: the size of the `mean` and `name` atoms an extended field
prepends, each `size, type, flags:u32=0, UTF-8 bytes`. -/
def extendedSize : Option (List Nat × List Nat) → Nat
  | none => 0
  | some (mean, name) => (12 + mean.length) + (12 + name.length)

/-- Modelled from the spec: the preparation of one field computes its size: the header,
the `mean` and `name` atoms, and 16 bytes plus the payload for every `data` atom. -/
def prepare (f : Mp4FieldAtom) : Mp4TagFieldMaker :=
  { field := f,
    requiredSize := 8 + extendedSize f.extended
      + (f.data.map (fun d => 16 + d.payload.length)).sum }

/-- The bytes of the `mean` and `name` atoms of an extended field. -/
def extendedBytes : Option (List Nat × List Nat) → List Nat
  | none => []
  | some (mean, name) =>
    (uint32BE (12 + mean.length) ++ [109, 101, 97, 110] ++ uint32BE 0 ++ mean)
      ++ (uint32BE (12 + name.length) ++ [110, 97, 109, 101] ++ uint32BE 0 ++ name)

/-- The bytes of the `data` atoms of a field, in the order of the values. -/
def dataBytes : List Mp4DataAtom → List Nat
  | [] => []
  | d :: rest => d.bytes ++ dataBytes rest

/-- Modelled from the spec: making one field writes `size, id, [mean, name,] data…`. -/
def make (mk : Mp4TagFieldMaker) : List Nat :=
  uint32BE mk.requiredSize ++ uint32BE mk.field.id ++ extendedBytes mk.field.extended
    ++ dataBytes mk.field.data

end Mp4TagFieldMaker

/-- The class `Mp4TagMaker` (mp4tag.h:55-72): the field makers, the size of the `meta`
atom, the size of the `ilst` atom and the genre flag. -/
structure Mp4TagMaker where
  maker : List Mp4TagFieldMaker
  metaSize : Nat
  ilstSize : Nat
  omitPreDefinedGenre : Bool
deriving DecidableEq, Repr

namespace Mp4TagMaker

/-- The getter `requiredSize()` (mp4tag.h:85-88). -/
def requiredSize (mk : Mp4TagMaker) : Nat :=
  mk.metaSize

/-- Modelled from the spec: the `hdlr` atom this core writes: `version_flags:u32=0,
predefined:u32=0, handler:'mdir', manufacturer:'appl', reserved:[3]u32=0` and the empty
name as a single NUL. -/
def hdlrBytes : List Nat :=
  uint32BE 37 ++ [104, 100, 108, 114] ++ uint32BE 0 ++ uint32BE 0 ++ [109, 100, 105, 114]
    ++ [97, 112, 112, 108] ++ List.replicate 12 0 ++ [0]

/-- Modelled from the spec: the fields an MP4 tag serializes, from its entries in stored
order: one field per (identifier, mean, name) with a `data` atom for each non-empty
value; entries with an empty value are tombstones and are left out.  `encode` gives the
type indicator, locale and payload of a value, which the spec leaves to the codec. -/
def fieldAtoms (encode : TagValue → Mp4DataAtom) (entries : List Mp4TagField) :
    List Mp4FieldAtom :=
  ((entries.map (fun f => (f.id, f.mean, f.name))).dedup).filterMap (fun k =>
    if ((entries.filter (fun f => decide ((f.id, f.mean, f.name) = k)
          && !f.value.isEmpty)).map (fun f => encode f.value)).isEmpty
    then none
    else some
      { id := k.1,
        extended := if k.1 = 757935405 then some (k.2.1, k.2.2) else none,
        data := (entries.filter (fun f => decide ((f.id, f.mean, f.name) = k)
          && !f.value.isEmpty)).map (fun f => encode f.value) })

/-- Modelled from the spec: `prepareMaking()` (the constructor of `Mp4TagMaker`, defined
in mp4tag.cpp, which is not among the sources): every field is prepared, the size of
`ilst` is its header plus the fields, and the size of `meta` is its header, the version
and flags, the `hdlr` atom and `ilst`.  The spec words "excluding enclosing atom header"
are read with `requiredSize()` of mp4tag.h:83, "the number of bytes which will be written
when making the tag": the header of the atom enclosing `meta` is not counted.  The
fields handed over are the ones to be written; the choice between the two genre atoms
lies with the caller, and `omitPreDefinedGenre` is not set. -/
def prepare (fields : List Mp4FieldAtom) : Mp4TagMaker :=
  { maker := fields.map Mp4TagFieldMaker.prepare,
    ilstSize := 8 + ((fields.map Mp4TagFieldMaker.prepare).map (fun m => m.requiredSize)).sum,
    metaSize := 8 + 4 + 37
      + (8 + ((fields.map Mp4TagFieldMaker.prepare).map (fun m => m.requiredSize)).sum),
    omitPreDefinedGenre := false }

/-- The bytes of the prepared fields, one after the other. -/
def fieldBytes : List Mp4TagFieldMaker → List Nat
  | [] => []
  | m :: rest => m.make ++ fieldBytes rest

/-- Modelled from the spec: `make(stream)` (mp4tag.cpp, not among the sources) streams
`meta` (version/flags) { `hdlr` · `ilst` { field … } } from the prepared state, without
recomputation: the bytes written and the maker afterwards.  The optional free space
behind `ilst` is the padding the planner adds. -/
def make (mk : Mp4TagMaker) : List Nat × Mp4TagMaker :=
  (uint32BE mk.metaSize ++ [109, 101, 116, 97] ++ uint32BE 0 ++ hdlrBytes
      ++ (uint32BE mk.ilstSize ++ [105, 108, 115, 116] ++ fieldBytes mk.maker),
    mk)

end Mp4TagMaker

/-! ## The MP4 test matrix -/

namespace Mp4TestFlags

/-- The flag `ForceRewring` of the enumeration `TestFlag` (overallmp4.cpp:12). -/
def ForceRewring : Nat := 0x1

/-- The flag `KeepTagPos` (overallmp4.cpp:13). -/
def KeepTagPos : Nat := 0x2

/-- The flag `TagsBeforeData` (overallmp4.cpp:14). -/
def TagsBeforeData : Nat := 0x10

/-- The flag `RemoveTagOrTrack` (overallmp4.cpp:15), the bitwise AND of two flags. -/
def RemoveTagOrTrack : Nat := KeepTagPos &&& TagsBeforeData

/-- The flag `PaddingConstraints` (overallmp4.cpp:16). -/
def PaddingConstraints : Nat := 0x4

/-- The flag `ForceTagPos` (overallmp4.cpp:17). -/
def ForceTagPos : Nat := 0x8

end Mp4TestFlags

/-- The values of `TagStatus` the MP4 tests use (overallmp4.cpp:44-55, 446, 509). -/
inductive TagStatus where
  | original
  | testMetaDataPresent
  | removed
deriving DecidableEq, Repr

/-- The member functions `testMp4Making` passes to `makeFile` as the routine that
modifies the file (overallmp4.cpp:510, 517). -/
inductive ModifyRoutine where
  | removeAllTags
  | setMp4TestMetaData
  | removeSecondTrack
  | alterMp4Tracks
deriving DecidableEq, Repr

/-- The member functions `testMp4Making` passes to `makeFile` as the routine that checks
the written file (overallmp4.cpp:511-519). -/
inductive CheckRoutine where
  | checkMp4Testfile1
  | checkMp4Testfile2
  | checkMp4Testfile3
  | checkMp4Testfile4
  | checkMp4Testfile5
  | checkMp4Testfile6
deriving DecidableEq, Repr

/-- One call `makeFile(workingCopyPath(path), modifyRoutine, checkRoutine)`, together with
the tag position set on the file info when the call is made. -/
structure MakeFileCall where
  path : String
  tagPosition : ElementPosition
  modifyRoutine : ModifyRoutine
  checkRoutine : CheckRoutine
deriving DecidableEq, Repr

/-- What one pass of the loop of `testMp4Making` sets up and does for the mode `mode`: the
settings of the file info, the printed test conditions, the tag status and the calls of
`makeFile`. -/
structure MakingRun where
  mode : Nat
  forceRewrite : Bool
  tagPosition : ElementPosition
  indexPosition : ElementPosition
  preferredPadding : Nat
  minPadding : Nat
  maxPadding : Nat
  forceTagPosition : Bool
  forceIndexPosition : Bool
  testConditions : List String
  tagStatus : TagStatus
  calls : List MakeFileCall
deriving DecidableEq, Repr

namespace OverallTests

open Mp4TestFlags

/-- The test `m_mode & flag` of a mode against a flag, read as a condition. -/
def hasFlag (mode flag : Nat) : Bool :=
  decide (mode &&& flag ≠ 0)

/-- The test conditions printed for a mode (overallmp4.cpp:484-504). -/
def testConditions (mode : Nat) : List String :=
  (if hasFlag mode ForceRewring then ["forcing rewrite"] else [])
    ++ (if hasFlag mode KeepTagPos then
          (if hasFlag mode RemoveTagOrTrack then ["removing tag"]
           else ["keeping tag position"])
        else if hasFlag mode TagsBeforeData then ["tags before data"]
        else ["tags after data"])
    ++ (if hasFlag mode PaddingConstraints then ["padding constraints"] else [])
    ++ (if hasFlag mode ForceTagPos then ["forcing tag position"] else [])

/-- The body of the loop of `testMp4Making` for one mode (overallmp4.cpp:466-519);
`sizeMax` is the value of `static_cast<size_t>(-1)`. -/
def testMp4MakingBody (sizeMax mode : Nat) : MakingRun :=
  let tagPosition :=
    if hasFlag mode KeepTagPos then ElementPosition.keep
    else if hasFlag mode TagsBeforeData then ElementPosition.beforeData
    else ElementPosition.afterData
  let modifyRoutine :=
    if hasFlag mode RemoveTagOrTrack then ModifyRoutine.removeAllTags
    else ModifyRoutine.setMp4TestMetaData
  let trackRoutine :=
    if hasFlag mode RemoveTagOrTrack then ModifyRoutine.removeSecondTrack
    else ModifyRoutine.alterMp4Tracks
  { mode := mode
    forceRewrite := hasFlag mode ForceRewring
    tagPosition := tagPosition
    indexPosition := tagPosition
    preferredPadding := if hasFlag mode PaddingConstraints then 4096 else 0
    minPadding := if hasFlag mode PaddingConstraints then 1024 else 0
    maxPadding := if hasFlag mode PaddingConstraints then 4096 + 1024 else sizeMax
    forceTagPosition := hasFlag mode ForceTagPos
    forceIndexPosition := hasFlag mode ForceTagPos
    testConditions := testConditions mode
    tagStatus :=
      if hasFlag mode RemoveTagOrTrack then TagStatus.removed
      else TagStatus.testMetaDataPresent
    calls :=
      [{ path := "mtx-test-data/mp4/10-DanseMacabreOp.40.m4a", tagPosition := tagPosition,
         modifyRoutine := modifyRoutine, checkRoutine := CheckRoutine.checkMp4Testfile1 },
       { path := "mtx-test-data/mp4/1080p-DTS-HD-7.1.mp4", tagPosition := tagPosition,
         modifyRoutine := modifyRoutine, checkRoutine := CheckRoutine.checkMp4Testfile2 },
       { path := "mtx-test-data/mp4/dash/dragon-age-inquisition-H1LkM6IVlm4-video.mp4",
         tagPosition := tagPosition, modifyRoutine := modifyRoutine,
         checkRoutine := CheckRoutine.checkMp4Testfile3 },
       { path := "mtx-test-data/alac/othertest-itunes.m4a", tagPosition := tagPosition,
         modifyRoutine := modifyRoutine, checkRoutine := CheckRoutine.checkMp4Testfile4 },
       { path := "mtx-test-data/aac/he-aacv2-ps.m4a", tagPosition := tagPosition,
         modifyRoutine := modifyRoutine, checkRoutine := CheckRoutine.checkMp4Testfile5 },
       { path := "mtx-test-data/mp4/1080p-DTS-HD-7.1.mp4",
         tagPosition := ElementPosition.keep, modifyRoutine := trackRoutine,
         checkRoutine := CheckRoutine.checkMp4Testfile6 }] }

/-- The loop `for(m_mode = 0; m_mode != 0x20; ++m_mode)` of `testMp4Making`
(overallmp4.cpp:465-520) from the mode `mode` on, with a bound on the number of tests of
the loop condition: the passes made, or `none` when the bound is reached before the
condition fails. -/
def testMp4MakingLoop (sizeMax : Nat) : Nat → Nat → Option (List MakingRun)
  | 0, _ => none
  | fuel + 1, mode =>
    if mode ≠ 0x20 then
      (testMp4MakingLoop sizeMax fuel (mode + 1)).map
        (fun runs => testMp4MakingBody sizeMax mode :: runs)
    else some []

/-- The test `testMp4Making` (overallmp4.cpp:459-521): the loop started at mode 0. -/
def testMp4Making (sizeMax fuel : Nat) : Option (List MakingRun) :=
  testMp4MakingLoop sizeMax fuel 0

/-- The number of tracks `checkMp4Testfile6` asserts for a mode (overallmp4.cpp:271-275). -/
def expectedTrackCount (mode : Nat) : Nat :=
  if hasFlag mode RemoveTagOrTrack then 4 else 6

/-- Whether `checkMp4Testfile6` asserts the tracks 2 and 5 to be present for a mode
(overallmp4.cpp:330-336). -/
def expectsTracks2And5 (mode : Nat) : Bool :=
  if hasFlag mode RemoveTagOrTrack then false else true

/-- The five flag bits of a mode. -/
def flagBits (mode : Nat) : Bool × Bool × Bool × Bool × Bool :=
  (hasFlag mode ForceRewring, hasFlag mode KeepTagPos, hasFlag mode PaddingConstraints,
    hasFlag mode ForceTagPos, hasFlag mode TagsBeforeData)

end OverallTests

/-! ## The vocabulary of the specification -/

namespace Spec

variable {Id TI : Type} [LinearOrder Id]

/-- The fields stored under `id`, in stored order. -/
def storedUnder (m : FieldMap Id TI) (id : Id) : List (TagField Id TI) :=
  (m.filter (fun e => decide (e.1 = id))).map Prod.snd

/-- The values of the fields stored under `id`, in stored order. -/
def storedValues (m : FieldMap Id TI) (id : Id) : List TagValue :=
  (storedUnder m id).map (fun f => f.value)

/-- The non-empty elements of a list of values, in their given order. -/
def nonEmptyValues (vs : List TagValue) : List TagValue :=
  vs.filter (fun v => !v.isEmpty)

/-- The first non-empty value among the fields stored under `id`, and the empty value
when no field under `id` holds a non-empty value. -/
def firstNonEmptyValue (m : FieldMap Id TI) (id : Id) : TagValue :=
  ((storedValues m id).find? (fun v => !v.isEmpty)).getD TagValue.empty

/-- The value of the first field stored under `id`, and the empty value when no field is
stored under `id`. -/
def firstStoredValue (m : FieldMap Id TI) (id : Id) : TagValue :=
  ((storedValues m id).head?).getD TagValue.empty

/-- The positional reading of `setValues(id, [v1..vn])` on a tag with m fields under
`id`: afterwards `id` has exactly max(m, n) fields, the k-th of them holds v_k for every
k <= n, and every field beyond the n-th holds the empty value. -/
def positional (before after : FieldMap Id TI) (id : Id) (vs : List TagValue) : Prop :=
  (storedValues after id).length = max (storedValues before id).length vs.length ∧
  (∀ k, k < vs.length → (storedValues after id)[k]? = vs[k]?) ∧
  (∀ k, vs.length ≤ k → k < (storedValues after id).length →
    (storedValues after id)[k]? = some TagValue.empty)

/-- Every field stored before that satisfies `P` (given its identifier) is afterwards
still stored at the same place under the same identifier, unchanged. -/
def keptInPlace (P : Id → TagField Id TI → Bool) (before after : FieldMap Id TI) : Prop :=
  ∀ (id : Id) (i : Nat) (f : TagField Id TI),
    (storedUnder before id)[i]? = some f → P id f = true → (storedUnder after id)[i]? = some f

/-- Every field stored before keeps its place among the fields of its identifier: the
i-th field under an identifier is afterwards still the i-th field under that identifier,
recognisable by its type info, which no mutator changes; new fields come behind. -/
def staysInPlace (before after : FieldMap Id TI) : Prop :=
  ∀ (id : Id) (i : Nat) (f : TagField Id TI),
    (storedUnder before id)[i]? = some f →
      ∃ g, (storedUnder after id)[i]? = some g ∧ g.typeInfo = f.typeInfo

/-- Whether some non-empty field of the source tag has the identifier `id` and type info
matching that of `f`. -/
def hasMatchingSource [DecidableEq TI] (source : FieldMap Id TI) (id : Id)
    (f : TagField Id TI) : Bool :=
  source.any (fun p => !p.2.value.isEmpty && decide (p.2.id = id)
    && FieldMapBasedTag.typeInfoMatches p.2 f)

/-- The number of copies `insertFields` makes of one non-empty source field `f`: one for
every own entry under its identifier with matching type info that it is copied over
(any such entry with `overwrite`, the empty ones without), and one when there is no such
entry and `f` is added as a new entry. -/
def copiesMade [DecidableEq TI] (own : FieldMap Id TI) (f : TagField Id TI)
    (overwrite : Bool) : Nat :=
  if ((storedUnder own f.id).filter (fun g => FieldMapBasedTag.typeInfoMatches f g)).isEmpty
  then 1
  else ((storedUnder own f.id).filter (fun g => FieldMapBasedTag.typeInfoMatches f g)).countP
    (fun g => overwrite || g.value.isEmpty)

/-- No two entries of the tag share identifier and type info. -/
def distinctTypeInfo (own : FieldMap Id TI) : Prop :=
  (own.map (fun e => (e.1, e.2.typeInfo))).Nodup

end Spec

namespace Spec

variable {Id TI : Type} [LinearOrder Id]

/-- The fields stored under `id` whose type info is `ti` (`none` when no type info is
assigned), in stored order. -/
def storedWith [DecidableEq TI] (m : FieldMap Id TI) (id : Id) (ti : Option TI) :
    List (TagField Id TI) :=
  (storedUnder m id).filter (fun g => decide (g.typeInfo = ti))

/-- The non-empty fields of a source tag with the identifier `id` and the type info
`ti`, in stored order. -/
def sourceGroup [DecidableEq TI] (source : FieldMap Id TI) (id : Id) (ti : Option TI) :
    List (TagField Id TI) :=
  (source.map Prod.snd).filter
    (fun f => !f.value.isEmpty && decide (f.id = id) && decide (f.typeInfo = ti))

/-- What the body of `insertFields` for a non-empty field `f` makes of the own fields with
its identifier and type info: `f` alone when there is none, and otherwise the fields with
`f` copied over those that may be overwritten. -/
def mergedWith (overwrite : Bool) (L : List (TagField Id TI)) (f : TagField Id TI) :
    List (TagField Id TI) :=
  if L.isEmpty then [f]
  else L.map (fun g => if overwrite || g.value.isEmpty then f else g)

end Spec

/-! ## Sample tags -/

namespace Sample

/-- A text value with the given bytes in UTF-8. -/
def txt (bytes : List Nat) : TagValue :=
  TagValue.text TagTextEncoding.utf8 bytes

/-- A field without type info. -/
def fld (id : Nat) (v : TagValue) : Nat × TagField Nat Nat :=
  (id, TagField.create id v)

/-- A tag holding under identifier 1 an empty-valued field followed by a text field. -/
def emptyThenText : FieldMap Nat Nat :=
  [fld 1 TagValue.empty, fld 1 (txt [120])]

/-- A tag with an empty field under identifier 1, an empty field between two text fields
under identifier 2, and a number under identifier 5. -/
def mixed : FieldMap Nat Nat :=
  [fld 1 TagValue.empty, fld 2 (txt [98]), fld 2 TagValue.empty, fld 2 (txt [99]),
    fld 5 (TagValue.integer 7)]

/-- A tag holding a single text field under identifier 1. -/
def singleText : FieldMap Nat Nat :=
  [fld 1 (txt [97])]

/-- A tag holding a single empty-valued field under identifier 1. -/
def singleEmpty : FieldMap Nat Nat :=
  [fld 1 TagValue.empty]

/-- A tag holding two text fields without type info under identifier 1. -/
def twoTexts : FieldMap Nat Nat :=
  [fld 1 (txt [97]), fld 1 (txt [98])]

/-- A tag with type infos: under identifier 1 a field with type info 7 and a field
without type info, under identifier 2 a field with type info 7. -/
def typed : FieldMap Nat Nat :=
  [(1, { id := 1, value := txt [97], typeInfo := some 7 }),
   (1, { id := 1, value := txt [98], typeInfo := none }),
   (2, { id := 2, value := txt [99], typeInfo := some 7 })]

/-- A source tag with one field under identifier 1 with type info 7. -/
def typedSource : FieldMap Nat Nat :=
  [(1, { id := 1, value := txt [120], typeInfo := some 7 })]

/-- A source tag with a field under identifier 2 and a field under identifier 1, both
without type info. -/
def plainSource : FieldMap Nat Nat :=
  [fld 2 (txt [120]), fld 1 (txt [121])]

/-- An extended field id with mean "ab" and name "c", both NUL-terminated. -/
def extendedId : Mp4ExtendedFieldId :=
  { mean := some [97, 98, 0], name := some [99, 0], updateOnly := false }

/-- An extended MP4 field with mean "ab" and name "c". -/
def extendedField : Mp4TagField :=
  { id := 757935405, value := txt [120], typeInfo := none, mean := [97, 98], name := [99] }

/-- A mapping of known fields to MP4 identifiers in which EncoderSettings has no
mapping: it gets the default-constructed identifier 0. -/
def mp4FieldId : KnownField → Nat
  | KnownField.title => 2842583405
  | KnownField.artist => 2839630420
  | KnownField.album => 2841734242
  | _ => 0

/-- The padding constraints of the test matrix: preferred 4096, at least 1024, at most
4096 + 1024. -/
def testPadding (tagPosition : ElementPosition) (forceTagPosition forceRewrite : Bool) :
    PlannerConfig :=
  { tagPosition := tagPosition, indexPosition := tagPosition,
    forceTagPosition := forceTagPosition, forceIndexPosition := forceTagPosition,
    forceRewrite := forceRewrite, preferredPadding := 4096, minPadding := 1024,
    maxPadding := 4096 + 1024 }

/-- A forced rewrite whose preferred padding 0 lies below the minimum 1024. -/
def lowPreferred : PlannerConfig :=
  { tagPosition := ElementPosition.keep, indexPosition := ElementPosition.keep,
    forceTagPosition := false, forceIndexPosition := false, forceRewrite := true,
    preferredPadding := 0, minPadding := 1024, maxPadding := 4096 + 1024 }

/-- A file with the media data in front of `moov`, a `meta` atom of 500 bytes and 2000
bytes of free space next to it. -/
def plainLayout : ParsedLayout :=
  { documentTypeDash := false,
    atoms := [TopLevelAtom.ftyp, TopLevelAtom.mdat, TopLevelAtom.moov],
    metaSize := 500, freeSlack := 2000 }

/-- A file system with a file of four bytes at "a.m4a" and nothing else. -/
def oneFile : FileSystem :=
  fun p => if p = "a.m4a" then some [1, 2, 3, 4] else none

/-- A source file of ten bytes whose media data is the range [4, 8). -/
def sourceBytes : List Nat :=
  [10, 11, 12, 13, 20, 21, 22, 23, 30, 31]

/-- A layout that puts six literal bytes and two bytes of padding in front of the media
data of `sourceBytes`, moving it from offset 4 to offset 8. -/
def movedPlan : MediaPlan :=
  { front := [Segment.literal [1, 2, 3, 4, 5, 6], Segment.zeroFill 2],
    mdatStart := 4, mdatStop := 8, back := [Segment.copy 8 10] }

/-- A 32-bit chunk offset table with chunks at the offsets 4 and 6. -/
def chunkTable : ChunkOffsetTable :=
  { kind := OffsetTableKind.stco, offsets := [4, 6] }

/-- The entries of an MP4 tag: a title, an emptied artist and an extended field. -/
def mp4Entries : List Mp4TagField :=
  [{ id := 2842583405, value := txt [72, 105], typeInfo := none, mean := [], name := [] },
   { id := 2839630420, value := TagValue.empty, typeInfo := none, mean := [], name := [] },
   extendedField]

/-- An encoding of values as `data` atoms that writes text as UTF-8 (type indicator 1)
and everything else as an empty binary payload. -/
def textEncoding : TagValue → Mp4DataAtom
  | TagValue.text _ bytes => { typeIndicator := 1, locale := 0, payload := bytes }
  | _ => { typeIndicator := 0, locale := 0, payload := [] }

/-- A tag target for the second track at album level, with a level name. -/
def albumTarget : TagTarget :=
  { storedLevel := 50, levelName := "ALBUM", tracks := [2], chapters := [], editions := [],
    attachments := [] }

/-- A target with the level explicitly set to 50 and no ids. -/
def level50Target : TagTarget :=
  TagTarget.create 50 [] [] [] []

/-- A target with a level name and nothing else. -/
def namedTarget : TagTarget :=
  TagTarget.createDefault.setLevelName "ALBUM"

/-- A mapping of levels to `TagTargetLevel` values that tells the album level from the
others. -/
def albumMapping (level : Nat) : TagTargetLevel :=
  if level = 50 then TagTargetLevel.album else TagTargetLevel.unspecified

/-- A string representation showing only the mapped level. -/
def levelOnly (_t : TagTarget) : TagTargetLevel → String
  | TagTargetLevel.album => "album"
  | _ => ""

/-- A source tag with three text fields without type info and an empty field under
identifier 1, and a field under identifier 2. -/
def repeatedSource : FieldMap Nat Nat :=
  [fld 1 (txt [97]), fld 1 (txt [98]), fld 1 TagValue.empty, fld 1 (txt [99]),
    fld 2 (txt [100])]

end Sample

/-! ## Auxiliary facts about list segments -/

namespace Aux

variable {α : Type}

theorem takeWhile_append_stop (p : α → Bool) (l X : List α)
    (hX : ∀ x ∈ X.head?, p x = false) :
    (l.takeWhile p ++ X).takeWhile p = l.takeWhile p := by
  induction l with
  | nil =>
    cases X with
    | nil => rfl
    | cons x X => simp [List.takeWhile, hX x (by simp)]
  | cons a l ih =>
    by_cases ha : p a = true
    · simp [List.takeWhile_cons, ha, ih]
    · cases X with
      | nil => simp [List.takeWhile_cons, ha]
      | cons x X => simp [List.takeWhile_cons, ha, hX x (by simp)]

theorem dropWhile_append_stop (p : α → Bool) (l X : List α)
    (hX : ∀ x ∈ X.head?, p x = false) :
    (l.takeWhile p ++ X).dropWhile p = X := by
  induction l with
  | nil =>
    cases X with
    | nil => rfl
    | cons x X => simp [List.dropWhile, hX x (by simp)]
  | cons a l ih =>
    by_cases ha : p a = true
    · simp [List.takeWhile_cons, List.dropWhile_cons, ha, ih]
    · cases X with
      | nil => simp [List.takeWhile_cons, ha]
      | cons x X => simp [List.takeWhile_cons, List.dropWhile_cons, ha, hX x (by simp)]

theorem head_dropWhile_stop (p : α → Bool) (l : List α) :
    ∀ x ∈ (l.dropWhile p).head?, p x = false := by
  induction l with
  | nil => simp
  | cons a l ih =>
    by_cases ha : p a = true
    · simpa [List.dropWhile_cons, ha] using ih
    · simp [List.dropWhile_cons, ha]

/-- On a list along which `p` never turns from false to true, the leading run of `p`
holds every element satisfying `p`. -/
theorem takeWhile_eq_filter (p : α → Bool) (l : List α)
    (h : l.Pairwise (fun a b => p b = true → p a = true)) :
    l.takeWhile p = l.filter p := by
  induction l with
  | nil => rfl
  | cons a l ih =>
    rw [List.pairwise_cons] at h
    by_cases ha : p a = true
    · simp [List.takeWhile_cons, List.filter_cons, ha, ih h.2]
    · have hall : ∀ b ∈ l, p b = false := by
        intro b hb
        by_contra hpb
        exact ha (h.1 b hb (by simpa using hpb))
      simp only [List.takeWhile_cons, List.filter_cons, ha]
      simp only [Bool.false_eq_true, if_false]
      symm
      rw [List.filter_eq_nil_iff]
      intro b hb
      simp [hall b hb]

theorem dropWhile_eq_filter (p : α → Bool) (l : List α)
    (h : l.Pairwise (fun a b => p b = true → p a = true)) :
    l.dropWhile p = l.filter (fun x => !p x) := by
  induction l with
  | nil => rfl
  | cons a l ih =>
    rw [List.pairwise_cons] at h
    by_cases ha : p a = true
    · simp [List.dropWhile_cons, List.filter_cons, ha, ih h.2]
    · have hall : ∀ b ∈ l, p b = false := by
        intro b hb
        by_contra hpb
        exact ha (h.1 b hb (by simpa using hpb))
      have hfl : l.filter (fun x => !p x) = l := by
        rw [List.filter_eq_self]
        intro b hb
        simp [hall b hb]
      simp [List.dropWhile_cons, List.filter_cons, ha, hfl]

/-- Counting the elements satisfying `p` key by key, over any duplicate-free list of keys
that holds every key of the list. -/
theorem sum_countP_by_key {κ : Type} [DecidableEq κ] (f : α → κ) (p : α → Bool)
    (ks : List κ) (hks : ks.Nodup) (l : List α) (hl : ∀ x ∈ l, f x ∈ ks) :
    (ks.map (fun k => l.countP (fun x => decide (f x = k) && p x))).sum = l.countP p := by
  induction l with
  | nil => simp
  | cons x l ih =>
    have hrec := ih (fun y hy => hl y (by simp [hy]))
    have hsplit : (ks.map (fun k => (x :: l).countP (fun x => decide (f x = k) && p x)))
        = ks.map (fun k => l.countP (fun x => decide (f x = k) && p x)
            + (if k = f x then (if p x = true then 1 else 0) else 0)) := by
      apply List.map_congr_left
      intro k _
      rw [List.countP_cons]
      by_cases hk : f x = k
      · by_cases hp : p x = true
        · simp [hk, hp]
        · simp [hk, hp]
      · simp [hk, Ne.symm hk]
    have hind : ∀ (c : Nat) (js : List κ),
        (js.map (fun k => if k = f x then c else 0)).sum = js.count (f x) * c := by
      intro c js
      induction js with
      | nil => simp
      | cons j js ihj =>
        by_cases hj : j = f x
        · simp [List.count_cons, hj, ihj, Nat.add_mul]
          omega
        · simp [List.count_cons, hj, ihj]
    rw [hsplit, List.sum_map_add, hrec, hind,
      List.count_eq_one_of_mem hks (hl x (by simp)), List.countP_cons]
    simp

end Aux

/-! ## The segments of the multimap -/

namespace FieldMap

variable {Id TI : Type} [LinearOrder Id]

theorem lower_append_from (m : FieldMap Id TI) (id : Id) :
    beforeLowerBound m id ++ fromLowerBound m id = m :=
  List.takeWhile_append_dropWhile _ m

theorem range_append_upper (m : FieldMap Id TI) (id : Id) :
    equalRange m id ++ fromUpperBound m id = fromLowerBound m id :=
  List.takeWhile_append_dropWhile _ (fromLowerBound m id)

theorem segments_eq (m : FieldMap Id TI) (id : Id) :
    beforeLowerBound m id ++ equalRange m id ++ fromUpperBound m id = m := by
  rw [List.append_assoc, range_append_upper, lower_append_from]

theorem beforeLowerBound_eq_filter (m : FieldMap Id TI) (h : KeyOrdered m) (id : Id) :
    beforeLowerBound m id = m.filter (fun e => decide (e.1 < id)) := by
  apply Aux.takeWhile_eq_filter
  refine List.Pairwise.imp ?_ h
  intro a b hab hb
  simp only [decide_eq_true_eq] at hb ⊢
  exact lt_of_le_of_lt hab hb

theorem fromLowerBound_eq_filter (m : FieldMap Id TI) (h : KeyOrdered m) (id : Id) :
    fromLowerBound m id = m.filter (fun e => !decide (e.1 < id)) := by
  apply Aux.dropWhile_eq_filter
  refine List.Pairwise.imp ?_ h
  intro a b hab hb
  simp only [decide_eq_true_eq] at hb ⊢
  exact lt_of_le_of_lt hab hb

theorem ordered_fromLowerBound (m : FieldMap Id TI) (h : KeyOrdered m) (id : Id) :
    KeyOrdered (fromLowerBound m id) :=
  List.Pairwise.sublist (List.dropWhile_sublist _) h

theorem equalRange_eq_filter (m : FieldMap Id TI) (h : KeyOrdered m) (id : Id) :
    equalRange m id = m.filter (fun e => decide (e.1 = id)) := by
  unfold equalRange
  rw [Aux.takeWhile_eq_filter _ _ (by
    refine List.Pairwise.imp ?_ (ordered_fromLowerBound m h id)
    intro a b hab hb
    simp only [Bool.not_eq_true', decide_eq_false_iff_not, not_lt] at hb ⊢
    exact le_trans hab hb)]
  rw [fromLowerBound_eq_filter m h id, List.filter_filter]
  apply List.filter_congr
  intro e _
  by_cases h1 : e.1 = id
  · simp [h1]
  · rcases lt_or_gt_of_ne h1 with h2 | h2
    · simp [h1, h2]
    · simp [h1, h2]

theorem fromUpperBound_eq_filter (m : FieldMap Id TI) (h : KeyOrdered m) (id : Id) :
    fromUpperBound m id = m.filter (fun e => decide (id < e.1)) := by
  unfold fromUpperBound
  rw [Aux.dropWhile_eq_filter _ _ (by
    refine List.Pairwise.imp ?_ (ordered_fromLowerBound m h id)
    intro a b hab hb
    simp only [Bool.not_eq_true', decide_eq_false_iff_not, not_lt] at hb ⊢
    exact le_trans hab hb)]
  rw [fromLowerBound_eq_filter m h id, List.filter_filter]
  apply List.filter_congr
  intro e _
  by_cases h1 : id < e.1
  · simp [h1, not_lt_of_gt h1]
  · simp [h1]

theorem lt_of_mem_beforeLowerBound (m : FieldMap Id TI) (id : Id) :
    ∀ e ∈ beforeLowerBound m id, e.1 < id := by
  intro e he
  have := List.mem_takeWhile_imp he
  simpa using this

theorem eq_of_mem_equalRange (m : FieldMap Id TI) (h : KeyOrdered m) (id : Id) :
    ∀ e ∈ equalRange m id, e.1 = id := by
  intro e he
  rw [equalRange_eq_filter m h id, List.mem_filter] at he
  simpa using he.2

theorem lt_of_mem_fromUpperBound (m : FieldMap Id TI) (h : KeyOrdered m) (id : Id) :
    ∀ e ∈ fromUpperBound m id, id < e.1 := by
  intro e he
  rw [fromUpperBound_eq_filter m h id, List.mem_filter] at he
  simpa using he.2

/-- Replacing the range of `id` by entries that all carry the key `id` keeps the
container invariant. -/
theorem ordered_rebuild (m : FieldMap Id TI) (h : KeyOrdered m) (id : Id)
    (E : FieldMap Id TI) (hE : ∀ e ∈ E, e.1 = id) :
    KeyOrdered (beforeLowerBound m id ++ E ++ fromUpperBound m id) := by
  unfold KeyOrdered
  rw [List.pairwise_append, List.pairwise_append]
  refine ⟨⟨List.Pairwise.sublist (List.takeWhile_sublist _) h, ?_, ?_⟩, ?_, ?_⟩
  · rw [List.pairwise_iff_forall_sublist]
    intro a b hab
    have ha := hE a (hab.subset (by simp))
    have hb := hE b (hab.subset (by simp))
    rw [ha, hb]
  · intro a ha b hb
    rw [hE b hb]
    exact le_of_lt (lt_of_mem_beforeLowerBound m id a ha)
  · exact List.Pairwise.sublist
      ((List.dropWhile_sublist _).trans (List.dropWhile_sublist _)) h
  · intro a ha b hb
    have hb2 := lt_of_mem_fromUpperBound m h id b hb
    rcases List.mem_append.mp ha with ha1 | ha1
    · exact le_of_lt (lt_trans (lt_of_mem_beforeLowerBound m id a ha1) hb2)
    · rw [hE a ha1]
      exact le_of_lt hb2

/-- After such a replacement the entries stored under `id` are exactly the new ones. -/
theorem filter_rebuild (m : FieldMap Id TI) (h : KeyOrdered m) (id : Id)
    (E : FieldMap Id TI) (hE : ∀ e ∈ E, e.1 = id) :
    (beforeLowerBound m id ++ E ++ fromUpperBound m id).filter (fun e => decide (e.1 = id))
      = E := by
  rw [List.filter_append, List.filter_append]
  have h1 : (beforeLowerBound m id).filter (fun e => decide (e.1 = id)) = [] := by
    rw [List.filter_eq_nil_iff]
    intro e he
    have := lt_of_mem_beforeLowerBound m id e he
    simp [ne_of_lt this]
  have h2 : (fromUpperBound m id).filter (fun e => decide (e.1 = id)) = [] := by
    rw [List.filter_eq_nil_iff]
    intro e he
    have := lt_of_mem_fromUpperBound m h id e he
    simp [ne_of_gt this]
  have h3 : E.filter (fun e => decide (e.1 = id)) = E := by
    rw [List.filter_eq_self]
    intro e he
    simp [hE e he]
  rw [h1, h2, h3]
  simp

/-- Entries stored under another identifier are not affected by such a replacement. -/
theorem filter_rebuild_other (m : FieldMap Id TI) (h : KeyOrdered m) (id other : Id)
    (hne : other ≠ id) (E : FieldMap Id TI) (hE : ∀ e ∈ E, e.1 = id) :
    (beforeLowerBound m id ++ E ++ fromUpperBound m id).filter (fun e => decide (e.1 = other))
      = m.filter (fun e => decide (e.1 = other)) := by
  have h3 : ∀ (L : FieldMap Id TI), (∀ e ∈ L, e.1 = id) →
      L.filter (fun e => decide (e.1 = other)) = [] := by
    intro L hL
    rw [List.filter_eq_nil_iff]
    intro e he
    simp [hL e he, Ne.symm hne]
  conv_rhs => rw [← segments_eq m id]
  simp only [List.filter_append]
  rw [h3 E hE, h3 (equalRange m id) (eq_of_mem_equalRange m h id)]

end FieldMap

/-! ## The loops and the lookup -/

namespace FieldMapBasedTag

variable {Id TI : Type} [LinearOrder Id]

theorem isEmpty_iff (v : TagValue) : v.isEmpty = true ↔ v = TagValue.empty := by
  cases v <;> simp [TagValue.isEmpty]

theorem valuesLoop_eq (l : List (Id × TagField Id TI)) (acc : List TagValue) :
    valuesLoop l acc = acc ++ Spec.nonEmptyValues (l.map (fun e => e.2.value)) := by
  induction l generalizing acc with
  | nil => simp [valuesLoop, Spec.nonEmptyValues]
  | cons e l ih =>
    by_cases he : e.2.value.isEmpty = true
    · simp [valuesLoop, he, ih, Spec.nonEmptyValues, List.filter_cons]
    · simp [valuesLoop, he, ih, Spec.nonEmptyValues, List.filter_cons]

theorem hasFieldLoop_eq (l : List (Id × TagField Id TI)) :
    hasFieldLoop l = l.any (fun e => !e.2.value.isEmpty) := by
  induction l with
  | nil => rfl
  | cons e l ih =>
    by_cases he : e.2.value.isEmpty = true
    · simp [hasFieldLoop, he, ih]
    · simp [hasFieldLoop, he]

theorem fieldCountLoop_eq (l : List (Id × TagField Id TI)) (count : Nat) :
    fieldCountLoop l count = count + l.countP (fun e => !e.2.value.isEmpty) := by
  induction l generalizing count with
  | nil => simp [fieldCountLoop]
  | cons e l ih =>
    by_cases he : e.2.value.isEmpty = true
    · simp [fieldCountLoop, he, ih, List.countP_cons]
    · simp [fieldCountLoop, he, ih, List.countP_cons]
      omega

theorem find_eq_head (m : FieldMap Id TI) (h : FieldMap.KeyOrdered m) (id : Id) :
    FieldMap.find m id = (m.filter (fun e => decide (e.1 = id))).head? := by
  rw [← FieldMap.equalRange_eq_filter m h id]
  unfold FieldMap.find
  rw [← FieldMap.range_append_upper m id]
  cases hE : FieldMap.equalRange m id with
  | nil =>
    cases hU : FieldMap.fromUpperBound m id with
    | nil => simp
    | cons u U =>
      have := FieldMap.lt_of_mem_fromUpperBound m h id u (by simp [hU])
      simp [this]
  | cons e E =>
    have := FieldMap.eq_of_mem_equalRange m h id e (by simp [hE])
    simp [this]

theorem value_eq_firstStored (m : FieldMap Id TI) (h : FieldMap.KeyOrdered m) (id : Id) :
    value m id = Spec.firstStoredValue m id := by
  unfold value Spec.firstStoredValue Spec.storedValues Spec.storedUnder
  rw [find_eq_head m h id]
  cases (m.filter (fun e => decide (e.1 = id))) with
  | nil => simp
  | cons e E => simp

theorem values_eq_stored (m : FieldMap Id TI) (h : FieldMap.KeyOrdered m) (id : Id) :
    values m id = Spec.nonEmptyValues (Spec.storedValues m id) := by
  unfold values Spec.storedValues Spec.storedUnder
  rw [valuesLoop_eq, FieldMap.equalRange_eq_filter m h id, List.map_map]
  rfl

theorem hasField_eq_any (m : FieldMap Id TI) (h : FieldMap.KeyOrdered m) (id : Id) :
    hasField m id = (Spec.storedValues m id).any (fun v => !v.isEmpty) := by
  unfold hasField Spec.storedValues Spec.storedUnder
  rw [hasFieldLoop_eq, FieldMap.equalRange_eq_filter m h id, List.map_map]
  generalize m.filter (fun e => decide (e.1 = id)) = l
  induction l with
  | nil => rfl
  | cons e l ih => simp [List.any_cons, ih]

/-- The lookup after the range of `id` was rebuilt with a first entry of key `id`. -/
theorem value_rebuild_head (m : FieldMap Id TI) (id : Id) (e : Id × TagField Id TI)
    (X : FieldMap Id TI) (h1 : ¬ e.1 < id) (h2 : ¬ id < e.1) :
    value (FieldMap.beforeLowerBound m id ++ e :: X) id = e.2.value := by
  unfold value FieldMap.find FieldMap.fromLowerBound FieldMap.beforeLowerBound
  rw [Aux.dropWhile_append_stop _ m (e :: X) (by simpa using h1)]
  simp [h2]

end FieldMapBasedTag

/-! ## The first loop of setValues -/

namespace FieldMapBasedTag

variable {Id TI : Type} [LinearOrder Id]

theorem setValuesReplace_keys (P : Id → Prop) (vs : List TagValue) :
    ∀ (range : List (Id × TagField Id TI)), (∀ e ∈ range, P e.1) →
      (∀ e ∈ (setValuesReplace vs range).1, P e.1) ∧
      (∀ e ∈ (setValuesReplace vs range).2.2, P e.1) := by
  induction vs with
  | nil =>
    intro range h
    simpa [setValuesReplace] using h
  | cons v vs ih =>
    intro range h
    cases range with
    | nil => simp [setValuesReplace]
    | cons e range =>
      by_cases hv : v.isEmpty = true
      · simpa [setValuesReplace, hv] using ih (e :: range) h
      · have hrec := ih range (fun x hx => h x (by simp [hx]))
        have he : P e.1 := h e (by simp)
        simp only [setValuesReplace, hv, Bool.not_false, Bool.false_eq_true, if_true]
        refine ⟨?_, hrec.2⟩
        intro x hx
        rcases List.mem_cons.mp hx with hx1 | hx1
        · rw [hx1]
          exact he
        · exact hrec.1 x hx1

theorem setValuesReplace_values (vs : List TagValue) :
    ∀ (range : List (Id × TagField Id TI)),
      Spec.nonEmptyValues ((setValuesReplace vs range).1.map (fun e => e.2.value))
        ++ Spec.nonEmptyValues (setValuesReplace vs range).2.1 = Spec.nonEmptyValues vs := by
  induction vs with
  | nil =>
    intro range
    simp [setValuesReplace, Spec.nonEmptyValues]
  | cons v vs ih =>
    intro range
    cases range with
    | nil => simp [setValuesReplace, Spec.nonEmptyValues]
    | cons e range =>
      by_cases hv : v.isEmpty = true
      · have := ih (e :: range)
        simp only [setValuesReplace, hv, Bool.not_true, Bool.false_eq_true, if_false]
        rw [this]
        simp [Spec.nonEmptyValues, List.filter_cons, hv]
      · have := ih range
        simp only [Spec.nonEmptyValues] at this ⊢
        simp only [setValuesReplace, hv, Bool.not_false, Bool.false_eq_true, if_true,
          List.map_cons, TagField.setValue, List.filter_cons, List.cons_append]
        rw [this]

theorem setValuesReplace_positional (vs : List TagValue) :
    ∀ (range : List (Id × TagField Id TI)),
      (∀ v ∈ vs.take range.length, v.isEmpty = false) →
      (setValuesReplace vs range).1.map (fun e => e.2.value) = vs.take range.length ∧
      (setValuesReplace vs range).2.1 = vs.drop range.length ∧
      (setValuesReplace vs range).2.2 = range.drop vs.length := by
  induction vs with
  | nil =>
    intro range _
    simp [setValuesReplace]
  | cons v vs ih =>
    intro range h
    cases range with
    | nil => simp [setValuesReplace]
    | cons e range =>
      have hv : v.isEmpty = false := h v (by simp)
      have hrec := ih range (fun x hx => h x (by simp [hx]))
      simp only [setValuesReplace, hv, Bool.not_false, if_true, List.map_cons,
        TagField.setValue, List.length_cons, List.take_succ_cons, List.drop_succ_cons]
      exact ⟨by rw [hrec.1], hrec.2.1, hrec.2.2⟩

theorem setValues_eq (m : FieldMap Id TI) (id : Id) (vs : List TagValue) :
    (setValues m id vs).2
      = FieldMap.beforeLowerBound m id ++ setValuesRange m id vs ++ FieldMap.fromUpperBound m id := by
  simp [setValues, setValuesRange, List.append_assoc]

theorem setValuesRange_keys (m : FieldMap Id TI) (h : FieldMap.KeyOrdered m) (id : Id)
    (vs : List TagValue) : ∀ e ∈ setValuesRange m id vs, e.1 = id := by
  have hk := setValuesReplace_keys (fun k => k = id) vs (FieldMap.equalRange m id)
    (FieldMap.eq_of_mem_equalRange m h id)
  intro e he
  unfold setValuesRange at he
  rcases List.mem_append.mp he with he1 | he1
  · rcases List.mem_append.mp he1 with he2 | he2
    · exact hk.1 e he2
    · rcases List.mem_map.mp he2 with ⟨x, hx, rfl⟩
      exact hk.2 x hx
  · rcases List.mem_map.mp he1 with ⟨x, _, rfl⟩
    rfl

theorem setValues_ordered (m : FieldMap Id TI) (h : FieldMap.KeyOrdered m) (id : Id)
    (vs : List TagValue) : FieldMap.KeyOrdered (setValues m id vs).2 := by
  rw [setValues_eq]
  exact FieldMap.ordered_rebuild m h id _ (setValuesRange_keys m h id vs)

theorem setValues_stored (m : FieldMap Id TI) (h : FieldMap.KeyOrdered m) (id : Id)
    (vs : List TagValue) :
    Spec.storedValues (setValues m id vs).2 id
      = (setValuesRange m id vs).map (fun e => e.2.value) := by
  unfold Spec.storedValues Spec.storedUnder
  rw [setValues_eq, FieldMap.filter_rebuild m h id _ (setValuesRange_keys m h id vs),
    List.map_map]
  rfl

end FieldMapBasedTag

/-! ## The accessors and mutators of the field map -/

namespace FieldMapBasedTag

variable {Id TI : Type} [LinearOrder Id]

/-- C1, as stated, fails: the tag reached from the empty tag by
`setValues(1, ["a", "x"])` and `setValue(1, empty)` holds under identifier 1 an empty
field followed by the field "x"; `value(1)` is the empty value, not the first non-empty
value "x". -/
theorem value_first_nonempty_counterexample :
    FieldMap.KeyOrdered Sample.emptyThenText ∧
    (setValue (setValues ([] : FieldMap Nat Nat) 1 [Sample.txt [97], Sample.txt [120]]).2 1
        TagValue.empty).2 = Sample.emptyThenText ∧
    value Sample.emptyThenText 1 = TagValue.empty ∧
    Spec.firstNonEmptyValue Sample.emptyThenText 1 = Sample.txt [120] ∧
    value Sample.emptyThenText 1 ≠ Spec.firstNonEmptyValue Sample.emptyThenText 1 := by
  decide

/-- C1, amended: `value(id)` returns the value of the first field stored under `id` (in
stored order), whether or not that value is empty, and the empty value when no field is
stored under `id`; it is the first non-empty value among the fields under `id` whenever
that first field is non-empty or no field under `id` holds a non-empty value. -/
theorem value_first_stored (m : FieldMap Id TI) (h : FieldMap.KeyOrdered m) (id : Id) :
    value m id = Spec.firstStoredValue m id ∧
    ((Spec.firstStoredValue m id).isEmpty = false ∨
        (∀ v ∈ Spec.storedValues m id, v.isEmpty = true) →
      value m id = Spec.firstNonEmptyValue m id) := by
  refine ⟨value_eq_firstStored m h id, ?_⟩
  rw [value_eq_firstStored m h id]
  unfold Spec.firstStoredValue Spec.firstNonEmptyValue
  cases hs : Spec.storedValues m id with
  | nil => simp
  | cons v vs =>
    intro hcase
    rcases hcase with h1 | h2
    · have hv : v.isEmpty = false := by simpa using h1
      simp [List.find?_cons, hv]
    · have hv : v.isEmpty = true := h2 v (by simp)
      have hnone : List.find? (fun v => !v.isEmpty) (v :: vs) = none := by
        rw [List.find?_eq_none]
        intro x hx
        simp [h2 x hx]
      rw [hnone]
      simpa using (isEmpty_iff v).mp hv

/-- Witness of `value_first_stored` on the tag with an empty field in front. -/
theorem value_first_stored_witness :
    FieldMap.KeyOrdered Sample.emptyThenText ∧
    value Sample.emptyThenText 1 = Spec.firstStoredValue Sample.emptyThenText 1 :=
  ⟨by decide, (value_first_stored Sample.emptyThenText (by decide) 1).1⟩

/-- C2: for every tag, identifier `id` and non-empty value `v`, `setValue(id, v)` returns
true and immediately afterwards `value(id)` equals `v`. -/
theorem setValue_then_value (m : FieldMap Id TI) (id : Id) (v : TagValue)
    (hv : v.isEmpty = false) :
    (setValue m id v).1 = true ∧ value (setValue m id v).2 id = v := by
  have hins : ∀ (U : FieldMap Id TI),
      value (FieldMap.beforeLowerBound m id ++ (id, (TagField.create id v : TagField Id TI)) :: U) id
        = v := by
    intro U
    rw [value_rebuild_head m id _ U (lt_irrefl id) (lt_irrefl id)]
    rfl
  have hstop := Aux.head_dropWhile_stop (fun e : Id × TagField Id TI => decide (e.1 < id)) m
  unfold setValue
  cases hL : FieldMap.fromLowerBound m id with
  | nil =>
    have hE : FieldMap.equalRange m id = [] := by simp [FieldMap.equalRange, hL]
    have hU : FieldMap.fromUpperBound m id = [] := by simp [FieldMap.fromUpperBound, hL]
    simp only [hv, Bool.not_false, if_true, FieldMap.insert, hE, hU, List.append_nil]
    exact ⟨trivial, hins []⟩
  | cons e rest =>
    have he : ¬ e.1 < id := by
      have := hstop e (by
        have : List.dropWhile (fun e : Id × TagField Id TI => decide (e.1 < id)) m = e :: rest := hL
        simp [this])
      simpa using this
    by_cases hlt : id < e.1
    · have hE : FieldMap.equalRange m id = [] := by
        simp [FieldMap.equalRange, hL, List.takeWhile_cons, hlt]
      have hU : FieldMap.fromUpperBound m id = e :: rest := by
        simp [FieldMap.fromUpperBound, hL, List.dropWhile_cons, hlt]
      simp only [hlt, hv, Bool.not_false, if_true, FieldMap.insert, hE, hU, List.append_nil]
      exact ⟨trivial, hins (e :: rest)⟩
    · simp only [hlt, if_false]
      refine ⟨trivial, ?_⟩
      rw [value_rebuild_head m id (e.1, e.2.setValue v) rest he hlt]
      rfl

/-- Witness of `setValue_then_value`: assigning "x" on the tag with an empty field in
front. -/
theorem setValue_then_value_witness :
    (Sample.txt [120]).isEmpty = false ∧
    (setValue Sample.emptyThenText 1 (Sample.txt [120])).1 = true ∧
    value (setValue Sample.emptyThenText 1 (Sample.txt [120])).2 1 = Sample.txt [120] :=
  ⟨by decide, setValue_then_value Sample.emptyThenText 1 (Sample.txt [120]) (by decide)⟩

/-- C3: for every tag and every identifier `id` with no field stored under it,
`setValue(id, empty)` returns false and leaves the field map unchanged. -/
theorem setValue_empty_absent (m : FieldMap Id TI) (id : Id)
    (habsent : ∀ e ∈ m, e.1 ≠ id) :
    setValue m id TagValue.empty = (false, m) := by
  have hstop := Aux.head_dropWhile_stop (fun e : Id × TagField Id TI => decide (e.1 < id)) m
  unfold setValue
  cases hL : FieldMap.fromLowerBound m id with
  | nil => simp [TagValue.isEmpty]
  | cons e rest =>
    have hmem : e ∈ m := by
      have hsub : e ∈ FieldMap.fromLowerBound m id := by simp [hL]
      exact (List.dropWhile_sublist _).subset hsub
    have he : ¬ e.1 < id := by
      have := hstop e (by
        have : List.dropWhile (fun e : Id × TagField Id TI => decide (e.1 < id)) m = e :: rest := hL
        simp [this])
      simpa using this
    have hlt : id < e.1 := lt_of_le_of_ne (not_lt.mp he) (Ne.symm (habsent e hmem))
    simp [hlt, TagValue.isEmpty]

/-- Witness of `setValue_empty_absent`: identifier 2 on a tag that only stores fields
under identifier 1. -/
theorem setValue_empty_absent_witness :
    (∀ e ∈ Sample.emptyThenText, e.1 ≠ 2) ∧
    setValue Sample.emptyThenText 2 TagValue.empty = (false, Sample.emptyThenText) :=
  ⟨by decide, setValue_empty_absent Sample.emptyThenText 2 (by decide)⟩

/-- C4: `setValues` replaces all currently assigned values: after `setValues(id, vs)` the
list `values(id)` is exactly the non-empty elements of `vs` in their given order,
whatever fields were stored under `id` before. -/
theorem setValues_then_values (m : FieldMap Id TI) (h : FieldMap.KeyOrdered m) (id : Id)
    (vs : List TagValue) :
    values (setValues m id vs).2 id = Spec.nonEmptyValues vs := by
  rw [values_eq_stored _ (setValues_ordered m h id vs) id, setValues_stored m h id vs]
  unfold setValuesRange
  have hv := setValuesReplace_values vs (FieldMap.equalRange m id)
  simp only [Spec.nonEmptyValues] at hv ⊢
  simp only [List.map_append, List.map_map, List.filter_append]
  have hnull : List.filter (fun v => !v.isEmpty)
      (List.map ((fun e : Id × TagField Id TI => e.2.value) ∘
        fun e => (e.1, e.2.setValue TagValue.empty))
        (setValuesReplace vs (FieldMap.equalRange m id)).2.2) = [] := by
    rw [List.filter_eq_nil_iff]
    intro v hv
    rcases List.mem_map.mp hv with ⟨x, _, rfl⟩
    simp [TagField.setValue, TagValue.isEmpty]
  have hins : List.map ((fun e : Id × TagField Id TI => e.2.value) ∘
      fun v => (id, (TagField.create id v : TagField Id TI)))
      (setValuesReplace vs (FieldMap.equalRange m id)).2.1
        = (setValuesReplace vs (FieldMap.equalRange m id)).2.1 := by
    simp [TagField.create, Function.comp_def]
  rw [hnull, hins, List.append_nil]
  exact hv

/-- Witness of `setValues_then_values`: a list with empty values on the tag with an
empty field in front. -/
theorem setValues_then_values_witness :
    FieldMap.KeyOrdered Sample.emptyThenText ∧
    values (setValues Sample.emptyThenText 1
        [TagValue.empty, Sample.txt [97], TagValue.empty, Sample.txt [98], Sample.txt [99]]).2 1
      = Spec.nonEmptyValues
        [TagValue.empty, Sample.txt [97], TagValue.empty, Sample.txt [98], Sample.txt [99]] :=
  ⟨by decide, setValues_then_values Sample.emptyThenText (by decide) 1 _⟩

/-- C5: for every tag and identifier `id`, after `setValues(id, [])` the query
`hasField(id)` returns false. -/
theorem setValues_nil_hasField (m : FieldMap Id TI) (h : FieldMap.KeyOrdered m) (id : Id) :
    hasField (setValues m id []).2 id = false := by
  rw [hasField_eq_any _ (setValues_ordered m h id []) id, setValues_stored m h id []]
  simp only [setValuesRange, setValuesReplace, List.nil_append, List.map_nil, List.append_nil,
    List.map_map]
  rw [List.any_eq_false]
  intro v hv
  rcases List.mem_map.mp hv with ⟨x, _, rfl⟩
  simp [TagField.setValue, TagValue.isEmpty]

/-- Witness of `setValues_nil_hasField` on the tag with an empty field in front. -/
theorem setValues_nil_hasField_witness :
    FieldMap.KeyOrdered Sample.emptyThenText ∧
    hasField Sample.emptyThenText 1 = true ∧
    hasField (setValues Sample.emptyThenText 1 []).2 1 = false :=
  ⟨by decide, by decide, setValues_nil_hasField Sample.emptyThenText (by decide) 1⟩

/-- C6, as stated, fails: on a tag with one field "a" under identifier 1,
`setValues(1, [empty, "x"])` skips the empty value and stores "x" in the first field, so
identifier 1 has one field instead of max(1, 2) = 2 and the first field does not hold the
first value. -/
theorem setValues_positional_counterexample :
    FieldMap.KeyOrdered Sample.singleText ∧
    (setValues Sample.singleText 1 [TagValue.empty, Sample.txt [120]]).2
      = [Sample.fld 1 (Sample.txt [120])] ∧
    ¬ Spec.positional Sample.singleText
        (setValues Sample.singleText 1 [TagValue.empty, Sample.txt [120]]).2 1
        [TagValue.empty, Sample.txt [120]] := by
  refine ⟨by decide, by decide, ?_⟩
  intro hpos
  have hlen := hpos.1
  revert hlen
  decide

/-- C6, amended: `setValues` works positionally when none of the first min(m, n) values
is empty: for a tag with m fields stored under `id` and such a list v1..vn, after
`setValues(id, [v1..vn])` the k-th field under `id` holds v_k for every k <= n, every
field under `id` beyond the n-th holds the empty value, and `id` has exactly max(m, n)
fields. -/
theorem setValues_positional (m : FieldMap Id TI) (h : FieldMap.KeyOrdered m) (id : Id)
    (vs : List TagValue)
    (hvs : ∀ v ∈ vs.take (Spec.storedValues m id).length, v.isEmpty = false) :
    Spec.positional m (setValues m id vs).2 id vs := by
  have hlenE : (Spec.storedValues m id).length = (FieldMap.equalRange m id).length := by
    simp [Spec.storedValues, Spec.storedUnder, FieldMap.equalRange_eq_filter m h id]
  rw [hlenE] at hvs
  have hp := setValuesReplace_positional vs (FieldMap.equalRange m id) hvs
  have hstored : Spec.storedValues (setValues m id vs).2 id
      = vs ++ List.replicate ((FieldMap.equalRange m id).length - vs.length) TagValue.empty := by
    rw [setValues_stored m h id vs]
    unfold setValuesRange
    simp only [List.map_append, List.map_map]
    rw [hp.1, hp.2.1, hp.2.2]
    have hnull : List.map ((fun e : Id × TagField Id TI => e.2.value) ∘
        fun e => (e.1, e.2.setValue TagValue.empty))
        (List.drop vs.length (FieldMap.equalRange m id))
          = List.replicate ((FieldMap.equalRange m id).length - vs.length) TagValue.empty := by
      rw [List.eq_replicate_iff]
      refine ⟨by simp, ?_⟩
      intro v hv
      rcases List.mem_map.mp hv with ⟨x, _, rfl⟩
      rfl
    have hins : List.map ((fun e : Id × TagField Id TI => e.2.value) ∘
        fun v => (id, (TagField.create id v : TagField Id TI)))
        (List.drop (FieldMap.equalRange m id).length vs)
          = List.drop (FieldMap.equalRange m id).length vs := by
      simp [TagField.create, Function.comp_def]
    rw [hnull, hins]
    rcases Nat.lt_or_ge vs.length (FieldMap.equalRange m id).length with hlt | hge
    · rw [List.take_of_length_le (le_of_lt hlt), List.drop_of_length_le (le_of_lt hlt)]
      simp
    · have h0 : (FieldMap.equalRange m id).length - vs.length = 0 := by omega
      rw [h0]
      simp
  unfold Spec.positional
  rw [hstored, hlenE]
  refine ⟨?_, ?_, ?_⟩
  · simp only [List.length_append, List.length_replicate]
    omega
  · intro k hk
    rw [List.getElem?_append_left hk]
  · intro k hk1 hk2
    simp only [List.length_append, List.length_replicate] at hk2
    rw [List.getElem?_append_right hk1, List.getElem?_replicate]
    simp
    omega

/-- Witness of `setValues_positional`: an empty value behind the first min(m, n) values
is stored as given. -/
theorem setValues_positional_witness :
    FieldMap.KeyOrdered Sample.singleText ∧
    (∀ v ∈ [Sample.txt [120], TagValue.empty].take (Spec.storedValues Sample.singleText 1).length,
      v.isEmpty = false) ∧
    Spec.positional Sample.singleText
      (setValues Sample.singleText 1 [Sample.txt [120], TagValue.empty]).2 1
      [Sample.txt [120], TagValue.empty] :=
  ⟨by decide, by decide, setValues_positional Sample.singleText (by decide) 1 _ (by decide)⟩

/-- C7: for every tag and identifier `id`, `values(id)` is exactly the list of the
non-empty values of the fields stored under `id`, in stored order: no value is omitted,
repeated or taken from another identifier. -/
theorem values_exact (m : FieldMap Id TI) (h : FieldMap.KeyOrdered m) (id : Id) :
    values m id
      = ((m.filter (fun e => decide (e.1 = id))).map (fun e => e.2.value)).filter
          (fun v => !v.isEmpty) := by
  rw [values_eq_stored m h id]
  unfold Spec.nonEmptyValues Spec.storedValues Spec.storedUnder
  rw [List.map_map]
  rfl

/-- Witness of `values_exact`: identifier 2 of the sample tag, with an empty field
between two text fields. -/
theorem values_exact_witness :
    FieldMap.KeyOrdered Sample.mixed ∧
    values Sample.mixed 2 = [Sample.txt [98], Sample.txt [99]] ∧
    values Sample.mixed 2
      = ((Sample.mixed.filter (fun e => decide (e.1 = 2))).map (fun e => e.2.value)).filter
          (fun v => !v.isEmpty) :=
  ⟨by decide, by decide, values_exact Sample.mixed (by decide) 2⟩

/-- C8: for every tag and identifier `id`, `hasField(id)` is true if and only if at least
one field stored under `id` holds a non-empty value, equivalently if and only if
`values(id)` is non-empty. -/
theorem hasField_iff (m : FieldMap Id TI) (h : FieldMap.KeyOrdered m) (id : Id) :
    (hasField m id = true ↔ ∃ e ∈ m, e.1 = id ∧ e.2.value.isEmpty = false) ∧
    (hasField m id = true ↔ values m id ≠ []) := by
  have h1 : hasField m id = true ↔ ∃ e ∈ m, e.1 = id ∧ e.2.value.isEmpty = false := by
    rw [hasField_eq_any m h id]
    unfold Spec.storedValues Spec.storedUnder
    rw [List.any_eq_true]
    constructor
    · rintro ⟨v, hv, hne⟩
      rcases List.mem_map.mp hv with ⟨f, hf, rfl⟩
      rcases List.mem_map.mp hf with ⟨e, he, rfl⟩
      rw [List.mem_filter] at he
      exact ⟨e, he.1, by simpa using he.2, by simpa using hne⟩
    · rintro ⟨e, he, hk, hne⟩
      refine ⟨e.2.value, ?_, by simp [hne]⟩
      exact List.mem_map.mpr ⟨e.2, List.mem_map.mpr ⟨e, by simp [List.mem_filter, he, hk], rfl⟩, rfl⟩
  refine ⟨h1, ?_⟩
  rw [hasField_eq_any m h id, values_eq_stored m h id]
  unfold Spec.nonEmptyValues
  rw [List.any_eq_true, Ne, List.filter_eq_nil_iff]
  constructor
  · rintro ⟨v, hv, hne⟩ hall
    exact hall v hv hne
  · intro hnot
    by_contra hex
    apply hnot
    intro v hv hne
    exact hex ⟨v, hv, hne⟩

/-- Witness of `hasField_iff`: identifier 1 of the sample tag holds only an empty field,
identifier 2 holds non-empty ones. -/
theorem hasField_iff_witness :
    FieldMap.KeyOrdered Sample.mixed ∧
    hasField Sample.mixed 1 = false ∧ hasField Sample.mixed 2 = true ∧
    ((hasField Sample.mixed 2 = true ↔
        ∃ e ∈ Sample.mixed, e.1 = 2 ∧ e.2.value.isEmpty = false) ∧
      (hasField Sample.mixed 2 = true ↔ values Sample.mixed 2 ≠ [])) :=
  ⟨by decide, by decide, by decide, hasField_iff Sample.mixed (by decide) 2⟩

/-- C9: `fieldCount()` counts only non-empty fields: it equals the number of stored
entries whose value is non-empty, which is the sum over all distinct identifiers of the
length of `values(id)`; entries holding the empty value contribute nothing. -/
theorem fieldCount_nonEmpty (m : FieldMap Id TI) (h : FieldMap.KeyOrdered m) :
    fieldCount m = (m.filter (fun e => !e.2.value.isEmpty)).length ∧
    fieldCount m = (((m.map Prod.fst).dedup).map (fun id => (values m id).length)).sum := by
  have hcount : fieldCount m = m.countP (fun e => !e.2.value.isEmpty) := by
    simp [fieldCount, fieldCountLoop_eq]
  refine ⟨by rw [hcount, List.countP_eq_length_filter], ?_⟩
  rw [hcount, ← Aux.sum_countP_by_key (fun e : Id × TagField Id TI => e.1)
    (fun e => !e.2.value.isEmpty) ((m.map Prod.fst).dedup) (List.nodup_dedup _) m
    (fun x hx => List.mem_dedup.mpr (List.mem_map.mpr ⟨x, hx, rfl⟩))]
  apply congrArg
  apply List.map_congr_left
  intro id _
  rw [values_exact m h id, List.filter_map, List.length_map, List.filter_filter,
    List.countP_eq_length_filter]
  apply congrArg
  apply List.filter_congr
  intro e _
  simp [Bool.and_comm]

/-- Witness of `fieldCount_nonEmpty`: the sample tag stores five entries, three of them
non-empty. -/
theorem fieldCount_nonEmpty_witness :
    FieldMap.KeyOrdered Sample.mixed ∧ Sample.mixed.length = 5 ∧ fieldCount Sample.mixed = 3 ∧
    (fieldCount Sample.mixed = (Sample.mixed.filter (fun e => !e.2.value.isEmpty)).length ∧
      fieldCount Sample.mixed
        = (((Sample.mixed.map Prod.fst).dedup).map
            (fun id => (values Sample.mixed id).length)).sum) :=
  ⟨by decide, by decide, by decide, fieldCount_nonEmpty Sample.mixed (by decide)⟩

/-- C10: a field with only empty values is observationally equivalent to an absent
field: when all fields stored under `id` hold the empty value, `value`, `values` and
`hasField` (for every identifier) and `fieldCount()` return the same results on the tag
as on the tag with the entries under `id` erased. -/
theorem empty_fields_equiv_absent (m : FieldMap Id TI) (h : FieldMap.KeyOrdered m) (id : Id)
    (hall : ∀ e ∈ m, e.1 = id → e.2.value.isEmpty = true) :
    (∀ other : Id,
      value m other = value (FieldMap.erase m id) other ∧
      values m other = values (FieldMap.erase m id) other ∧
      hasField m other = hasField (FieldMap.erase m id) other) ∧
    fieldCount m = fieldCount (FieldMap.erase m id) := by
  have hord : FieldMap.KeyOrdered (FieldMap.erase m id) :=
    List.Pairwise.sublist (List.filter_sublist _) h
  have hother : ∀ other : Id, other ≠ id →
      Spec.storedValues (FieldMap.erase m id) other = Spec.storedValues m other := by
    intro other hne
    unfold Spec.storedValues Spec.storedUnder FieldMap.erase
    rw [List.filter_filter]
    congr 2
    apply List.filter_congr
    intro e _
    by_cases hk : e.1 = other
    · simp [hk, hne]
    · simp [hk]
  have hself : Spec.storedValues (FieldMap.erase m id) id = [] := by
    unfold Spec.storedValues Spec.storedUnder FieldMap.erase
    rw [List.filter_filter]
    simp
  have hempty : ∀ v ∈ Spec.storedValues m id, v = TagValue.empty := by
    intro v hv
    unfold Spec.storedValues Spec.storedUnder at hv
    rcases List.mem_map.mp hv with ⟨f, hf, rfl⟩
    rcases List.mem_map.mp hf with ⟨e, he, rfl⟩
    rw [List.mem_filter] at he
    exact (isEmpty_iff _).mp (hall e he.1 (by simpa using he.2))
  refine ⟨?_, ?_⟩
  · intro other
    rw [value_eq_firstStored m h other, value_eq_firstStored _ hord other,
      values_eq_stored m h other, values_eq_stored _ hord other,
      hasField_eq_any m h other, hasField_eq_any _ hord other]
    unfold Spec.firstStoredValue Spec.nonEmptyValues
    by_cases hne : other = id
    · subst hne
      rw [hself]
      refine ⟨?_, ?_, ?_⟩
      · cases hs : Spec.storedValues m other with
        | nil => rfl
        | cons v vs =>
          have := hempty v (by simp [hs])
          simp [this]
      · rw [List.filter_nil, List.filter_eq_nil_iff]
        intro v hv
        simp [hempty v hv, TagValue.isEmpty]
      · rw [List.any_nil, List.any_eq_false]
        intro v hv
        simp [hempty v hv, TagValue.isEmpty]
    · rw [hother other hne]
      exact ⟨rfl, rfl, rfl⟩
  · simp only [fieldCount, fieldCountLoop_eq, Nat.zero_add]
    unfold FieldMap.erase
    rw [List.countP_filter]
    apply List.countP_congr
    intro e he
    by_cases hk : e.1 = id
    · simp [hk, hall e he hk]
    · simp [hk]

/-- Witness of `empty_fields_equiv_absent`: identifier 1 of the sample tag holds only an
empty field. -/
theorem empty_fields_equiv_absent_witness :
    FieldMap.KeyOrdered Sample.mixed ∧
    (∀ e ∈ Sample.mixed, e.1 = 1 → e.2.value.isEmpty = true) ∧
    FieldMap.erase Sample.mixed 1 ≠ Sample.mixed ∧
    ((∀ other : Nat,
        value Sample.mixed other = value (FieldMap.erase Sample.mixed 1) other ∧
        values Sample.mixed other = values (FieldMap.erase Sample.mixed 1) other ∧
        hasField Sample.mixed other = hasField (FieldMap.erase Sample.mixed 1) other) ∧
      fieldCount Sample.mixed = fieldCount (FieldMap.erase Sample.mixed 1)) :=
  ⟨by decide, by decide, by decide,
    empty_fields_equiv_absent Sample.mixed (by decide) 1 (by decide)⟩

end FieldMapBasedTag

/-! ## Field maps given by their three segments -/

namespace Aux

variable {α : Type}

theorem takeWhile_append_of_all (p : α → Bool) (E U : List α)
    (hE : ∀ x ∈ E, p x = true) (hU : ∀ x ∈ U.head?, p x = false) :
    (E ++ U).takeWhile p = E := by
  induction E with
  | nil =>
    cases U with
    | nil => rfl
    | cons x U => simp [List.takeWhile, hU x (by simp)]
  | cons a E ih =>
    have ha : p a = true := hE a (by simp)
    simp [List.takeWhile_cons, ha, ih (fun x hx => hE x (by simp [hx]))]

theorem dropWhile_append_of_all (p : α → Bool) (E U : List α)
    (hE : ∀ x ∈ E, p x = true) (hU : ∀ x ∈ U.head?, p x = false) :
    (E ++ U).dropWhile p = U := by
  induction E with
  | nil =>
    cases U with
    | nil => rfl
    | cons x U => simp [List.dropWhile, hU x (by simp)]
  | cons a E ih =>
    have ha : p a = true := hE a (by simp)
    simp [List.dropWhile_cons, ha, ih (fun x hx => hE x (by simp [hx]))]

theorem head_of_forall {P : α → Prop} (l : List α) (h : ∀ x ∈ l, P x) :
    ∀ x ∈ l.head?, P x := by
  intro x hx
  cases l with
  | nil => simp at hx
  | cons a l =>
    simp at hx
    subst hx
    exact h a (by simp)

end Aux

namespace FieldMap

variable {Id TI : Type} [LinearOrder Id]

/-- The segments of a field map built from entries below `id`, entries with key `id`
and entries above `id`. -/
theorem segments_of_parts (id : Id) (P E S : FieldMap Id TI)
    (hP : ∀ e ∈ P, e.1 < id) (hE : ∀ e ∈ E, e.1 = id) (hS : ∀ e ∈ S, id < e.1) :
    beforeLowerBound (P ++ E ++ S) id = P ∧ fromLowerBound (P ++ E ++ S) id = E ++ S ∧
    equalRange (P ++ E ++ S) id = E ∧ fromUpperBound (P ++ E ++ S) id = S := by
  have hP1 : ∀ x ∈ P, (fun e : Id × TagField Id TI => decide (e.1 < id)) x = true := by
    intro x hx
    simpa using hP x hx
  have hES : ∀ x ∈ (E ++ S).head?, (fun e : Id × TagField Id TI => decide (e.1 < id)) x = false := by
    apply Aux.head_of_forall
    intro x hx
    rcases List.mem_append.mp hx with h1 | h1
    · simp [hE x h1]
    · simpa using le_of_lt (hS x h1)
  have hE1 : ∀ x ∈ E, (fun e : Id × TagField Id TI => !decide (id < e.1)) x = true := by
    intro x hx
    simp [hE x hx]
  have hS1 : ∀ x ∈ S.head?, (fun e : Id × TagField Id TI => !decide (id < e.1)) x = false := by
    apply Aux.head_of_forall
    intro x hx
    simpa using hS x hx
  have hfrom : fromLowerBound (P ++ E ++ S) id = E ++ S := by
    unfold fromLowerBound
    rw [List.append_assoc]
    exact Aux.dropWhile_append_of_all _ P (E ++ S) hP1 hES
  refine ⟨?_, hfrom, ?_, ?_⟩
  · unfold beforeLowerBound
    rw [List.append_assoc]
    exact Aux.takeWhile_append_of_all _ P (E ++ S) hP1 hES
  · unfold equalRange
    rw [hfrom]
    exact Aux.takeWhile_append_of_all _ E S hE1 hS1
  · unfold fromUpperBound
    rw [hfrom]
    exact Aux.dropWhile_append_of_all _ E S hE1 hS1

theorem insert_of_parts (id : Id) (f : TagField Id TI) (P E S : FieldMap Id TI)
    (hP : ∀ e ∈ P, e.1 < id) (hE : ∀ e ∈ E, e.1 = id) (hS : ∀ e ∈ S, id < e.1) :
    insert (P ++ E ++ S) id f = P ++ (E ++ [(id, f)]) ++ S := by
  have h := segments_of_parts id P E S hP hE hS
  unfold insert
  rw [h.1, h.2.2.1, h.2.2.2]
  simp

/-- Entries below, at and above `id` in any arrangement of that shape are key-ordered
as soon as the outer segments are. -/
theorem ordered_of_parts (id : Id) (P E S : FieldMap Id TI)
    (hP : ∀ e ∈ P, e.1 < id) (hE : ∀ e ∈ E, e.1 = id) (hS : ∀ e ∈ S, id < e.1)
    (hPo : KeyOrdered P) (hSo : KeyOrdered S) : KeyOrdered (P ++ E ++ S) := by
  unfold KeyOrdered
  rw [List.pairwise_append, List.pairwise_append]
  refine ⟨⟨hPo, ?_, ?_⟩, hSo, ?_⟩
  · rw [List.pairwise_iff_forall_sublist]
    intro a b hab
    rw [hE a (hab.subset (by simp)), hE b (hab.subset (by simp))]
  · intro a ha b hb
    rw [hE b hb]
    exact le_of_lt (hP a ha)
  · intro a ha b hb
    rcases List.mem_append.mp ha with ha1 | ha1
    · exact le_of_lt (lt_trans (hP a ha1) (hS b hb))
    · rw [hE a ha1]
      exact le_of_lt (hS b hb)

theorem filter_of_parts (id : Id) (P E S : FieldMap Id TI)
    (hP : ∀ e ∈ P, e.1 < id) (hE : ∀ e ∈ E, e.1 = id) (hS : ∀ e ∈ S, id < e.1) :
    (P ++ E ++ S).filter (fun e => decide (e.1 = id)) = E := by
  rw [List.filter_append, List.filter_append]
  have h1 : P.filter (fun e => decide (e.1 = id)) = [] := by
    rw [List.filter_eq_nil_iff]
    intro e he
    simp [ne_of_lt (hP e he)]
  have h2 : S.filter (fun e => decide (e.1 = id)) = [] := by
    rw [List.filter_eq_nil_iff]
    intro e he
    simp [ne_of_gt (hS e he)]
  have h3 : E.filter (fun e => decide (e.1 = id)) = E := by
    rw [List.filter_eq_self]
    intro e he
    simp [hE e he]
  rw [h1, h2, h3]
  simp

theorem filter_of_parts_other (id other : Id) (hne : other ≠ id) (P E S : FieldMap Id TI)
    (hE : ∀ e ∈ E, e.1 = id) :
    (P ++ E ++ S).filter (fun e => decide (e.1 = other))
      = P.filter (fun e => decide (e.1 = other)) ++ S.filter (fun e => decide (e.1 = other)) := by
  rw [List.filter_append, List.filter_append]
  have h3 : E.filter (fun e => decide (e.1 = other)) = [] := by
    rw [List.filter_eq_nil_iff]
    intro e he
    simp [hE e he, Ne.symm hne]
  rw [h3]
  simp

end FieldMap

/-! ## setValue on a field map given by its segments -/

namespace FieldMapBasedTag

variable {Id TI : Type} [LinearOrder Id]

theorem setValue_parts_cons (id : Id) (v : TagValue) (e : Id × TagField Id TI)
    (P rest S : FieldMap Id TI)
    (hP : ∀ x ∈ P, x.1 < id) (hE : ∀ x ∈ e :: rest, x.1 = id) (hS : ∀ x ∈ S, id < x.1) :
    setValue (P ++ (e :: rest) ++ S) id v
      = (true, P ++ ((e.1, e.2.setValue v) :: rest) ++ S) := by
  have h := FieldMap.segments_of_parts id P (e :: rest) S hP hE hS
  have he : ¬ id < e.1 := by
    rw [hE e (by simp)]
    exact lt_irrefl id
  unfold setValue
  rw [h.2.1, h.1]
  simp [he]

theorem setValue_parts_nil (id : Id) (v : TagValue) (P S : FieldMap Id TI)
    (hP : ∀ x ∈ P, x.1 < id) (hS : ∀ x ∈ S, id < x.1) :
    setValue (P ++ S) id v
      = if v.isEmpty then (false, P ++ S)
        else (true, P ++ [(id, (TagField.create id v : TagField Id TI))] ++ S) := by
  have h := FieldMap.segments_of_parts id P [] S hP (by simp) hS
  have hins := FieldMap.insert_of_parts id (TagField.create id v : TagField Id TI) P [] S hP
    (by simp) hS
  simp only [List.append_nil, List.nil_append] at h hins
  unfold setValue
  rw [h.2.1]
  cases S with
  | nil =>
    by_cases hv : v.isEmpty = true
    · simp [hv]
    · simp only [List.append_nil] at hins
      simp [hv, hins]
  | cons s S =>
    have hs : id < s.1 := hS s (by simp)
    by_cases hv : v.isEmpty = true
    · simp [hs, hv]
    · simp [hs, hv, hins]

/-- The effect of `setValue(id, v)` only depends on the entries stored under `id`: they
are replaced by entries with the same key, whatever lies in front and behind. -/
theorem setValue_parts (id : Id) (v : TagValue) (E : FieldMap Id TI)
    (hE : ∀ x ∈ E, x.1 = id) :
    ∃ (E2 : FieldMap Id TI) (b : Bool), (∀ x ∈ E2, x.1 = id) ∧
      ∀ (P S : FieldMap Id TI), (∀ x ∈ P, x.1 < id) → (∀ x ∈ S, id < x.1) →
        setValue (P ++ E ++ S) id v = (b, P ++ E2 ++ S) := by
  cases E with
  | nil =>
    by_cases hv : v.isEmpty = true
    · refine ⟨[], false, by simp, ?_⟩
      intro P S hP hS
      simp only [List.append_nil]
      rw [setValue_parts_nil id v P S hP hS]
      simp [hv]
    · refine ⟨[(id, TagField.create id v)], true, by simp, ?_⟩
      intro P S hP hS
      simp only [List.append_nil]
      rw [setValue_parts_nil id v P S hP hS]
      simp [hv]
  | cons e rest =>
    refine ⟨(e.1, e.2.setValue v) :: rest, true, ?_, ?_⟩
    · intro x hx
      rcases List.mem_cons.mp hx with h1 | h1
      · rw [h1]
        exact hE e (by simp)
      · exact hE x (by simp [h1])
    · intro P S hP hS
      exact setValue_parts_cons id v e P rest S hP hE hS

theorem setValue_comm_of_lt (m : FieldMap Id TI) (h : FieldMap.KeyOrdered m) (id1 id2 : Id)
    (hlt : id1 < id2) (v1 v2 : TagValue) :
    (setValue (setValue m id1 v1).2 id2 v2).2 = (setValue (setValue m id2 v2).2 id1 v1).2 ∧
    (setValue m id1 v1).1 = (setValue (setValue m id2 v2).2 id1 v1).1 ∧
    (setValue (setValue m id1 v1).2 id2 v2).1 = (setValue m id2 v2).1 := by
  have hA := FieldMap.lt_of_mem_beforeLowerBound m id1
  have hE1 := FieldMap.eq_of_mem_equalRange m h id1
  have hR := FieldMap.lt_of_mem_fromUpperBound m h id1
  have hRo : FieldMap.KeyOrdered (FieldMap.fromUpperBound m id1) :=
    List.Pairwise.sublist ((List.dropWhile_sublist _).trans (List.dropWhile_sublist _)) h
  have hMid := FieldMap.lt_of_mem_beforeLowerBound (FieldMap.fromUpperBound m id1) id2
  have hE2 := FieldMap.eq_of_mem_equalRange (FieldMap.fromUpperBound m id1) hRo id2
  have hC := FieldMap.lt_of_mem_fromUpperBound (FieldMap.fromUpperBound m id1) hRo id2
  have hsub : ∀ x, x ∈ FieldMap.beforeLowerBound (FieldMap.fromUpperBound m id1) id2 ∨
      x ∈ FieldMap.equalRange (FieldMap.fromUpperBound m id1) id2 ∨
      x ∈ FieldMap.fromUpperBound (FieldMap.fromUpperBound m id1) id2 →
      x ∈ FieldMap.fromUpperBound m id1 := by
    intro x hx
    rw [← FieldMap.segments_eq (FieldMap.fromUpperBound m id1) id2]
    simp only [List.mem_append]
    tauto
  generalize hAdef : FieldMap.beforeLowerBound m id1 = A at hA
  generalize hE1def : FieldMap.equalRange m id1 = E1 at hE1
  generalize hMdef : FieldMap.beforeLowerBound (FieldMap.fromUpperBound m id1) id2 = Mid
    at hMid hsub
  generalize hE2def : FieldMap.equalRange (FieldMap.fromUpperBound m id1) id2 = E2
    at hE2 hsub
  generalize hCdef : FieldMap.fromUpperBound (FieldMap.fromUpperBound m id1) id2 = C
    at hC hsub
  have hm : m = A ++ E1 ++ (Mid ++ E2 ++ C) := by
    rw [← hAdef, ← hE1def, ← hMdef, ← hE2def, ← hCdef,
      FieldMap.segments_eq (FieldMap.fromUpperBound m id1) id2, FieldMap.segments_eq m id1]
  obtain ⟨F1, b1, hF1, hset1⟩ := setValue_parts id1 v1 E1 hE1
  obtain ⟨F2, b2, hF2, hset2⟩ := setValue_parts id2 v2 E2 hE2
  have hMid1 : ∀ x ∈ Mid, id1 < x.1 := fun x hx => hR x (hsub x (Or.inl hx))
  have hC1 : ∀ x ∈ C, id1 < x.1 := fun x hx => hR x (hsub x (Or.inr (Or.inr hx)))
  -- first id1, then id2
  have s1 : setValue m id1 v1 = (b1, A ++ F1 ++ (Mid ++ E2 ++ C)) := by
    rw [hm]
    apply hset1 A (Mid ++ E2 ++ C) hA
    intro x hx
    simp only [List.mem_append] at hx
    rcases hx with (hx | hx) | hx
    · exact hMid1 x hx
    · rw [hE2 x hx]
      exact hlt
    · exact hC1 x hx
  have s12 : setValue (A ++ F1 ++ (Mid ++ E2 ++ C)) id2 v2
      = (b2, (A ++ F1 ++ Mid) ++ F2 ++ C) := by
    have hre : A ++ F1 ++ (Mid ++ E2 ++ C) = (A ++ F1 ++ Mid) ++ E2 ++ C := by
      simp [List.append_assoc]
    rw [hre]
    apply hset2 (A ++ F1 ++ Mid) C _ hC
    intro x hx
    simp only [List.mem_append] at hx
    rcases hx with (hx | hx) | hx
    · exact lt_trans (hA x hx) hlt
    · rw [hF1 x hx]
      exact hlt
    · exact hMid x hx
  -- first id2, then id1
  have s2 : setValue m id2 v2 = (b2, (A ++ E1 ++ Mid) ++ F2 ++ C) := by
    have hre : m = (A ++ E1 ++ Mid) ++ E2 ++ C := by
      rw [hm]
      simp [List.append_assoc]
    rw [hre]
    apply hset2 (A ++ E1 ++ Mid) C _ hC
    intro x hx
    simp only [List.mem_append] at hx
    rcases hx with (hx | hx) | hx
    · exact lt_trans (hA x hx) hlt
    · rw [hE1 x hx]
      exact hlt
    · exact hMid x hx
  have s21 : setValue ((A ++ E1 ++ Mid) ++ F2 ++ C) id1 v1
      = (b1, A ++ F1 ++ (Mid ++ F2 ++ C)) := by
    have hre : (A ++ E1 ++ Mid) ++ F2 ++ C = A ++ E1 ++ (Mid ++ F2 ++ C) := by
      simp [List.append_assoc]
    rw [hre]
    apply hset1 A (Mid ++ F2 ++ C) hA
    intro x hx
    simp only [List.mem_append] at hx
    rcases hx with (hx | hx) | hx
    · exact hMid1 x hx
    · rw [hF2 x hx]
      exact hlt
    · exact hC1 x hx
  rw [s1, s2]
  simp only
  rw [s12, s21]
  simp [List.append_assoc]

end FieldMapBasedTag

/-! ## Further laws of setValue and the known-field overloads -/

namespace FieldMapBasedTag

variable {Id TI : Type} [LinearOrder Id]

/-- C11, as stated, fails: the tag reached from the empty tag by `setValue(1, "a")` and
`setValue(1, empty)` stores one empty field under identifier 1, so `hasField(1)` is
false; `setValue(1, empty)` finds that field and returns true, whereas on the empty tag
it returns false. -/
theorem setValue_empty_stored_counterexample :
    FieldMap.KeyOrdered Sample.singleEmpty ∧
    (setValue (setValue ([] : FieldMap Nat Nat) 1 (Sample.txt [97])).2 1 TagValue.empty).2
      = Sample.singleEmpty ∧
    hasField Sample.singleEmpty 1 = false ∧
    (setValue Sample.singleEmpty 1 TagValue.empty).1 = true ∧
    (setValue ([] : FieldMap Nat Nat) 1 TagValue.empty).1 = false := by
  decide

/-- C11, amended: when `hasField(id)` is false, `setValue(id, empty)` returns false
exactly when `id` has no stored field at all; when `id` has stored fields (which then all
hold the empty value) it returns true and leaves the field map as it is. -/
theorem setValue_empty_false_iff (m : FieldMap Id TI) (h : FieldMap.KeyOrdered m) (id : Id)
    (hno : hasField m id = false) :
    ((setValue m id TagValue.empty).1 = false ↔ ∀ e ∈ m, e.1 ≠ id) ∧
    ((∃ e ∈ m, e.1 = id) → setValue m id TagValue.empty = (true, m)) := by
  have hA := FieldMap.lt_of_mem_beforeLowerBound m id
  have hE := FieldMap.eq_of_mem_equalRange m h id
  have hU := FieldMap.lt_of_mem_fromUpperBound m h id
  have hfilter := FieldMap.equalRange_eq_filter m h id
  have hm := FieldMap.segments_eq m id
  have hany : hasFieldLoop (FieldMap.equalRange m id) = false := hno
  rw [hasFieldLoop_eq] at hany
  cases hcase : FieldMap.equalRange m id with
  | nil =>
    rw [hcase] at hm hfilter
    have habsent : ∀ e ∈ m, e.1 ≠ id := by
      intro e he hk
      have : e ∈ m.filter (fun e => decide (e.1 = id)) := by
        simp [List.mem_filter, he, hk]
      rw [← hfilter] at this
      simp at this
    have hres : setValue m id TagValue.empty = (false, m) := by
      have := setValue_parts_nil id TagValue.empty (FieldMap.beforeLowerBound m id)
        (FieldMap.fromUpperBound m id) hA hU
      simp only [List.append_nil] at hm
      rw [hm] at this
      simpa [TagValue.isEmpty] using this
    refine ⟨?_, ?_⟩
    · rw [hres]
      simp only [true_iff]
      exact habsent
    · rintro ⟨e, he, hk⟩
      exact absurd hk (habsent e he)
  | cons e rest =>
    rw [hcase] at hm hE hany
    have hval : e.2.value = TagValue.empty := by
      have h1 := List.any_eq_false.mp hany e (by simp)
      have h2 : e.2.value.isEmpty = true := by simpa using h1
      exact (isEmpty_iff _).mp h2
    have hsame : (e.1, e.2.setValue TagValue.empty) = e := by
      have : e.2.setValue TagValue.empty = e.2 := by
        unfold TagField.setValue
        rw [← hval]
      rw [this]
    have hres : setValue m id TagValue.empty = (true, m) := by
      have := setValue_parts_cons id TagValue.empty e (FieldMap.beforeLowerBound m id) rest
        (FieldMap.fromUpperBound m id) hA hE hU
      rw [hsame, hm] at this
      exact this
    have hmem : e ∈ m := by
      rw [← hm]
      simp
    refine ⟨?_, fun _ => hres⟩
    rw [hres]
    constructor
    · intro hf
      simp at hf
    · intro habsent
      exact absurd (hE e (by simp)) (habsent e hmem)

/-- Witness of `setValue_empty_false_iff` on the tag with one empty field. -/
theorem setValue_empty_false_iff_witness :
    FieldMap.KeyOrdered Sample.singleEmpty ∧ hasField Sample.singleEmpty 1 = false ∧
    (((setValue Sample.singleEmpty 1 TagValue.empty).1 = false ↔
        ∀ e ∈ Sample.singleEmpty, e.1 ≠ 1) ∧
      ((∃ e ∈ Sample.singleEmpty, e.1 = 1) →
        setValue Sample.singleEmpty 1 TagValue.empty = (true, Sample.singleEmpty))) :=
  ⟨by decide, by decide, setValue_empty_false_iff Sample.singleEmpty (by decide) 1 (by decide)⟩

/-- C16: insertion order across different identifiers is not significant: for two
distinct identifiers, `setValue(id1, v1)` then `setValue(id2, v2)` yields the same field
map and the same two return values as the two calls in the opposite order. -/
theorem setValue_comm (m : FieldMap Id TI) (h : FieldMap.KeyOrdered m) (id1 id2 : Id)
    (hne : id1 ≠ id2) (v1 v2 : TagValue) :
    (setValue (setValue m id1 v1).2 id2 v2).2 = (setValue (setValue m id2 v2).2 id1 v1).2 ∧
    (setValue m id1 v1).1 = (setValue (setValue m id2 v2).2 id1 v1).1 ∧
    (setValue (setValue m id1 v1).2 id2 v2).1 = (setValue m id2 v2).1 := by
  rcases lt_or_gt_of_ne hne with hlt | hgt
  · exact setValue_comm_of_lt m h id1 id2 hlt v1 v2
  · have hc := setValue_comm_of_lt m h id2 id1 hgt v2 v1
    exact ⟨hc.1.symm, hc.2.2.symm, hc.2.1.symm⟩

/-- Witness of `setValue_comm`: a new field under 3 and the emptied first field under 2
of the sample tag, in both orders. -/
theorem setValue_comm_witness :
    FieldMap.KeyOrdered Sample.mixed ∧ (3 : Nat) ≠ 2 ∧
    (setValue (setValue Sample.mixed 3 (Sample.txt [100])).2 2 TagValue.empty).2
      = [Sample.fld 1 TagValue.empty, Sample.fld 2 TagValue.empty, Sample.fld 2 TagValue.empty,
          Sample.fld 2 (Sample.txt [99]), Sample.fld 3 (Sample.txt [100]),
          Sample.fld 5 (TagValue.integer 7)] ∧
    ((setValue (setValue Sample.mixed 3 (Sample.txt [100])).2 2 TagValue.empty).2
        = (setValue (setValue Sample.mixed 2 TagValue.empty).2 3 (Sample.txt [100])).2 ∧
      (setValue Sample.mixed 3 (Sample.txt [100])).1
        = (setValue (setValue Sample.mixed 2 TagValue.empty).2 3 (Sample.txt [100])).1 ∧
      (setValue (setValue Sample.mixed 3 (Sample.txt [100])).2 2 TagValue.empty).1
        = (setValue Sample.mixed 2 TagValue.empty).1) :=
  ⟨by decide, by decide, by decide,
    setValue_comm Sample.mixed (by decide) 3 2 (by decide) (Sample.txt [100]) TagValue.empty⟩

/-- C17: the known-field overloads are pure translations through the mapping `fieldId`:
`value`, `values` and `hasField` return what the identifier versions return for
`fieldId(f)`, and `setValue` / `setValues` have the same result and the same effect on
the field map. -/
theorem knownField_overloads (fieldId : KnownField → Id) (m : FieldMap Id TI)
    (f : KnownField) (v : TagValue) (vs : List TagValue) :
    valueKnown fieldId m f = value m (fieldId f) ∧
    valuesKnown fieldId m f = values m (fieldId f) ∧
    hasFieldKnown fieldId m f = hasField m (fieldId f) ∧
    setValueKnown fieldId m f v = setValue m (fieldId f) v ∧
    setValuesKnown fieldId m f vs = setValues m (fieldId f) vs :=
  ⟨rfl, rfl, rfl, rfl, rfl⟩

/-- C18: `supportsField(f)` is true if and only if `fieldId(f)` differs from the
default-constructed identifier, and the answer does not depend on the fields the tag
stores. -/
theorem supportsField_iff [Inhabited Id] (fieldId : KnownField → Id) (f : KnownField) :
    (∀ m : FieldMap Id TI, supportsField fieldId m f = true ↔ fieldId f ≠ default) ∧
    (∀ m1 m2 : FieldMap Id TI, supportsField fieldId m1 f = supportsField fieldId m2 f) := by
  refine ⟨?_, ?_⟩
  · intro m
    unfold supportsField
    simp
  · intro m1 m2
    rfl

end FieldMapBasedTag

/-! ## Laws of the MP4 tag -/

namespace Mp4Tag

/-- C19: `Mp4Tag::supportsField(EncoderSettings)` returns true whatever `fieldId` maps
EncoderSettings to and whatever the tag stores; for every other known field it returns
what `FieldMapBasedTag::supportsField` returns. -/
theorem supportsField_encoderSettings (fieldId : KnownField → Nat) (m : FieldMap Nat Nat) :
    supportsField fieldId m KnownField.encoderSettings = true ∧
    (∀ f : KnownField, f ≠ KnownField.encoderSettings →
      supportsField fieldId m f = FieldMapBasedTag.supportsField fieldId m f) := by
  refine ⟨rfl, ?_⟩
  intro f hf
  cases f <;> first | rfl | exact absurd rfl hf

end Mp4Tag

namespace Mp4ExtendedFieldId

/-- C20: for a valid `Mp4ExtendedFieldId` (mean and name both set) and every MP4 tag
field, `matches(field)` is true if and only if the mean of the field equals the mean of
the id and the name of the field equals the name of the id, byte for byte; the
`updateOnly` flag does not influence the result. -/
theorem matches_iff (id : Mp4ExtendedFieldId) (field : Mp4TagField)
    (hvalid : id.isValid = true) :
    ∃ mean name, id.mean = some mean ∧ id.name = some name ∧
      («matches» id field = some true ↔
        field.mean = cString mean ∧ field.name = cString name) ∧
      («matches» id field = some true ∨ «matches» id field = some false) ∧
      ∀ flag : Bool, «matches» { id with updateOnly := flag } field = «matches» id field := by
  obtain ⟨mean, name, flag0⟩ := id
  cases mean with
  | none => simp [isValid] at hvalid
  | some mean =>
    cases name with
    | none => simp [isValid] at hvalid
    | some name =>
      refine ⟨mean, name, rfl, rfl, ?_, ?_, ?_⟩
      · unfold «matches»
        by_cases h1 : field.mean = cString mean
        · simp [h1]
        · simp [h1]
      · unfold «matches»
        by_cases h1 : field.mean = cString mean
        · by_cases h2 : field.name = cString name
          · simp [h1, h2]
          · simp [h1, h2]
        · simp [h1]
      · intro flag
        rfl

/-- Witness of `matches_iff`: the sample id matches the sample field, with either value
of the flag, and does not match it once the mean differs. -/
theorem matches_iff_witness :
    Sample.extendedId.isValid = true ∧
    «matches» Sample.extendedId Sample.extendedField = some true ∧
    «matches» { Sample.extendedId with updateOnly := true } Sample.extendedField = some true ∧
    «matches» Sample.extendedId { Sample.extendedField with mean := [97] } = some false ∧
    (∃ mean name, Sample.extendedId.mean = some mean ∧ Sample.extendedId.name = some name ∧
      («matches» Sample.extendedId Sample.extendedField = some true ↔
        Sample.extendedField.mean = cString mean ∧ Sample.extendedField.name = cString name) ∧
      («matches» Sample.extendedId Sample.extendedField = some true ∨
        «matches» Sample.extendedId Sample.extendedField = some false) ∧
      ∀ flag : Bool, «matches» { Sample.extendedId with updateOnly := flag } Sample.extendedField
        = «matches» Sample.extendedId Sample.extendedField) :=
  ⟨by decide, by decide, by decide, by decide,
    matches_iff Sample.extendedId Sample.extendedField (by decide)⟩

end Mp4ExtendedFieldId

/-! ## The loops of insertFields -/

namespace FieldMapBasedTag

variable {Id TI : Type} [LinearOrder Id] [DecidableEq TI]

theorem typeInfoMatches_iff (f g : TagField Id TI) :
    typeInfoMatches f g = true ↔ f.typeInfo = g.typeInfo := by
  unfold typeInfoMatches
  cases hf : f.typeInfo <;> cases hg : g.typeInfo <;> simp

theorem insertFieldsInner_eq (f : TagField Id TI) (ow : Bool) (E : List (Id × TagField Id TI)) :
    ∀ (n : Nat) (b : Bool),
      insertFieldsInner f ow E n b
        = (E.map (overwrittenEntry f ow), n + E.countP (isOverwritten f ow),
            b || E.any (fun e => typeInfoMatches f e.2)) := by
  induction E with
  | nil =>
    intro n b
    simp [insertFieldsInner]
  | cons e E ih =>
    intro n b
    by_cases hm : typeInfoMatches f e.2 = true
    · by_cases ho : (ow || e.2.value.isEmpty) = true
      · have hov : isOverwritten f ow e = true := by
          simp only [isOverwritten, hm, ho, Bool.and_self]
        simp only [insertFieldsInner, hm, ho, if_true, ih, List.map_cons, overwrittenEntry,
          hov, List.countP_cons, List.any_cons, Bool.or_true, Bool.true_or]
        refine Prod.ext rfl (Prod.ext ?_ rfl)
        simp only
        omega
      · have hov : isOverwritten f ow e = false := by
          simp only [isOverwritten, hm, Bool.true_and]
          simpa using ho
        simp only [insertFieldsInner, hm, ho, if_true, ih, List.map_cons, overwrittenEntry,
          hov, List.countP_cons, List.any_cons, Bool.or_true, Bool.true_or]
        simp
    · have hov : isOverwritten f ow e = false := by
        simp only [isOverwritten]
        simp [hm]
      simp only [insertFieldsInner, hm, ih, List.map_cons, overwrittenEntry,
        hov, List.countP_cons, List.any_cons]
      simp [hm]

theorem overwrittenEntry_key (f : TagField Id TI) (ow : Bool) (e : Id × TagField Id TI) :
    (overwrittenEntry f ow e).1 = e.1 := by
  unfold overwrittenEntry
  split <;> rfl

theorem overwrittenEntry_typeInfo (f : TagField Id TI) (ow : Bool) (e : Id × TagField Id TI) :
    (overwrittenEntry f ow e).2.typeInfo = e.2.typeInfo := by
  unfold overwrittenEntry
  by_cases h : isOverwritten f ow e = true
  · have hm : typeInfoMatches f e.2 = true := by
      unfold isOverwritten at h
      simp only [Bool.and_eq_true] at h
      exact h.1
    simp only [h, if_true]
    exact (typeInfoMatches_iff f e.2).mp hm
  · simp [h]

theorem insertFieldsRange_keys (own : FieldMap Id TI) (h : FieldMap.KeyOrdered own)
    (f : TagField Id TI) (ow : Bool) : ∀ e ∈ insertFieldsRange own f ow, e.1 = f.id := by
  intro e he
  unfold insertFieldsRange at he
  rcases List.mem_append.mp he with h1 | h1
  · rcases List.mem_map.mp h1 with ⟨x, hx, rfl⟩
    rw [overwrittenEntry_key]
    exact FieldMap.eq_of_mem_equalRange own h f.id x hx
  · split at h1
    · simp at h1
    · simp only [List.mem_singleton] at h1
      rw [h1]

/-- The body of the outer loop on a key-ordered map, for a non-empty source field. -/
theorem insertFieldsBody_eq (own : FieldMap Id TI) (h : FieldMap.KeyOrdered own) (n : Nat)
    (f : TagField Id TI) (ow : Bool) (hf : f.value.isEmpty = false) :
    insertFieldsBody own n f ow
      = (n + (FieldMap.equalRange own f.id).countP (isOverwritten f ow)
            + (if (FieldMap.equalRange own f.id).any (fun e => typeInfoMatches f e.2)
                then 0 else 1),
          FieldMap.beforeLowerBound own f.id ++ insertFieldsRange own f ow
            ++ FieldMap.fromUpperBound own f.id) := by
  have hA := FieldMap.lt_of_mem_beforeLowerBound own f.id
  have hU := FieldMap.lt_of_mem_fromUpperBound own h f.id
  have hE : ∀ e ∈ (FieldMap.equalRange own f.id).map (overwrittenEntry f ow), e.1 = f.id := by
    intro e he
    rcases List.mem_map.mp he with ⟨x, hx, rfl⟩
    rw [overwrittenEntry_key]
    exact FieldMap.eq_of_mem_equalRange own h f.id x hx
  unfold insertFieldsBody insertFieldsRange
  simp only [hf, Bool.false_eq_true, if_false, insertFieldsInner_eq, Bool.false_or]
  by_cases hany : (FieldMap.equalRange own f.id).any (fun e => typeInfoMatches f e.2) = true
  · simp [hany]
  · have hany2 : (FieldMap.equalRange own f.id).any (fun e => typeInfoMatches f e.2) = false := by
      simpa using hany
    simp only [hany2, Bool.not_false, if_true, Bool.false_eq_true, if_false]
    rw [FieldMap.insert_of_parts f.id f _ _ _ hA hE hU]

end FieldMapBasedTag

/-! ## Fields that keep their place -/

namespace Spec

variable {Id TI : Type} [LinearOrder Id]

theorem storedUnder_eq_range (m : FieldMap Id TI) (h : FieldMap.KeyOrdered m) (id : Id) :
    storedUnder m id = (FieldMap.equalRange m id).map Prod.snd := by
  unfold storedUnder
  rw [FieldMap.equalRange_eq_filter m h id]

theorem storedUnder_rebuild (m : FieldMap Id TI) (h : FieldMap.KeyOrdered m) (id : Id)
    (E : FieldMap Id TI) (hE : ∀ e ∈ E, e.1 = id) :
    storedUnder (FieldMap.beforeLowerBound m id ++ E ++ FieldMap.fromUpperBound m id) id
      = E.map Prod.snd := by
  unfold storedUnder
  rw [FieldMap.filter_rebuild m h id E hE]

theorem storedUnder_rebuild_other (m : FieldMap Id TI) (h : FieldMap.KeyOrdered m)
    (id other : Id) (hne : other ≠ id) (E : FieldMap Id TI) (hE : ∀ e ∈ E, e.1 = id) :
    storedUnder (FieldMap.beforeLowerBound m id ++ E ++ FieldMap.fromUpperBound m id) other
      = storedUnder m other := by
  unfold storedUnder
  rw [FieldMap.filter_rebuild_other m h id other hne E hE]

theorem keptInPlace_refl (P : Id → TagField Id TI → Bool) (m : FieldMap Id TI) :
    keptInPlace P m m := by
  intro id i f hf _
  exact hf

theorem keptInPlace_trans (P : Id → TagField Id TI → Bool) (a b c : FieldMap Id TI)
    (hab : keptInPlace P a b) (hbc : keptInPlace P b c) : keptInPlace P a c := by
  intro id i f hf hP
  exact hbc id i f (hab id i f hf hP) hP

theorem staysInPlace_refl (m : FieldMap Id TI) : staysInPlace m m := by
  intro id i f hf
  exact ⟨f, hf, rfl⟩

theorem staysInPlace_trans (a b c : FieldMap Id TI)
    (hab : staysInPlace a b) (hbc : staysInPlace b c) : staysInPlace a c := by
  intro id i f hf
  obtain ⟨g, hg, hgt⟩ := hab id i f hf
  obtain ⟨k, hk, hkt⟩ := hbc id i g hg
  exact ⟨k, hk, hkt.trans hgt⟩

/-- Replacing the range of `id` by entries `New ++ Added`, where `New` keeps every entry
of the old range satisfying `P` at its index, keeps those fields in place. -/
theorem keptInPlace_rebuild (P : Id → TagField Id TI → Bool) (m : FieldMap Id TI)
    (h : FieldMap.KeyOrdered m) (id : Id) (New Added : FieldMap Id TI)
    (hkeys : ∀ e ∈ New ++ Added, e.1 = id)
    (hkept : ∀ (i : Nat) (e : Id × TagField Id TI), (FieldMap.equalRange m id)[i]? = some e →
      P id e.2 = true → New[i]? = some e) :
    keptInPlace P m
      (FieldMap.beforeLowerBound m id ++ (New ++ Added) ++ FieldMap.fromUpperBound m id) := by
  intro id2 i f hf hP
  by_cases hid : id2 = id
  · subst hid
    rw [storedUnder_rebuild m h id2 _ hkeys]
    rw [storedUnder_eq_range m h id2, List.getElem?_map] at hf
    cases hEi : (FieldMap.equalRange m id2)[i]? with
    | none => simp [hEi] at hf
    | some e =>
      rw [hEi] at hf
      simp only [Option.map_some', Option.some.injEq] at hf
      have hN : New[i]? = some e := hkept i e hEi (by rw [hf]; exact hP)
      have hlt : i < New.length := by
        by_contra hge
        rw [List.getElem?_eq_none (not_lt.mp hge)] at hN
        simp at hN
      rw [List.getElem?_map, List.getElem?_append_left hlt, hN]
      simp [hf]
  · rw [storedUnder_rebuild_other m h id id2 hid _ hkeys]
    exact hf

/-- Replacing the range of `id` by entries `New ++ Added`, where `New` carries the type
infos of the old range in their order, keeps every field in its place. -/
theorem staysInPlace_rebuild (m : FieldMap Id TI) (h : FieldMap.KeyOrdered m) (id : Id)
    (New Added : FieldMap Id TI) (hkeys : ∀ e ∈ New ++ Added, e.1 = id)
    (hlab : New.map (fun e => e.2.typeInfo)
      = (FieldMap.equalRange m id).map (fun e => e.2.typeInfo)) :
    staysInPlace m
      (FieldMap.beforeLowerBound m id ++ (New ++ Added) ++ FieldMap.fromUpperBound m id) := by
  intro id2 i f hf
  by_cases hid : id2 = id
  · subst hid
    rw [storedUnder_rebuild m h id2 _ hkeys]
    rw [storedUnder_eq_range m h id2, List.getElem?_map] at hf
    cases hEi : (FieldMap.equalRange m id2)[i]? with
    | none => simp [hEi] at hf
    | some e =>
      rw [hEi] at hf
      simp only [Option.map_some', Option.some.injEq] at hf
      have hidx := congrArg (fun l => l[i]?) hlab
      simp only [List.getElem?_map, hEi, Option.map_some'] at hidx
      cases hNi : New[i]? with
      | none => simp [hNi] at hidx
      | some x =>
        rw [hNi] at hidx
        simp only [Option.map_some', Option.some.injEq] at hidx
        have hlt : i < New.length := by
          by_contra hge
          rw [List.getElem?_eq_none (not_lt.mp hge)] at hNi
          simp at hNi
        refine ⟨x.2, ?_, ?_⟩
        · rw [List.getElem?_map, List.getElem?_append_left hlt, hNi]
          rfl
        · rw [hidx, hf]
  · rw [storedUnder_rebuild_other m h id id2 hid _ hkeys]
    exact ⟨f, hf, rfl⟩

end Spec

/-! ## The mutators keep the order of the fields -/

namespace FieldMapBasedTag

variable {Id TI : Type} [LinearOrder Id]

theorem setValue_rebuild (m : FieldMap Id TI) (h : FieldMap.KeyOrdered m) (id : Id)
    (v : TagValue) :
    ∃ New Added : FieldMap Id TI, (∀ e ∈ New ++ Added, e.1 = id) ∧
      New.map (fun e => e.2.typeInfo)
        = (FieldMap.equalRange m id).map (fun e => e.2.typeInfo) ∧
      (setValue m id v).2
        = FieldMap.beforeLowerBound m id ++ (New ++ Added) ++ FieldMap.fromUpperBound m id := by
  have hA := FieldMap.lt_of_mem_beforeLowerBound m id
  have hE := FieldMap.eq_of_mem_equalRange m h id
  have hU := FieldMap.lt_of_mem_fromUpperBound m h id
  have hm := FieldMap.segments_eq m id
  cases hcase : FieldMap.equalRange m id with
  | nil =>
    rw [hcase] at hm
    simp only [List.append_nil] at hm
    have hres := setValue_parts_nil id v (FieldMap.beforeLowerBound m id)
      (FieldMap.fromUpperBound m id) hA hU
    rw [hm] at hres
    by_cases hv : v.isEmpty = true
    · refine ⟨[], [], by simp, by simp, ?_⟩
      rw [hres]
      simp [hv, hm]
    · refine ⟨[], [(id, TagField.create id v)], by simp, by simp, ?_⟩
      rw [hres]
      simp [hv]
  | cons e rest =>
    rw [hcase] at hm hE
    have hres := setValue_parts_cons id v e (FieldMap.beforeLowerBound m id) rest
      (FieldMap.fromUpperBound m id) hA hE hU
    rw [hm] at hres
    refine ⟨(e.1, e.2.setValue v) :: rest, [], ?_, ?_, ?_⟩
    · intro x hx
      simp only [List.append_nil, List.mem_cons] at hx
      rcases hx with h1 | h1
      · rw [h1]
        exact hE e (by simp)
      · exact hE x (by simp [h1])
    · simp [TagField.setValue]
    · rw [hres]
      simp

theorem setValue_ordered (m : FieldMap Id TI) (h : FieldMap.KeyOrdered m) (id : Id)
    (v : TagValue) : FieldMap.KeyOrdered (setValue m id v).2 := by
  obtain ⟨New, Added, hkeys, _, hres⟩ := setValue_rebuild m h id v
  rw [hres]
  exact FieldMap.ordered_rebuild m h id _ hkeys

theorem setValue_stays (m : FieldMap Id TI) (h : FieldMap.KeyOrdered m) (id : Id)
    (v : TagValue) : Spec.staysInPlace m (setValue m id v).2 := by
  obtain ⟨New, Added, hkeys, hlab, hres⟩ := setValue_rebuild m h id v
  rw [hres]
  exact Spec.staysInPlace_rebuild m h id New Added hkeys hlab

theorem setValuesReplace_typeInfo (vs : List TagValue) :
    ∀ (range : List (Id × TagField Id TI)),
      ((setValuesReplace vs range).1 ++ (setValuesReplace vs range).2.2.map
          (fun e => (e.1, e.2.setValue TagValue.empty))).map (fun e => e.2.typeInfo)
        = range.map (fun e => e.2.typeInfo) := by
  induction vs with
  | nil =>
    intro range
    simp [setValuesReplace, TagField.setValue]
  | cons v vs ih =>
    intro range
    cases range with
    | nil => simp [setValuesReplace]
    | cons e range =>
      by_cases hv : v.isEmpty = true
      · simpa [setValuesReplace, hv] using ih (e :: range)
      · have hrec := ih range
        simp only [setValuesReplace, hv, Bool.not_false, Bool.false_eq_true, if_true,
          List.cons_append, List.map_cons]
        rw [hrec]
        rfl

theorem setValues_stays (m : FieldMap Id TI) (h : FieldMap.KeyOrdered m) (id : Id)
    (vs : List TagValue) : Spec.staysInPlace m (setValues m id vs).2 := by
  rw [setValues_eq]
  have hkeys := setValuesRange_keys m h id vs
  unfold setValuesRange at hkeys ⊢
  exact Spec.staysInPlace_rebuild m h id _ _ hkeys
    (setValuesReplace_typeInfo vs (FieldMap.equalRange m id))

end FieldMapBasedTag

namespace FieldMapBasedTag

variable {Id TI : Type} [LinearOrder Id] [DecidableEq TI]

theorem insertFieldsBody_rebuild (own : FieldMap Id TI) (h : FieldMap.KeyOrdered own)
    (n : Nat) (f : TagField Id TI) (ow : Bool) (hf : f.value.isEmpty = false) :
    (insertFieldsBody own n f ow).2
      = FieldMap.beforeLowerBound own f.id
        ++ ((FieldMap.equalRange own f.id).map (overwrittenEntry f ow)
          ++ (if (FieldMap.equalRange own f.id).any (fun e => typeInfoMatches f e.2)
              then [] else [(f.id, f)]))
        ++ FieldMap.fromUpperBound own f.id := by
  rw [insertFieldsBody_eq own h n f ow hf]
  rfl

theorem insertFieldsBody_ordered (own : FieldMap Id TI) (h : FieldMap.KeyOrdered own)
    (n : Nat) (f : TagField Id TI) (ow : Bool) :
    FieldMap.KeyOrdered (insertFieldsBody own n f ow).2 := by
  by_cases hf : f.value.isEmpty = true
  · simpa [insertFieldsBody, hf] using h
  · have hf2 : f.value.isEmpty = false := by simpa using hf
    rw [insertFieldsBody_eq own h n f ow hf2]
    exact FieldMap.ordered_rebuild own h f.id _ (insertFieldsRange_keys own h f ow)

theorem insertFieldsBody_stays (own : FieldMap Id TI) (h : FieldMap.KeyOrdered own)
    (n : Nat) (f : TagField Id TI) (ow : Bool) :
    Spec.staysInPlace own (insertFieldsBody own n f ow).2 := by
  by_cases hf : f.value.isEmpty = true
  · simpa [insertFieldsBody, hf] using Spec.staysInPlace_refl own
  · have hf2 : f.value.isEmpty = false := by simpa using hf
    rw [insertFieldsBody_rebuild own h n f ow hf2]
    have hkeys := insertFieldsRange_keys own h f ow
    unfold insertFieldsRange at hkeys
    apply Spec.staysInPlace_rebuild own h f.id _ _ hkeys
    rw [List.map_map]
    apply List.map_congr_left
    intro e _
    exact overwrittenEntry_typeInfo f ow e

theorem insertFieldsBody_kept (P : Id → TagField Id TI → Bool) (own : FieldMap Id TI)
    (h : FieldMap.KeyOrdered own) (n : Nat) (f : TagField Id TI) (ow : Bool)
    (hP : f.value.isEmpty = false → ∀ e : Id × TagField Id TI, e.1 = f.id →
      isOverwritten f ow e = true → P e.1 e.2 = false) :
    Spec.keptInPlace P own (insertFieldsBody own n f ow).2 := by
  by_cases hf : f.value.isEmpty = true
  · simpa [insertFieldsBody, hf] using Spec.keptInPlace_refl P own
  · have hf2 : f.value.isEmpty = false := by simpa using hf
    rw [insertFieldsBody_rebuild own h n f ow hf2]
    have hkeys := insertFieldsRange_keys own h f ow
    unfold insertFieldsRange at hkeys
    apply Spec.keptInPlace_rebuild P own h f.id _ _ hkeys
    intro i e hEi hPe
    have hmem : e ∈ FieldMap.equalRange own f.id := List.getElem?_mem hEi
    have hkey : e.1 = f.id := FieldMap.eq_of_mem_equalRange own h f.id e hmem
    have hnot : isOverwritten f ow e = false := by
      by_contra hov
      have hov2 : isOverwritten f ow e = true := by simpa using hov
      have := hP hf2 e hkey hov2
      rw [hkey, hPe] at this
      simp at this
    rw [List.getElem?_map, hEi]
    simp [overwrittenEntry, hnot]

theorem insertFieldsLoop_ordered (ow : Bool) (src : List (Id × TagField Id TI)) :
    ∀ (own : FieldMap Id TI) (n : Nat), FieldMap.KeyOrdered own →
      FieldMap.KeyOrdered (insertFieldsLoop src own n ow).2 := by
  induction src with
  | nil =>
    intro own n h
    exact h
  | cons p rest ih =>
    intro own n h
    exact ih _ _ (insertFieldsBody_ordered own h n p.2 ow)

theorem insertFieldsLoop_stays (ow : Bool) (src : List (Id × TagField Id TI)) :
    ∀ (own : FieldMap Id TI) (n : Nat), FieldMap.KeyOrdered own →
      Spec.staysInPlace own (insertFieldsLoop src own n ow).2 := by
  induction src with
  | nil =>
    intro own n _
    exact Spec.staysInPlace_refl own
  | cons p rest ih =>
    intro own n h
    exact Spec.staysInPlace_trans _ _ _ (insertFieldsBody_stays own h n p.2 ow)
      (ih _ _ (insertFieldsBody_ordered own h n p.2 ow))

theorem insertFieldsLoop_kept (P : Id → TagField Id TI → Bool) (ow : Bool)
    (src : List (Id × TagField Id TI))
    (hP : ∀ p ∈ src, p.2.value.isEmpty = false → ∀ e : Id × TagField Id TI, e.1 = p.2.id →
      isOverwritten p.2 ow e = true → P e.1 e.2 = false) :
    ∀ (own : FieldMap Id TI) (n : Nat), FieldMap.KeyOrdered own →
      Spec.keptInPlace P own (insertFieldsLoop src own n ow).2 := by
  induction src with
  | nil =>
    intro own n _
    exact Spec.keptInPlace_refl P own
  | cons p rest ih =>
    intro own n h
    exact Spec.keptInPlace_trans P _ _ _
      (insertFieldsBody_kept P own h n p.2 ow (hP p (by simp)))
      (ih (fun q hq => hP q (by simp [hq])) _ _ (insertFieldsBody_ordered own h n p.2 ow))

end FieldMapBasedTag

/-! ## insertFields and the order of the fields -/

namespace FieldMapBasedTag

variable {Id TI : Type} [LinearOrder Id] [DecidableEq TI]

/-- C12: `insertFields(from, overwrite=false)` skips existing non-empty fields: every
field of the receiving tag that held a non-empty value before the call is afterwards
still stored at the same place under its identifier, unchanged (same identifier, type
info and value), for every source tag. -/
theorem insertFields_keeps_nonEmpty (own source : FieldMap Id TI)
    (h : FieldMap.KeyOrdered own) :
    Spec.keptInPlace (fun _ f => !f.value.isEmpty) own (insertFields own source false).2 := by
  unfold insertFields
  apply insertFieldsLoop_kept (fun _ f => !f.value.isEmpty) false source _ own 0 h
  intro p _ _ e _ hov
  unfold isOverwritten at hov
  simp only [Bool.false_or, Bool.and_eq_true] at hov
  simp [hov.2]

/-- Witness of `insertFields_keeps_nonEmpty`: on the sample tag only the two empty fields
are overwritten. -/
theorem insertFields_keeps_nonEmpty_witness :
    FieldMap.KeyOrdered Sample.mixed ∧
    insertFields Sample.mixed Sample.plainSource false
      = (2, [Sample.fld 1 (Sample.txt [121]), Sample.fld 2 (Sample.txt [98]),
          Sample.fld 2 (Sample.txt [120]), Sample.fld 2 (Sample.txt [99]),
          Sample.fld 5 (TagValue.integer 7)]) ∧
    Spec.keptInPlace (fun _ f => !f.value.isEmpty) Sample.mixed
      (insertFields Sample.mixed Sample.plainSource false).2 :=
  ⟨by decide, by decide, insertFields_keeps_nonEmpty Sample.mixed Sample.plainSource (by decide)⟩

/-- C14: `insertFields` matches fields on (identifier, type info): a field of the
receiving tag for which no non-empty source field has the same identifier and matching
type info is afterwards still stored at the same place, unchanged; so an existing entry
is overwritten only if such a source field exists. -/
theorem insertFields_overwrites_only_matching (own source : FieldMap Id TI) (ow : Bool)
    (h : FieldMap.KeyOrdered own) :
    Spec.keptInPlace (fun id f => !Spec.hasMatchingSource source id f) own
      (insertFields own source ow).2 := by
  unfold insertFields
  apply insertFieldsLoop_kept (fun id f => !Spec.hasMatchingSource source id f) ow source _
    own 0 h
  intro p hp hne e hkey hov
  unfold isOverwritten at hov
  simp only [Bool.and_eq_true] at hov
  have hany : Spec.hasMatchingSource source e.1 e.2 = true := by
    unfold Spec.hasMatchingSource
    rw [List.any_eq_true]
    exact ⟨p, hp, by simp [hne, hkey, hov.1]⟩
  simp [hany]

/-- Witness of `insertFields_overwrites_only_matching`: with overwriting, the source
field with type info 7 under identifier 1 replaces only the own field with that
identifier and type info. -/
theorem insertFields_overwrites_only_matching_witness :
    FieldMap.KeyOrdered Sample.typed ∧
    insertFields Sample.typed Sample.typedSource true
      = (1, [(1, { id := 1, value := Sample.txt [120], typeInfo := some 7 }),
          (1, { id := 1, value := Sample.txt [98], typeInfo := none }),
          (2, { id := 2, value := Sample.txt [99], typeInfo := some 7 })]) ∧
    Spec.keptInPlace (fun id f => !Spec.hasMatchingSource Sample.typedSource id f)
      Sample.typed (insertFields Sample.typed Sample.typedSource true).2 :=
  ⟨by decide, by decide,
    insertFields_overwrites_only_matching Sample.typed Sample.typedSource true (by decide)⟩

/-- C15: field order is an invariant of the tag: the empty tag is key-ordered, and on a
key-ordered tag `removeAllFields`, `setValue`, `setValues` and `insertFields` give a
key-ordered tag in which every field stored before is still at its place among the
fields of its identifier, new fields being placed behind them (insertion order). -/
theorem field_order_invariant (m : FieldMap Id TI) (h : FieldMap.KeyOrdered m) :
    FieldMap.KeyOrdered ([] : FieldMap Id TI) ∧
    FieldMap.KeyOrdered (removeAllFields m) ∧
    (∀ (id : Id) (v : TagValue),
      FieldMap.KeyOrdered (setValue m id v).2 ∧ Spec.staysInPlace m (setValue m id v).2) ∧
    (∀ (id : Id) (vs : List TagValue),
      FieldMap.KeyOrdered (setValues m id vs).2 ∧ Spec.staysInPlace m (setValues m id vs).2) ∧
    (∀ (source : FieldMap Id TI) (ow : Bool),
      FieldMap.KeyOrdered (insertFields m source ow).2 ∧
      Spec.staysInPlace m (insertFields m source ow).2) := by
  refine ⟨List.Pairwise.nil, List.Pairwise.nil, ?_, ?_, ?_⟩
  · intro id v
    exact ⟨setValue_ordered m h id v, setValue_stays m h id v⟩
  · intro id vs
    exact ⟨setValues_ordered m h id vs, setValues_stays m h id vs⟩
  · intro source ow
    exact ⟨insertFieldsLoop_ordered ow source m 0 h, insertFieldsLoop_stays ow source m 0 h⟩

/-- Witness of `field_order_invariant` on the sample tag with type infos: the field
inserted under identifier 2 comes behind the field stored there. -/
theorem field_order_invariant_witness :
    FieldMap.KeyOrdered Sample.typed ∧
    (insertFields Sample.typed Sample.plainSource true).2
      = [(1, { id := 1, value := Sample.txt [97], typeInfo := some 7 }),
          Sample.fld 1 (Sample.txt [121]),
          (2, { id := 2, value := Sample.txt [99], typeInfo := some 7 }),
          Sample.fld 2 (Sample.txt [120])] ∧
    (FieldMap.KeyOrdered ([] : FieldMap Nat Nat) ∧
      FieldMap.KeyOrdered (removeAllFields Sample.typed) ∧
      (∀ (id : Nat) (v : TagValue),
        FieldMap.KeyOrdered (setValue Sample.typed id v).2 ∧
        Spec.staysInPlace Sample.typed (setValue Sample.typed id v).2) ∧
      (∀ (id : Nat) (vs : List TagValue),
        FieldMap.KeyOrdered (setValues Sample.typed id vs).2 ∧
        Spec.staysInPlace Sample.typed (setValues Sample.typed id vs).2) ∧
      (∀ (source : FieldMap Nat Nat) (ow : Bool),
        FieldMap.KeyOrdered (insertFields Sample.typed source ow).2 ∧
        Spec.staysInPlace Sample.typed (insertFields Sample.typed source ow).2)) :=
  ⟨by decide, by decide, field_order_invariant Sample.typed (by decide)⟩

end FieldMapBasedTag

/-! ## The number returned by insertFields -/

namespace FieldMapBasedTag

variable {Id TI : Type} [LinearOrder Id] [DecidableEq TI]

theorem insertFieldsBody_counter (own : FieldMap Id TI) (n : Nat) (f : TagField Id TI)
    (ow : Bool) :
    insertFieldsBody own n f ow
      = (n + (insertFieldsBody own 0 f ow).1, (insertFieldsBody own 0 f ow).2) := by
  unfold insertFieldsBody
  by_cases hf : f.value.isEmpty = true
  · simp [hf]
  · simp only [hf, Bool.false_eq_true, if_false, insertFieldsInner_eq, Bool.false_or]
    by_cases hany : (FieldMap.equalRange own f.id).any (fun e => typeInfoMatches f e.2) = true
    · simp [hany]
    · simp only [Bool.not_eq_true] at hany
      simp only [hany, Bool.not_false, if_true]
      refine Prod.ext ?_ rfl
      simp only
      omega

theorem insertFieldsLoop_counter (ow : Bool) (src : List (Id × TagField Id TI)) :
    ∀ (own : FieldMap Id TI) (n : Nat),
      insertFieldsLoop src own n ow
        = (n + (insertFieldsLoop src own 0 ow).1, (insertFieldsLoop src own 0 ow).2) := by
  induction src with
  | nil =>
    intro own n
    simp [insertFieldsLoop]
  | cons p rest ih =>
    intro own n
    simp only [insertFieldsLoop]
    rw [insertFieldsBody_counter own n p.2 ow]
    simp only
    rw [ih _ (n + (insertFieldsBody own 0 p.2 ow).1), ih _ (insertFieldsBody own 0 p.2 ow).1]
    refine Prod.ext ?_ rfl
    simp only
    omega

theorem insertFieldsLoop_append (ow : Bool) (s1 s2 : List (Id × TagField Id TI)) :
    ∀ (own : FieldMap Id TI) (n : Nat),
      insertFieldsLoop (s1 ++ s2) own n ow
        = insertFieldsLoop s2 (insertFieldsLoop s1 own n ow).2
            (insertFieldsLoop s1 own n ow).1 ow := by
  induction s1 with
  | nil =>
    intro own n
    simp [insertFieldsLoop]
  | cons p rest ih =>
    intro own n
    simp only [List.cons_append, insertFieldsLoop]
    exact ih _ _

theorem countP_isOverwritten (f : TagField Id TI) (ow : Bool)
    (E : List (Id × TagField Id TI)) :
    E.countP (isOverwritten f ow)
      = ((E.map Prod.snd).filter (fun g => typeInfoMatches f g)).countP
          (fun g => ow || g.value.isEmpty) := by
  induction E with
  | nil => rfl
  | cons e E ih =>
    by_cases hm : typeInfoMatches f e.2 = true
    · by_cases ho : (ow || e.2.value.isEmpty) = true
      · simp [List.countP_cons, List.filter_cons, isOverwritten, hm, ho, ih]
      · simp [List.countP_cons, List.filter_cons, isOverwritten, hm, ho, ih]
    · simp [List.countP_cons, List.filter_cons, isOverwritten, hm, ih]

theorem any_matches_iff (f : TagField Id TI) (E : List (Id × TagField Id TI)) :
    E.any (fun e => typeInfoMatches f e.2)
      = !((E.map Prod.snd).filter (fun g => typeInfoMatches f g)).isEmpty := by
  induction E with
  | nil => rfl
  | cons e E ih =>
    by_cases hm : typeInfoMatches f e.2 = true
    · simp [List.filter_cons, hm]
    · simp [List.filter_cons, hm, ih]

theorem countP_isOverwritten_of_not_any (f : TagField Id TI) (ow : Bool)
    (E : List (Id × TagField Id TI))
    (hany : E.any (fun e => typeInfoMatches f e.2) = false) :
    E.countP (isOverwritten f ow) = 0 := by
  rw [List.countP_eq_zero]
  intro e he
  have := List.any_eq_false.mp hany e he
  simp [isOverwritten, this]

/-- The number a single source field contributes, in the words of the specification. -/
theorem insertFieldsBody_count (own : FieldMap Id TI) (h : FieldMap.KeyOrdered own)
    (f : TagField Id TI) (ow : Bool) :
    (insertFieldsBody own 0 f ow).1
      = if f.value.isEmpty then 0 else Spec.copiesMade own f ow := by
  by_cases hf : f.value.isEmpty = true
  · simp [insertFieldsBody, hf]
  · have hf2 : f.value.isEmpty = false := by simpa using hf
    rw [insertFieldsBody_eq own h 0 f ow hf2]
    simp only [hf2, Bool.false_eq_true, if_false, Nat.zero_add]
    unfold Spec.copiesMade
    rw [Spec.storedUnder_eq_range own h f.id]
    by_cases hany : (FieldMap.equalRange own f.id).any (fun e => typeInfoMatches f e.2) = true
    · have hne := hany
      rw [any_matches_iff] at hne
      simp only [Bool.not_eq_true', ] at hne
      simp only [hany, if_true, hne, Bool.false_eq_true, if_false, Nat.add_zero]
      exact countP_isOverwritten f ow _
    · have hany2 : (FieldMap.equalRange own f.id).any (fun e => typeInfoMatches f e.2) = false := by
        simpa using hany
      have he := hany2
      rw [any_matches_iff] at he
      simp only [Bool.not_eq_false'] at he
      simp only [hany2, Bool.false_eq_true, if_false, he, if_true,
        countP_isOverwritten_of_not_any f ow _ hany2]

theorem countP_matches_le_one (f : TagField Id TI) (k : Id) (E : List (Id × TagField Id TI))
    (hnd : (E.map (fun e => (e.1, e.2.typeInfo))).Nodup) (hk : ∀ e ∈ E, e.1 = k) :
    E.countP (fun e => typeInfoMatches f e.2) ≤ 1 := by
  induction E with
  | nil => simp
  | cons e E ih =>
    rw [List.map_cons, List.nodup_cons] at hnd
    have hrec := ih hnd.2 (fun x hx => hk x (by simp [hx]))
    by_cases hm : typeInfoMatches f e.2 = true
    · have hzero : E.countP (fun e => typeInfoMatches f e.2) = 0 := by
        rw [List.countP_eq_zero]
        intro x hx hmx
        apply hnd.1
        rw [List.mem_map]
        refine ⟨x, hx, ?_⟩
        have h1 := (typeInfoMatches_iff f e.2).mp hm
        have h2 := (typeInfoMatches_iff f x.2).mp hmx
        rw [hk x (by simp [hx]), hk e (by simp), ← h1, ← h2]
      simp [List.countP_cons, hm, hzero]
    · simp only [List.countP_cons, hm, Bool.false_eq_true, if_false, Nat.add_zero]
      exact hrec

theorem labels_overwritten (f : TagField Id TI) (ow : Bool) (E : List (Id × TagField Id TI)) :
    (E.map (overwrittenEntry f ow)).map (fun e => (e.1, e.2.typeInfo))
      = E.map (fun e => (e.1, e.2.typeInfo)) := by
  rw [List.map_map]
  apply List.map_congr_left
  intro e _
  simp only [Function.comp_apply]
  rw [overwrittenEntry_key, overwrittenEntry_typeInfo]

/-- On a tag without two entries of the same identifier and type info, the body of the
outer loop keeps that property and counts at most one copy. -/
theorem insertFieldsBody_distinct (own : FieldMap Id TI) (h : FieldMap.KeyOrdered own)
    (hd : Spec.distinctTypeInfo own) (f : TagField Id TI) (ow : Bool) :
    Spec.distinctTypeInfo (insertFieldsBody own 0 f ow).2 ∧
    (insertFieldsBody own 0 f ow).1 ≤ (if f.value.isEmpty then 0 else 1) := by
  by_cases hf : f.value.isEmpty = true
  · simp only [insertFieldsBody, hf, if_true]
    exact ⟨hd, le_refl 0⟩
  · have hf2 : f.value.isEmpty = false := by simpa using hf
    have hm := FieldMap.segments_eq own f.id
    have hE := FieldMap.eq_of_mem_equalRange own h f.id
    have hdE : ((FieldMap.equalRange own f.id).map (fun e => (e.1, e.2.typeInfo))).Nodup := by
      apply List.Nodup.sublist _ hd
      apply List.Sublist.map
      unfold FieldMap.equalRange FieldMap.fromLowerBound
      exact (List.takeWhile_sublist _).trans (List.dropWhile_sublist _)
    have hle := countP_matches_le_one f f.id (FieldMap.equalRange own f.id) hdE hE
    rw [insertFieldsBody_eq own h 0 f ow hf2]
    simp only [hf2, Bool.false_eq_true, if_false, Nat.zero_add]
    unfold insertFieldsRange
    by_cases hany : (FieldMap.equalRange own f.id).any (fun e => typeInfoMatches f e.2) = true
    · simp only [hany, if_true, List.append_nil, Nat.add_zero]
      refine ⟨?_, ?_⟩
      · unfold Spec.distinctTypeInfo at hd ⊢
        rw [List.map_append, List.map_append, labels_overwritten, ← List.map_append,
          ← List.map_append, hm]
        exact hd
      · refine le_trans (List.countP_mono_left ?_) hle
        intro e _ hov
        unfold isOverwritten at hov
        simp only [Bool.and_eq_true] at hov
        exact hov.1
    · have hany2 : (FieldMap.equalRange own f.id).any (fun e => typeInfoMatches f e.2) = false := by
        simpa using hany
      simp only [hany2, Bool.false_eq_true, if_false,
        countP_isOverwritten_of_not_any f ow _ hany2, Nat.zero_add]
      refine ⟨?_, le_refl 1⟩
      unfold Spec.distinctTypeInfo at hd ⊢
      have hshape : List.map (fun e : Id × TagField Id TI => (e.1, e.2.typeInfo))
          (FieldMap.beforeLowerBound own f.id
            ++ ((FieldMap.equalRange own f.id).map (overwrittenEntry f ow) ++ [(f.id, f)])
            ++ FieldMap.fromUpperBound own f.id)
          = ((FieldMap.beforeLowerBound own f.id ++ FieldMap.equalRange own f.id).map
              (fun e => (e.1, e.2.typeInfo)))
            ++ (f.id, f.typeInfo) :: (FieldMap.fromUpperBound own f.id).map
              (fun e => (e.1, e.2.typeInfo)) := by
        simp only [List.map_append, labels_overwritten, List.map_cons, List.map_nil,
          List.append_assoc, List.singleton_append]
      rw [hshape, List.perm_middle.nodup_iff, List.nodup_cons, ← List.map_append, hm]
      refine ⟨?_, hd⟩
      intro hmem
      rcases List.mem_map.mp hmem with ⟨e, he, hlab⟩
      simp only [Prod.mk.injEq] at hlab
      have heE : e ∈ FieldMap.equalRange own f.id := by
        rw [FieldMap.equalRange_eq_filter own h f.id, List.mem_filter]
        exact ⟨he, by simp [hlab.1]⟩
      have hno := List.any_eq_false.mp hany2 e heE
      have hyes : typeInfoMatches f e.2 = true := (typeInfoMatches_iff f e.2).mpr hlab.2.symm
      rw [hyes] at hno
      simp at hno

theorem insertFieldsLoop_le (ow : Bool) (src : List (Id × TagField Id TI)) :
    ∀ (own : FieldMap Id TI), FieldMap.KeyOrdered own → Spec.distinctTypeInfo own →
      (insertFieldsLoop src own 0 ow).1 ≤ (src.filter (fun p => !p.2.value.isEmpty)).length := by
  induction src with
  | nil =>
    intro own _ _
    simp [insertFieldsLoop]
  | cons p rest ih =>
    intro own h hd
    have hb := insertFieldsBody_distinct own h hd p.2 ow
    have hrec := ih _ (insertFieldsBody_ordered own h 0 p.2 ow) hb.1
    simp only [insertFieldsLoop]
    rw [insertFieldsLoop_counter]
    simp only
    by_cases hp : p.2.value.isEmpty = true
    · have h0 : (insertFieldsBody own 0 p.2 ow).1 = 0 := by
        have := hb.2
        simp only [hp, if_true] at this
        omega
      rw [h0, List.filter_cons]
      simp only [hp, Bool.not_true, Bool.false_eq_true, if_false]
      omega
    · have h1 : (insertFieldsBody own 0 p.2 ow).1 ≤ 1 := by
        have := hb.2
        simp only [hp, Bool.false_eq_true, if_false] at this
        exact this
      rw [List.filter_cons]
      simp only [hp, Bool.not_false, if_true, List.length_cons]
      omega

/-- C13, as stated, fails: the tag reached from the empty tag by
`setValues(1, ["a", "b"])` stores two fields without type info under identifier 1; with
overwriting, the single source field under identifier 1 is copied over both of them and
`insertFields` returns 2, more than the one non-empty field of the source tag. -/
theorem insertFields_count_counterexample :
    FieldMap.KeyOrdered Sample.twoTexts ∧
    (setValues ([] : FieldMap Nat Nat) 1 [Sample.txt [97], Sample.txt [98]]).2
      = Sample.twoTexts ∧
    insertFields Sample.twoTexts Sample.singleText true
      = (2, [Sample.fld 1 (Sample.txt [97]), Sample.fld 1 (Sample.txt [97])]) ∧
    (Sample.singleText.filter (fun p => !p.2.value.isEmpty)).length = 1 ∧
    ¬ (insertFields Sample.twoTexts Sample.singleText true).1
        ≤ (Sample.singleText.filter (fun p => !p.2.value.isEmpty)).length := by
  decide

/-- C13, amended: `insertFields` returns the number of copies it makes: a source tag
with one field contributes nothing when that field is empty and otherwise one for every
matching existing entry the field is copied over, or one when it is added as a new entry
for lack of a matching entry; the source fields contribute one after the other, each on
the tag the previous ones have left.  When no two entries of the receiving tag share
identifier and type info, the result never exceeds the number of non-empty fields of the
source tag. -/
theorem insertFields_count (own : FieldMap Id TI) (h : FieldMap.KeyOrdered own) (ow : Bool) :
    (∀ p : Id × TagField Id TI,
      (insertFields own [p] ow).1
        = if p.2.value.isEmpty then 0 else Spec.copiesMade own p.2 ow) ∧
    (∀ s1 s2 : FieldMap Id TI,
      (insertFields own (s1 ++ s2) ow).1
        = (insertFields own s1 ow).1 + (insertFields (insertFields own s1 ow).2 s2 ow).1 ∧
      (insertFields own (s1 ++ s2) ow).2
        = (insertFields (insertFields own s1 ow).2 s2 ow).2) ∧
    (Spec.distinctTypeInfo own → ∀ source : FieldMap Id TI,
      (insertFields own source ow).1
        ≤ (source.filter (fun p => !p.2.value.isEmpty)).length) := by
  refine ⟨?_, ?_, ?_⟩
  · intro p
    simp only [insertFields, insertFieldsLoop]
    exact insertFieldsBody_count own h p.2 ow
  · intro s1 s2
    simp only [insertFields]
    rw [insertFieldsLoop_append, insertFieldsLoop_counter]
    exact ⟨rfl, rfl⟩
  · intro hd source
    exact insertFieldsLoop_le ow source own h hd

/-- Witness of `insertFields_count` on the sample tag with type infos, where no two
entries share identifier and type info. -/
theorem insertFields_count_witness :
    FieldMap.KeyOrdered Sample.typed ∧ Spec.distinctTypeInfo Sample.typed ∧
    (insertFields Sample.typed Sample.plainSource true).1 = 2 ∧
    ((∀ p : Nat × TagField Nat Nat,
        (insertFields Sample.typed [p] true).1
          = if p.2.value.isEmpty then 0 else Spec.copiesMade Sample.typed p.2 true) ∧
      (∀ s1 s2 : FieldMap Nat Nat,
        (insertFields Sample.typed (s1 ++ s2) true).1
          = (insertFields Sample.typed s1 true).1
            + (insertFields (insertFields Sample.typed s1 true).2 s2 true).1 ∧
        (insertFields Sample.typed (s1 ++ s2) true).2
          = (insertFields (insertFields Sample.typed s1 true).2 s2 true).2) ∧
      (Spec.distinctTypeInfo Sample.typed → ∀ source : FieldMap Nat Nat,
        (insertFields Sample.typed source true).1
          ≤ (source.filter (fun p => !p.2.value.isEmpty)).length)) :=
  ⟨by decide, by unfold Spec.distinctTypeInfo; decide, by decide,
    insertFields_count Sample.typed (by decide) true⟩

end FieldMapBasedTag

/-! ## The extended field id and the tag target -/

namespace Mp4ExtendedFieldId

/-- C21: an `Mp4ExtendedFieldId` converts to true if and only if both mean and name are
non-null; a default-constructed id is invalid and has `updateOnly = false`, and an id
with only one of mean and name set is invalid. -/
theorem isValid_iff (id : Mp4ExtendedFieldId) :
    (id.isValid = true ↔ id.mean ≠ none ∧ id.name ≠ none) ∧
    createDefault.isValid = false ∧ createDefault.updateOnly = false ∧
    (∀ (bytes : List Nat) (flag : Bool),
      (create (some bytes) none flag).isValid = false ∧
      (create none (some bytes) flag).isValid = false) := by
  refine ⟨?_, rfl, rfl, fun _ _ => ⟨rfl, rfl⟩⟩
  unfold isValid
  cases id.mean <;> cases id.name <;> simp

end Mp4ExtendedFieldId

namespace TagTarget

/-- C22: equality of tag targets ignores the level name: `a == b` holds if and only if
`level()`, tracks, chapters, editions and attachments agree, so it holds for targets
agreeing on these five whatever their level names are, and fails whenever one of the
five differs. -/
theorem equals_iff (a b : TagTarget) :
    (equals a b = true ↔
      a.level = b.level ∧ a.tracks = b.tracks ∧ a.chapters = b.chapters ∧
      a.editions = b.editions ∧ a.attachments = b.attachments) ∧
    (∀ n1 n2 : String, equals (a.setLevelName n1) (b.setLevelName n2) = equals a b) := by
  refine ⟨?_, fun _ _ => rfl⟩
  unfold equals
  simp only [Bool.and_eq_true, decide_eq_true_eq]
  tauto

/-- C23: after `clear()` the target is empty, `level()` returns 50, the level name and
the four id lists are empty, and the target compares equal to a default-constructed
one. -/
theorem clear_spec (t : TagTarget) :
    t.clear.isEmpty = true ∧ t.clear.level = 50 ∧ t.clear.levelName = "" ∧
    t.clear.tracks = [] ∧ t.clear.chapters = [] ∧ t.clear.editions = [] ∧
    t.clear.attachments = [] ∧ equals t.clear createDefault = true ∧
    t.clear = createDefault := by
  have hc : t.clear = createDefault := rfl
  rw [hc]
  refine ⟨?_, ?_, rfl, rfl, rfl, rfl, rfl, ?_, rfl⟩ <;> decide

end TagTarget

/-! ## EncoderSettings on the MP4 tag -/

namespace FieldMapBasedTag

variable {Id TI : Type} [LinearOrder Id]

theorem setValue_nonEmpty (m : FieldMap Id TI) (h : FieldMap.KeyOrdered m) (id : Id)
    (v : TagValue) (hv : v.isEmpty = false) :
    (setValue m id v).1 = true ∧ value (setValue m id v).2 id = v := by
  have hA := FieldMap.lt_of_mem_beforeLowerBound m id
  have hE := FieldMap.eq_of_mem_equalRange m h id
  have hU := FieldMap.lt_of_mem_fromUpperBound m h id
  have hm := FieldMap.segments_eq m id
  cases hcase : FieldMap.equalRange m id with
  | nil =>
    rw [hcase] at hm
    simp only [List.append_nil] at hm
    have hres := setValue_parts_nil id v (FieldMap.beforeLowerBound m id)
      (FieldMap.fromUpperBound m id) hA hU
    rw [hm] at hres
    rw [hres]
    simp only [hv, Bool.false_eq_true, if_false, List.append_assoc, List.singleton_append]
    refine ⟨trivial, ?_⟩
    rw [value_rebuild_head m id _ _ (lt_irrefl id) (lt_irrefl id)]
    rfl
  | cons e rest =>
    rw [hcase] at hm hE
    have hres := setValue_parts_cons id v e (FieldMap.beforeLowerBound m id) rest
      (FieldMap.fromUpperBound m id) hA hE hU
    rw [hm] at hres
    have hk : e.1 = id := hE e (by simp)
    rw [hres]
    simp only [List.append_assoc, List.cons_append]
    refine ⟨trivial, ?_⟩
    rw [value_rebuild_head m id (e.1, e.2.setValue v) _ (by simp [hk]) (by simp [hk])]
    rfl

theorem setValue_empty_of_absent (m : FieldMap Id TI) (h : FieldMap.KeyOrdered m) (id : Id)
    (habsent : ∀ e ∈ m, e.1 ≠ id) : setValue m id TagValue.empty = (false, m) := by
  have hA := FieldMap.lt_of_mem_beforeLowerBound m id
  have hU := FieldMap.lt_of_mem_fromUpperBound m h id
  have hm := FieldMap.segments_eq m id
  have hE : FieldMap.equalRange m id = [] := by
    rw [FieldMap.equalRange_eq_filter m h id, List.filter_eq_nil_iff]
    intro e he
    simp [habsent e he]
  rw [hE] at hm
  simp only [List.append_nil] at hm
  have hres := setValue_parts_nil id TagValue.empty (FieldMap.beforeLowerBound m id)
    (FieldMap.fromUpperBound m id) hA hU
  rw [hm] at hres
  simpa [TagValue.isEmpty] using hres

end FieldMapBasedTag

namespace Mp4Tag

/-- C30: on an MP4 tag whose mapping gives EncoderSettings no identifier,
`setValue(EncoderSettings, v)` is a no-op that returns false and leaves the field map
unchanged, for every value `v`, although `supportsField(EncoderSettings)` returns true
where the query of the base class returns false. -/
theorem setValue_encoderSettings (fieldId : KnownField → Nat) (m : FieldMap Nat Nat)
    (v : TagValue) (hmap : fieldId KnownField.encoderSettings = default) :
    setValueKnown fieldId m KnownField.encoderSettings v = (false, m) ∧
    (setValueKnown fieldId m KnownField.encoderSettings v).1 = false ∧
    (setValueKnown fieldId m KnownField.encoderSettings v).2 = m ∧
    supportsField fieldId m KnownField.encoderSettings = true ∧
    FieldMapBasedTag.supportsField fieldId m KnownField.encoderSettings = false := by
  have hres : setValueKnown fieldId m KnownField.encoderSettings v = (false, m) := by
    unfold setValueKnown
    rw [if_pos hmap]
  refine ⟨hres, ?_, ?_, rfl, ?_⟩
  · rw [hres]
  · rw [hres]
  · unfold FieldMapBasedTag.supportsField
    simp [hmap]

/-- Witness of `setValue_encoderSettings` on the sample tag with a text value. -/
theorem setValue_encoderSettings_witness :
    Sample.mp4FieldId KnownField.encoderSettings = default ∧
    (Sample.txt [120]).isEmpty = false ∧
    (setValueKnown Sample.mp4FieldId Sample.mixed KnownField.encoderSettings (Sample.txt [120])
        = (false, Sample.mixed) ∧
      (setValueKnown Sample.mp4FieldId Sample.mixed KnownField.encoderSettings
        (Sample.txt [120])).1 = false ∧
      (setValueKnown Sample.mp4FieldId Sample.mixed KnownField.encoderSettings
        (Sample.txt [120])).2 = Sample.mixed ∧
      supportsField Sample.mp4FieldId Sample.mixed KnownField.encoderSettings = true ∧
      FieldMapBasedTag.supportsField Sample.mp4FieldId Sample.mixed
        KnownField.encoderSettings = false) :=
  ⟨by decide, by decide,
    setValue_encoderSettings Sample.mp4FieldId Sample.mixed (Sample.txt [120]) (by decide)⟩

end Mp4Tag

/-! ## Padding and position decided by the planner -/

namespace Planner

theorem clampPadding_bounds (cfg : PlannerConfig) (h : cfg.minPadding ≤ cfg.maxPadding) :
    cfg.minPadding ≤ clampPadding cfg ∧ clampPadding cfg ≤ cfg.maxPadding := by
  unfold clampPadding
  omega

theorem fitsInPlace_bounds (cfg : PlannerConfig) (layout : ParsedLayout) (newMetaSize : Nat)
    (h : fitsInPlace cfg layout newMetaSize = true) :
    cfg.minPadding ≤ layout.metaSize + layout.freeSlack - newMetaSize ∧
    layout.metaSize + layout.freeSlack - newMetaSize ≤ cfg.maxPadding := by
  unfold fitsInPlace at h
  simp only [Bool.and_eq_true, decide_eq_true_eq] at h
  exact ⟨h.1.2, h.2⟩

/-- The three outcomes of the planner on an accepted configuration. -/
theorem plan_cases (cfg : PlannerConfig) (layout : ParsedLayout) (newMetaSize : Nat)
    (preferKeep : Bool) (h : cfg.minPadding ≤ cfg.maxPadding) :
    (cfg.forceRewrite = false ∧ fitsInPlace cfg layout newMetaSize = true ∧
      (cfg.tagPosition = ElementPosition.keep ∨ cfg.forceTagPosition = false) ∧
      plan cfg layout newMetaSize preferKeep = Except.ok
        { inPlace := true, atomOrder := layout.atoms,
          padding := layout.metaSize + layout.freeSlack - newMetaSize,
          notifications := [] }) ∨
    (isDash layout = true ∧ cfg.tagPosition = ElementPosition.afterData ∧
      plan cfg layout newMetaSize preferKeep = Except.ok
        { inPlace := false, atomOrder := fullRewriteOrder ElementPosition.beforeData layout,
          padding := clampPadding cfg, notifications := [dashWarning] }) ∨
    ((isDash layout = false ∨ cfg.tagPosition ≠ ElementPosition.afterData) ∧
      plan cfg layout newMetaSize preferKeep = Except.ok
        { inPlace := false, atomOrder := fullRewriteOrder cfg.tagPosition layout,
          padding := clampPadding cfg, notifications := [] }) := by
  have hnot : ¬ cfg.maxPadding < cfg.minPadding := not_lt.mpr h
  unfold plan
  simp only [hnot, if_false]
  by_cases hover : (!cfg.forceTagPosition && preferKeep && !cfg.forceRewrite
      && fitsInPlace cfg layout newMetaSize) = true
  · left
    simp only [hover, if_true]
    simp only [Bool.and_eq_true, Bool.not_eq_true'] at hover
    simp [hover.1.2, hover.2, hover.1.1.1]
  · simp only [hover, Bool.false_eq_true, if_false]
    by_cases hin : (!cfg.forceRewrite && decide (cfg.tagPosition = ElementPosition.keep)
        && fitsInPlace cfg layout newMetaSize) = true
    · left
      simp only [hin, if_true]
      simp only [Bool.and_eq_true, Bool.not_eq_true', decide_eq_true_eq] at hin
      simp [hin.1.1, hin.2, hin.1.2]
    · simp only [hin, Bool.false_eq_true, if_false]
      by_cases hd : (isDash layout && decide (cfg.tagPosition = ElementPosition.afterData)) = true
      · right; left
        simp only [hd, if_true]
        simp only [Bool.and_eq_true, decide_eq_true_eq] at hd
        exact ⟨hd.1, hd.2, trivial⟩
      · right; right
        simp only [hd, Bool.false_eq_true, if_false]
        simp only [Bool.and_eq_true, decide_eq_true_eq, not_and] at hd
        refine ⟨?_, trivial⟩
        by_cases hdash : isDash layout = true
        · exact Or.inr (hd hdash)
        · exact Or.inl (by simpa using hdash)

/-- C25, as stated, fails on the planner of the spec: with preferred padding 0, minimum
1024 and maximum 5120 a forced rewrite ends with padding 1024, inside the bounds but not
the preferred padding; no final padding can be both. -/
theorem padding_forced_counterexample :
    Sample.lowPreferred.forceRewrite = true ∧
    plan Sample.lowPreferred Sample.plainLayout 600 false = Except.ok
      { inPlace := false,
        atomOrder := [TopLevelAtom.ftyp, TopLevelAtom.mdat, TopLevelAtom.moov],
        padding := 1024, notifications := [] } ∧
    (1024 : Nat) ≠ Sample.lowPreferred.preferredPadding ∧
    ¬ (Sample.lowPreferred.minPadding ≤ Sample.lowPreferred.preferredPadding) := by
  decide

/-- C25, amended: with padding constraints whose preferred padding lies within the
bounds (min_padding ≤ preferred_padding ≤ max_padding, as in the test), the rewrite is
planned, the final padding lies in [min_padding, max_padding], and when the rewrite is
forced the final padding equals preferred_padding exactly. -/
theorem padding_bounds (cfg : PlannerConfig) (layout : ParsedLayout) (newMetaSize : Nat)
    (preferKeep : Bool)
    (hpref : cfg.minPadding ≤ cfg.preferredPadding ∧ cfg.preferredPadding ≤ cfg.maxPadding) :
    ∃ out, plan cfg layout newMetaSize preferKeep = Except.ok out ∧
      cfg.minPadding ≤ out.padding ∧ out.padding ≤ cfg.maxPadding ∧
      (cfg.forceRewrite = true → out.padding = cfg.preferredPadding) := by
  have hvalid : cfg.minPadding ≤ cfg.maxPadding := le_trans hpref.1 hpref.2
  have hclamp : clampPadding cfg = cfg.preferredPadding := by
    unfold clampPadding
    omega
  rcases plan_cases cfg layout newMetaSize preferKeep hvalid with
    ⟨hforce, hfits, _, hplan⟩ | ⟨_, _, hplan⟩ | ⟨_, hplan⟩
  · have hb := fitsInPlace_bounds cfg layout newMetaSize hfits
    refine ⟨_, hplan, hb.1, hb.2, ?_⟩
    intro hf
    rw [hforce] at hf
    exact absurd hf (by decide)
  · refine ⟨_, hplan, ?_, ?_, fun _ => hclamp⟩
    · simp only [hclamp]
      exact hpref.1
    · simp only [hclamp]
      exact hpref.2
  · refine ⟨_, hplan, ?_, ?_, fun _ => hclamp⟩
    · simp only [hclamp]
      exact hpref.1
    · simp only [hclamp]
      exact hpref.2

/-- Witness of `padding_bounds` with the padding constraints of the test: the forced
rewrite ends with padding 4096, the patch in place with padding 1900. -/
theorem padding_bounds_witness :
    (plan (Sample.testPadding ElementPosition.keep false true) Sample.plainLayout 600 false
      = Except.ok
        { inPlace := false,
          atomOrder := [TopLevelAtom.ftyp, TopLevelAtom.mdat, TopLevelAtom.moov],
          padding := 4096, notifications := [] }) ∧
    (plan (Sample.testPadding ElementPosition.keep false false) Sample.plainLayout 600 false
      = Except.ok
        { inPlace := true,
          atomOrder := [TopLevelAtom.ftyp, TopLevelAtom.mdat, TopLevelAtom.moov],
          padding := 1900, notifications := [] }) ∧
    (∃ out, plan (Sample.testPadding ElementPosition.keep false true) Sample.plainLayout 600
        false = Except.ok out ∧
      (Sample.testPadding ElementPosition.keep false true).minPadding ≤ out.padding ∧
      out.padding ≤ (Sample.testPadding ElementPosition.keep false true).maxPadding ∧
      ((Sample.testPadding ElementPosition.keep false true).forceRewrite = true →
        out.padding = (Sample.testPadding ElementPosition.keep false true).preferredPadding)) :=
  ⟨by decide, by decide,
    padding_bounds (Sample.testPadding ElementPosition.keep false true) Sample.plainLayout 600
      false (by decide)⟩

end Planner

/-! ## The rewrite through the backup helper -/

namespace BackupHelper

/-- C29: rewrite atomicity: when a full rewrite of an existing file with a fresh backup
path fails after the original was modified, `handleFailureAfterFileModified` restores the
original from the backup and re-raises, so that the pre-edit file is at the original
path and no backup remains; after a successful rewrite the output is the one file at the
original path and no backup remains; no other file is touched. -/
theorem rewrite_atomicity (fs : FileSystem) (originalPath backupPath : String)
    (content output : List Nat) (hexists : fs originalPath = some content)
    (hfresh : fs backupPath = none) :
    (∀ k : Nat,
      (fullRewrite fs originalPath backupPath output (some k)).1
        = Except.error (RewriteError.rewriteFailed "making file") ∧
      (fullRewrite fs originalPath backupPath output (some k)).2 originalPath = some content ∧
      (fullRewrite fs originalPath backupPath output (some k)).2 backupPath = none) ∧
    ((fullRewrite fs originalPath backupPath output none).1 = Except.ok () ∧
      (fullRewrite fs originalPath backupPath output none).2 originalPath = some output ∧
      (fullRewrite fs originalPath backupPath output none).2 backupPath = none) ∧
    (∀ (failAfter : Option Nat) (p : String), p ≠ originalPath → p ≠ backupPath →
      (fullRewrite fs originalPath backupPath output failAfter).2 p = fs p) ∧
    (∀ (x : FileSystem) (context : String),
      handleFailureAfterFileModified x originalPath backupPath context
        = (RewriteError.rewriteFailed context,
            restoreOriginalFileFromBackupFile x originalPath backupPath)) := by
  have hne : originalPath ≠ backupPath := by
    intro heq
    rw [heq, hfresh] at hexists
    simp at hexists
  have hne2 : backupPath ≠ originalPath := fun heq => hne heq.symm
  refine ⟨?_, ?_, ?_, fun _ _ => rfl⟩
  · intro k
    simp only [fullRewrite, createBackupFile, hexists, handleFailureAfterFileModified,
      restoreOriginalFileFromBackupFile, FileSystem.put]
    simp [hne, hne2]
  · simp only [fullRewrite, createBackupFile, hexists, FileSystem.put]
    simp [hne, hne2]
  · intro failAfter p hp1 hp2
    cases failAfter with
    | none =>
      simp only [fullRewrite, createBackupFile, hexists, FileSystem.put]
      simp [hp1, hp2]
    | some k =>
      simp only [fullRewrite, createBackupFile, hexists, handleFailureAfterFileModified,
        restoreOriginalFileFromBackupFile, FileSystem.put]
      simp [hp1, hp2]

/-- Witness of `rewrite_atomicity`: a rewrite of "a.m4a" with the backup "a.m4a.bak"
that fails after two bytes. -/
theorem rewrite_atomicity_witness :
    Sample.oneFile "a.m4a" = some [1, 2, 3, 4] ∧ Sample.oneFile "a.m4a.bak" = none ∧
    (fullRewrite Sample.oneFile "a.m4a" "a.m4a.bak" [7, 8, 9] (some 2)).2 "a.m4a"
      = some [1, 2, 3, 4] ∧
    (fullRewrite Sample.oneFile "a.m4a" "a.m4a.bak" [7, 8, 9] none).2 "a.m4a"
      = some [7, 8, 9] ∧
    (∀ k : Nat,
      (fullRewrite Sample.oneFile "a.m4a" "a.m4a.bak" [7, 8, 9] (some k)).1
        = Except.error (RewriteError.rewriteFailed "making file") ∧
      (fullRewrite Sample.oneFile "a.m4a" "a.m4a.bak" [7, 8, 9] (some k)).2 "a.m4a"
        = some [1, 2, 3, 4] ∧
      (fullRewrite Sample.oneFile "a.m4a" "a.m4a.bak" [7, 8, 9] (some k)).2 "a.m4a.bak"
        = none) :=
  ⟨by decide, by decide, by decide, by decide,
    (rewrite_atomicity Sample.oneFile "a.m4a" "a.m4a.bak" [1, 2, 3, 4] [7, 8, 9]
      (by decide) (by decide)).1⟩

end BackupHelper

/-! ## Chunk offsets after a rewrite -/

theorem planOutput_append (source : List Nat) (l1 l2 : List Segment) :
    planOutput source (l1 ++ l2) = planOutput source l1 ++ planOutput source l2 := by
  induction l1 with
  | nil => rfl
  | cons seg rest ih => simp [planOutput, ih]

theorem planOutput_segments (p : MediaPlan) (source : List Nat) :
    planOutput source p.segments
      = planOutput source p.front ++ (source.drop p.mdatStart).take (p.mdatStop - p.mdatStart)
        ++ planOutput source p.back := by
  unfold MediaPlan.segments
  rw [planOutput_append]
  simp [planOutput, Segment.bytes]

/-- A slice of the media data is found in the output at its offset shifted by the
displacement of the media data. -/
theorem slice_shifted (front back source : List Nat) (a b o size : Nat)
    (hab : a ≤ b) (hb : b ≤ source.length) (hao : a ≤ o) (hob : o + size ≤ b) :
    ((front ++ (source.drop a).take (b - a) ++ back).drop (front.length + (o - a))).take size
      = (source.drop o).take size := by
  have hlenM : ((source.drop a).take (b - a)).length = b - a := by
    rw [List.length_take, List.length_drop]
    omega
  rw [List.append_assoc, List.drop_append, List.drop_append_of_le_length (by omega),
    List.take_append_of_le_length (by rw [List.length_drop, hlenM]; omega),
    List.drop_take, List.drop_drop, List.take_take]
  have h1 : a + (o - a) = o := by omega
  have h2 : min size (b - a - (o - a)) = size := by omega
  rw [h1, h2]

theorem shiftTable_exact (delta : Int) (t t2 : ChunkOffsetTable)
    (hok : shiftTable delta t = Except.ok t2) (i o : Nat) (ho : t.offsets[i]? = some o) :
    t2.offsets[i]? = some (((o : Int) + delta).toNat) := by
  have hmemo : o ∈ t.offsets := List.getElem?_mem ho
  have hmem : ((o : Int) + delta).toNat
      ∈ t.offsets.map (fun (o : Nat) => ((o : Int) + delta).toNat) :=
    List.mem_map.mpr ⟨o, hmemo, rfl⟩
  unfold shiftTable at hok
  by_cases hover : (t.offsets.map (fun (o : Nat) => ((o : Int) + delta).toNat)).any
      (fun o => decide (2 ^ 64 ≤ o)) = true
  · rw [if_pos hover] at hok
    cases hok
  · have hsmall : ((o : Int) + delta).toNat < 2 ^ 64 := by
      by_contra hge
      apply hover
      rw [List.any_eq_true]
      exact ⟨_, hmem, by simpa using not_lt.mp hge⟩
    rw [if_neg hover] at hok
    by_cases hkeep : (decide (t.kind = OffsetTableKind.stco)
        && (t.offsets.map (fun (o : Nat) => ((o : Int) + delta).toNat)).all
          (fun o => decide (o < 2 ^ 32))) = true
    · rw [if_pos hkeep] at hok
      cases hok
      simp only [List.getElem?_map, ho, Option.map_some', Option.some.injEq]
      apply Nat.mod_eq_of_lt
      rw [Bool.and_eq_true, List.all_eq_true] at hkeep
      simpa using hkeep.2 _ hmem
    · rw [if_neg hkeep] at hok
      cases hok
      simp only [List.getElem?_map, ho, Option.map_some', Option.some.injEq]
      exact Nat.mod_eq_of_lt hsmall

/-- C28: chunk-offset consistency: after a rewrite whose table shift succeeded, whether
or not the media data moved, every chunk offset of the table is the old offset shifted
by exactly the displacement of the media data, and for every chunk lying in the media
data it points at bytes of the output that equal the bytes of that chunk in the input
file. -/
theorem chunk_offsets_consistent (p : MediaPlan) (source : List Nat)
    (t t2 : ChunkOffsetTable)
    (hrange : p.mdatStart ≤ p.mdatStop ∧ p.mdatStop ≤ source.length)
    (hok : shiftTable (p.delta source) t = Except.ok t2) :
    ∀ (i o size : Nat), t.offsets[i]? = some o → p.mdatStart ≤ o → o + size ≤ p.mdatStop →
      ∃ o2, t2.offsets[i]? = some o2 ∧ (o2 : Int) = (o : Int) + p.delta source ∧
        ((planOutput source p.segments).drop o2).take size = (source.drop o).take size := by
  intro i o size ho hao hob
  have hexact := shiftTable_exact (p.delta source) t t2 hok i o ho
  have hval : ((o : Int) + p.delta source).toNat
      = (planOutput source p.front).length + (o - p.mdatStart) := by
    unfold MediaPlan.delta MediaPlan.newMdatOffset
    omega
  refine ⟨_, hexact, ?_, ?_⟩
  · rw [hval]
    unfold MediaPlan.delta MediaPlan.newMdatOffset
    omega
  · rw [hval, planOutput_segments]
    exact slice_shifted _ _ source p.mdatStart p.mdatStop o size hrange.1 hrange.2 hao hob

/-- Witness of `chunk_offsets_consistent`: the media data moves from offset 4 to offset
8, the offsets 4 and 6 become 8 and 10, and the second chunk is found there. -/
theorem chunk_offsets_consistent_witness :
    (Sample.movedPlan.mdatStart ≤ Sample.movedPlan.mdatStop ∧
      Sample.movedPlan.mdatStop ≤ Sample.sourceBytes.length) ∧
    shiftTable (Sample.movedPlan.delta Sample.sourceBytes) Sample.chunkTable
      = Except.ok { kind := OffsetTableKind.stco, offsets := [8, 10] } ∧
    ((planOutput Sample.sourceBytes Sample.movedPlan.segments).drop 10).take 2 = [22, 23] ∧
    (∀ (i o size : Nat), Sample.chunkTable.offsets[i]? = some o →
      Sample.movedPlan.mdatStart ≤ o → o + size ≤ Sample.movedPlan.mdatStop →
      ∃ o2, ({ kind := OffsetTableKind.stco, offsets := [8, 10] } : ChunkOffsetTable).offsets[i]?
          = some o2 ∧
        (o2 : Int) = (o : Int) + Sample.movedPlan.delta Sample.sourceBytes ∧
        ((planOutput Sample.sourceBytes Sample.movedPlan.segments).drop o2).take size
          = (Sample.sourceBytes.drop o).take size) :=
  ⟨by decide, by decide, by decide,
    chunk_offsets_consistent Sample.movedPlan Sample.sourceBytes Sample.chunkTable _
      (by decide) (by decide)⟩

/-! ## The size of the MP4 tag -/

theorem uint32BE_length (n : Nat) : (uint32BE n).length = 4 := rfl

namespace Mp4TagFieldMaker

theorem dataBytes_length (data : List Mp4DataAtom) :
    (dataBytes data).length = (data.map (fun d => 16 + d.payload.length)).sum := by
  induction data with
  | nil => rfl
  | cons d rest ih =>
    simp only [dataBytes, List.length_append, ih, List.map_cons, List.sum_cons,
      Mp4DataAtom.bytes, uint32BE_length, List.length_cons, List.length_nil]

theorem extendedBytes_length (e : Option (List Nat × List Nat)) :
    (extendedBytes e).length = extendedSize e := by
  cases e with
  | none => rfl
  | some mn =>
    obtain ⟨mean, name⟩ := mn
    simp only [extendedBytes, extendedSize, List.length_append, uint32BE_length,
      List.length_cons, List.length_nil]

theorem field_make_length (f : Mp4FieldAtom) :
    (prepare f).make.length = (prepare f).requiredSize := by
  simp only [make, prepare, List.length_append, uint32BE_length, extendedBytes_length,
    dataBytes_length]

end Mp4TagFieldMaker

namespace Mp4TagMaker

theorem fieldBytes_length (fields : List Mp4FieldAtom) :
    (fieldBytes (fields.map Mp4TagFieldMaker.prepare)).length
      = ((fields.map Mp4TagFieldMaker.prepare).map (fun m => m.requiredSize)).sum := by
  induction fields with
  | nil => rfl
  | cons f rest ih =>
    simp only [List.map_cons, fieldBytes, List.length_append, ih, List.sum_cons,
      Mp4TagFieldMaker.field_make_length]

theorem tag_make_length (fields : List Mp4FieldAtom) :
    (make (prepare fields)).1.length = (prepare fields).metaSize := by
  have hh : hdlrBytes.length = 37 := rfl
  simp only [make, prepare, List.length_append, uint32BE_length, hh, fieldBytes_length,
    List.length_cons, List.length_nil]

/-- C24: for every MP4 tag (its entries, with any encoding of the values) the prepared
maker reports as `requiredSize()` exactly the number of bytes `make()` then writes, the
complete new `meta` atom, and making leaves the maker and with it that value
unchanged. -/
theorem requiredSize_eq_written (encode : TagValue → Mp4DataAtom)
    (entries : List Mp4TagField) :
    (prepare (fieldAtoms encode entries)).requiredSize
      = (make (prepare (fieldAtoms encode entries))).1.length ∧
    (make (prepare (fieldAtoms encode entries))).2 = prepare (fieldAtoms encode entries) ∧
    (make (prepare (fieldAtoms encode entries))).2.requiredSize
      = (prepare (fieldAtoms encode entries)).requiredSize := by
  refine ⟨?_, rfl, rfl⟩
  unfold requiredSize
  exact (tag_make_length (fieldAtoms encode entries)).symm

/-- The sample MP4 tag is made with a title of 26 bytes and an extended field of 52
bytes, 135 bytes in all; the emptied artist is left out. -/
theorem sample_tag_size :
    (fieldAtoms Sample.textEncoding Sample.mp4Entries).map (fun f => f.id)
      = [2842583405, 757935405] ∧
    (prepare (fieldAtoms Sample.textEncoding Sample.mp4Entries)).requiredSize = 135 ∧
    (make (prepare (fieldAtoms Sample.textEncoding Sample.mp4Entries))).1.take 8
      = [0, 0, 0, 135, 109, 101, 116, 97] := by
  decide

end Mp4TagMaker

/-! ## Consistency of the accessors and entries for empty values -/

namespace FieldMapBasedTag

variable {Id TI : Type} [LinearOrder Id]

theorem equalRange_of_absent (m : FieldMap Id TI) (h : FieldMap.KeyOrdered m) (id : Id)
    (habsent : ∀ e ∈ m, e.1 ≠ id) : FieldMap.equalRange m id = [] := by
  rw [FieldMap.equalRange_eq_filter m h id, List.filter_eq_nil_iff]
  intro e he
  simpa using habsent e he

theorem setValuesReplace_nil_range (vs : List TagValue) :
    setValuesReplace vs ([] : List (Id × TagField Id TI)) = ([], vs, []) := by
  cases vs <;> rfl

theorem setValuesRange_of_absent (m : FieldMap Id TI) (h : FieldMap.KeyOrdered m) (id : Id)
    (vs : List TagValue) (habsent : ∀ e ∈ m, e.1 ≠ id) :
    setValuesRange m id vs = vs.map (fun v => (id, TagField.create id v)) := by
  unfold setValuesRange
  rw [equalRange_of_absent m h id habsent, setValuesReplace_nil_range]
  simp

theorem length_without_range (m : FieldMap Id TI) (id : Id) :
    m.length = (FieldMap.beforeLowerBound m id).length + (FieldMap.equalRange m id).length
      + (FieldMap.fromUpperBound m id).length := by
  conv_lhs => rw [← FieldMap.segments_eq m id]
  simp only [List.length_append]

/-- C33: `setValue(KnownField, value)` on a known field the tag does not support: with a
non-empty value the call returns true and the value is stored as the first value under
the default-constructed identifier, so afterwards `value(KnownField)` returns it for
every known field the tag does not support. -/
theorem setValue_unsupported [Inhabited Id] (fieldId : KnownField → Id) (m : FieldMap Id TI)
    (h : FieldMap.KeyOrdered m) (field : KnownField) (v : TagValue)
    (hfield : supportsField fieldId m field = false) (hv : v.isEmpty = false) :
    (setValueKnown fieldId m field v).1 = true ∧
    value (setValueKnown fieldId m field v).2 default = v ∧
    (Spec.storedValues (setValueKnown fieldId m field v).2 default).head? = some v ∧
    ∀ g : KnownField, supportsField fieldId (setValueKnown fieldId m field v).2 g = false →
      valueKnown fieldId (setValueKnown fieldId m field v).2 g = v := by
  have hid : fieldId field = default := by
    unfold supportsField at hfield
    simpa using hfield
  unfold setValueKnown
  rw [hid]
  have hset := setValue_nonEmpty m h default v hv
  have hord := setValue_ordered m h default v
  have hfirst := value_eq_firstStored (setValue m default v).2 hord default
  rw [hset.2] at hfirst
  refine ⟨hset.1, hset.2, ?_, ?_⟩
  · unfold Spec.firstStoredValue at hfirst
    cases hL : (Spec.storedValues (setValue m default v).2 default).head? with
    | none =>
      rw [hL] at hfirst
      simp only [Option.getD_none] at hfirst
      rw [hfirst] at hv
      exact absurd hv (by decide)
    | some w =>
      rw [hL] at hfirst
      simp only [Option.getD_some] at hfirst
      rw [hfirst]
  · intro g hg
    have hgid : fieldId g = default := by
      unfold supportsField at hg
      simpa using hg
    unfold valueKnown
    rw [hgid]
    exact hset.2

theorem setValue_unsupported_witness :
    FieldMap.KeyOrdered Sample.mixed ∧
    supportsField Sample.mp4FieldId Sample.mixed KnownField.encoder = false ∧
    supportsField Sample.mp4FieldId Sample.mixed KnownField.year = false ∧
    (Sample.txt [120]).isEmpty = false ∧
    ((setValueKnown Sample.mp4FieldId Sample.mixed KnownField.encoder (Sample.txt [120])).1
        = true ∧
      value (setValueKnown Sample.mp4FieldId Sample.mixed KnownField.encoder
        (Sample.txt [120])).2 default = Sample.txt [120] ∧
      (Spec.storedValues (setValueKnown Sample.mp4FieldId Sample.mixed KnownField.encoder
        (Sample.txt [120])).2 default).head? = some (Sample.txt [120]) ∧
      ∀ g : KnownField,
        supportsField Sample.mp4FieldId (setValueKnown Sample.mp4FieldId Sample.mixed
          KnownField.encoder (Sample.txt [120])).2 g = false →
        valueKnown Sample.mp4FieldId (setValueKnown Sample.mp4FieldId Sample.mixed
          KnownField.encoder (Sample.txt [120])).2 g = Sample.txt [120]) :=
  ⟨by decide, by decide, by decide, by decide,
    setValue_unsupported Sample.mp4FieldId Sample.mixed (by decide) KnownField.encoder
      (Sample.txt [120]) (by decide) (by decide)⟩

/-- C34: `value(id)` and `values(id)` agree in one direction: when `value(id)` is not
empty, `hasField(id)` is true and `value(id)` is the first element of `values(id)`; and
when `hasField(id)` is false, `value(id)` is empty. -/
theorem value_values_consistent (m : FieldMap Id TI) (h : FieldMap.KeyOrdered m) (id : Id) :
    ((value m id).isEmpty = false →
      hasField m id = true ∧ (values m id).head? = some (value m id)) ∧
    (hasField m id = false → (value m id).isEmpty = true) := by
  rw [value_eq_firstStored m h id, values_eq_stored m h id, hasField_eq_any m h id]
  unfold Spec.firstStoredValue Spec.nonEmptyValues
  cases Spec.storedValues m id with
  | nil =>
    refine ⟨fun hne => ?_, fun _ => ?_⟩
    · exact absurd hne (by decide)
    · decide
  | cons v rest =>
    simp only [List.head?_cons, Option.getD_some, List.any_cons]
    refine ⟨fun hne => ?_, fun hno => ?_⟩
    · simp [hne]
    · cases hv : v.isEmpty with
      | true => rfl
      | false => simp [hv] at hno

theorem value_values_consistent_witness :
    FieldMap.KeyOrdered Sample.mixed ∧
    (value Sample.mixed 2).isEmpty = false ∧ hasField Sample.mixed 1 = false ∧
    (((value Sample.mixed 2).isEmpty = false →
        hasField Sample.mixed 2 = true ∧
        (values Sample.mixed 2).head? = some (value Sample.mixed 2)) ∧
      (hasField Sample.mixed 2 = false → (value Sample.mixed 2).isEmpty = true)) :=
  ⟨by decide, by decide, by decide, value_values_consistent Sample.mixed (by decide) 2⟩

/-- C35: on an identifier without stored entries `setValues(id, values)` returns true and
stores one new entry for every element of `values`, empty elements included, leaving the
entries of the other identifiers as they are; so `setValues(id, [empty])` makes the field
map one empty-valued entry longer, while `setValue(id, empty)` returns false and leaves
the field map unchanged. -/
theorem setValues_creates_empty (m : FieldMap Id TI) (h : FieldMap.KeyOrdered m) (id : Id)
    (vs : List TagValue) (habsent : ∀ e ∈ m, e.1 ≠ id) :
    (setValues m id vs).1 = true ∧
    Spec.storedUnder (setValues m id vs).2 id = vs.map (fun v => TagField.create id v) ∧
    (∀ other : Id, other ≠ id →
      Spec.storedUnder (setValues m id vs).2 other = Spec.storedUnder m other) ∧
    (setValues m id vs).2.length = m.length + vs.length ∧
    Spec.storedValues (setValues m id [TagValue.empty]).2 id = [TagValue.empty] ∧
    (setValues m id [TagValue.empty]).2.length = m.length + 1 ∧
    setValue m id TagValue.empty = (false, m) := by
  have hkeys : ∀ ws : List TagValue,
      ∀ e ∈ ws.map (fun v => (id, (TagField.create id v : TagField Id TI))), e.1 = id := by
    intro ws e he
    rcases List.mem_map.mp he with ⟨v, _, rfl⟩
    rfl
  have hres : ∀ ws : List TagValue, (setValues m id ws).2
      = FieldMap.beforeLowerBound m id
        ++ ws.map (fun v => (id, (TagField.create id v : TagField Id TI)))
        ++ FieldMap.fromUpperBound m id := by
    intro ws
    rw [setValues_eq, setValuesRange_of_absent m h id ws habsent]
  have hunder : ∀ ws : List TagValue,
      Spec.storedUnder (setValues m id ws).2 id = ws.map (fun v => TagField.create id v) := by
    intro ws
    rw [hres ws, Spec.storedUnder_rebuild m h id _ (hkeys ws), List.map_map]
    rfl
  have hlen : ∀ ws : List TagValue, (setValues m id ws).2.length = m.length + ws.length := by
    intro ws
    rw [hres ws, length_without_range m id, equalRange_of_absent m h id habsent]
    simp only [List.length_append, List.length_map, List.length_nil]
    omega
  refine ⟨rfl, hunder vs, ?_, hlen vs, ?_, hlen [TagValue.empty], ?_⟩
  · intro other hne
    rw [hres vs]
    exact Spec.storedUnder_rebuild_other m h id other hne _ (hkeys vs)
  · unfold Spec.storedValues
    rw [hunder [TagValue.empty]]
    rfl
  · exact setValue_empty_of_absent m h id habsent

theorem setValues_creates_empty_witness :
    FieldMap.KeyOrdered Sample.mixed ∧ (∀ e ∈ Sample.mixed, e.1 ≠ 3) ∧
    ((setValues Sample.mixed 3 [Sample.txt [97], TagValue.empty]).1 = true ∧
      Spec.storedUnder (setValues Sample.mixed 3 [Sample.txt [97], TagValue.empty]).2 3
        = [Sample.txt [97], TagValue.empty].map (fun v => TagField.create 3 v) ∧
      (∀ other : Nat, other ≠ 3 →
        Spec.storedUnder (setValues Sample.mixed 3 [Sample.txt [97], TagValue.empty]).2 other
          = Spec.storedUnder Sample.mixed other) ∧
      (setValues Sample.mixed 3 [Sample.txt [97], TagValue.empty]).2.length
        = Sample.mixed.length + [Sample.txt [97], TagValue.empty].length ∧
      Spec.storedValues (setValues Sample.mixed 3 [TagValue.empty]).2 3 = [TagValue.empty] ∧
      (setValues Sample.mixed 3 [TagValue.empty]).2.length = Sample.mixed.length + 1 ∧
      setValue Sample.mixed 3 TagValue.empty = (false, Sample.mixed)) :=
  ⟨by decide, by decide,
    setValues_creates_empty Sample.mixed (by decide) 3 [Sample.txt [97], TagValue.empty]
      (by decide)⟩

end FieldMapBasedTag

/-! ## No mutator but removeAllFields erases an entry -/

namespace Spec

variable {Id TI : Type} [LinearOrder Id]

theorem length_le_of_stays (a b : FieldMap Id TI) (hab : staysInPlace a b) (id : Id) :
    (storedUnder a id).length ≤ (storedUnder b id).length := by
  by_contra hlt
  have hlt2 : (storedUnder b id).length < (storedUnder a id).length := Nat.lt_of_not_le hlt
  have hget : (storedUnder a id)[(storedUnder b id).length]?
      = some ((storedUnder a id)[(storedUnder b id).length]) :=
    List.getElem?_eq_getElem hlt2
  rcases hab id _ _ hget with ⟨g, hg, _⟩
  rw [List.getElem?_eq_none (Nat.le_refl _)] at hg
  cases hg

end Spec

namespace FieldMapBasedTag

variable {Id TI : Type} [LinearOrder Id]

theorem setValue_length (m : FieldMap Id TI) (h : FieldMap.KeyOrdered m) (id : Id)
    (v : TagValue) : m.length ≤ (setValue m id v).2.length := by
  rcases setValue_rebuild m h id v with ⟨New, Added, _, hti, hres⟩
  have hlen : New.length = (FieldMap.equalRange m id).length := by
    have := congrArg List.length hti
    simpa using this
  rw [hres, length_without_range m id]
  simp only [List.length_append]
  omega

theorem setValues_length (m : FieldMap Id TI) (id : Id) (vs : List TagValue) :
    m.length ≤ (setValues m id vs).2.length := by
  have hlen := congrArg List.length (setValuesReplace_typeInfo vs (FieldMap.equalRange m id))
  simp only [List.length_map, List.length_append] at hlen
  rw [setValues_eq, length_without_range m id]
  unfold setValuesRange
  simp only [List.length_append, List.length_map]
  omega

variable [DecidableEq TI]

theorem insertFieldsBody_length (own : FieldMap Id TI) (h : FieldMap.KeyOrdered own)
    (n : Nat) (f : TagField Id TI) (ow : Bool) :
    own.length ≤ (insertFieldsBody own n f ow).2.length := by
  cases hf : f.value.isEmpty with
  | true =>
    unfold insertFieldsBody
    simp [hf]
  | false =>
    rw [insertFieldsBody_rebuild own h n f ow hf, length_without_range own f.id]
    simp only [List.length_append, List.length_map]
    omega

theorem insertFieldsLoop_length (ow : Bool) (src : List (Id × TagField Id TI)) :
    ∀ (own : FieldMap Id TI) (n : Nat), FieldMap.KeyOrdered own →
      own.length ≤ (insertFieldsLoop src own n ow).2.length := by
  induction src with
  | nil => intro own n _; exact Nat.le_refl _
  | cons p rest ih =>
    intro own n h
    unfold insertFieldsLoop
    exact Nat.le_trans (insertFieldsBody_length own h n p.2 ow)
      (ih _ _ (insertFieldsBody_ordered own h n p.2 ow))

/-- C31: no mutator but `removeAllFields` erases an entry: for every identifier the
number of entries stored under it after `setValue`, `setValues` or `insertFields` is at
least the number before, and so is the number of all stored entries; `removeAllFields`
leaves no entry. -/
theorem no_entry_erased (m : FieldMap Id TI) (h : FieldMap.KeyOrdered m) (k : Id) :
    (∀ (id : Id) (v : TagValue),
      (Spec.storedUnder m k).length ≤ (Spec.storedUnder (setValue m id v).2 k).length ∧
      m.length ≤ (setValue m id v).2.length) ∧
    (∀ (id : Id) (vs : List TagValue),
      (Spec.storedUnder m k).length ≤ (Spec.storedUnder (setValues m id vs).2 k).length ∧
      m.length ≤ (setValues m id vs).2.length) ∧
    (∀ (source : FieldMap Id TI) (overwrite : Bool),
      (Spec.storedUnder m k).length
        ≤ (Spec.storedUnder (insertFields m source overwrite).2 k).length ∧
      m.length ≤ (insertFields m source overwrite).2.length) ∧
    (Spec.storedUnder (removeAllFields m) k).length = 0 ∧
    (removeAllFields m).length = 0 := by
  refine ⟨fun id v => ⟨?_, setValue_length m h id v⟩,
    fun id vs => ⟨?_, setValues_length m id vs⟩,
    fun source overwrite => ⟨?_, insertFieldsLoop_length overwrite source m 0 h⟩, rfl, rfl⟩
  · exact Spec.length_le_of_stays _ _ (setValue_stays m h id v) k
  · exact Spec.length_le_of_stays _ _ (setValues_stays m h id vs) k
  · exact Spec.length_le_of_stays _ _ (insertFieldsLoop_stays overwrite source m 0 h) k

theorem no_entry_erased_witness :
    FieldMap.KeyOrdered Sample.mixed ∧
    (Spec.storedUnder Sample.mixed 2).length = 3 ∧
    (Spec.storedUnder (setValues Sample.mixed 2 []).2 2).length = 3 ∧
    values (setValues Sample.mixed 2 []).2 2 = [] ∧
    ((∀ (id : Nat) (v : TagValue),
        (Spec.storedUnder Sample.mixed 2).length
          ≤ (Spec.storedUnder (setValue Sample.mixed id v).2 2).length ∧
        Sample.mixed.length ≤ (setValue Sample.mixed id v).2.length) ∧
      (∀ (id : Nat) (vs : List TagValue),
        (Spec.storedUnder Sample.mixed 2).length
          ≤ (Spec.storedUnder (setValues Sample.mixed id vs).2 2).length ∧
        Sample.mixed.length ≤ (setValues Sample.mixed id vs).2.length) ∧
      (∀ (source : FieldMap Nat Nat) (overwrite : Bool),
        (Spec.storedUnder Sample.mixed 2).length
          ≤ (Spec.storedUnder (insertFields Sample.mixed source overwrite).2 2).length ∧
        Sample.mixed.length ≤ (insertFields Sample.mixed source overwrite).2.length) ∧
      (Spec.storedUnder (removeAllFields Sample.mixed) 2).length = 0 ∧
      (removeAllFields Sample.mixed).length = 0) :=
  ⟨by decide, by decide, by decide, by decide, no_entry_erased Sample.mixed (by decide) 2⟩

end FieldMapBasedTag

/-! ## insertFields into an empty tag -/

namespace FieldMapBasedTag

variable {Id TI : Type} [LinearOrder Id] [DecidableEq TI]

theorem filter_overwritten_other (f : TagField Id TI) (ow : Bool) (ti : Option TI)
    (hti : f.typeInfo ≠ ti) (E : List (Id × TagField Id TI)) :
    ((E.map (overwrittenEntry f ow)).map Prod.snd).filter (fun g => decide (g.typeInfo = ti))
      = (E.map Prod.snd).filter (fun g => decide (g.typeInfo = ti)) := by
  induction E with
  | nil => rfl
  | cons e rest ih =>
    simp only [List.map_cons, List.filter_cons, ih]
    by_cases hm : isOverwritten f ow e = true
    · have hne : e.2.typeInfo ≠ ti := by
        unfold isOverwritten at hm
        rw [Bool.and_eq_true] at hm
        rw [← (typeInfoMatches_iff f e.2).mp hm.1]
        exact hti
      simp [overwrittenEntry, hm, hti, hne]
    · simp [overwrittenEntry, hm]

theorem filter_overwritten_same (f : TagField Id TI) (ow : Bool)
    (E : List (Id × TagField Id TI)) :
    ((E.map (overwrittenEntry f ow)).map Prod.snd).filter
        (fun g => decide (g.typeInfo = f.typeInfo))
      = ((E.map Prod.snd).filter (fun g => decide (g.typeInfo = f.typeInfo))).map
          (fun g => if ow || g.value.isEmpty then f else g) := by
  induction E with
  | nil => rfl
  | cons e rest ih =>
    simp only [List.map_cons, List.filter_cons, ih]
    by_cases hti : e.2.typeInfo = f.typeInfo
    · have hmatch : typeInfoMatches f e.2 = true := (typeInfoMatches_iff f e.2).mpr hti.symm
      by_cases hw : (ow || e.2.value.isEmpty) = true
      · have hw2 : ow = true ∨ e.2.value.isEmpty = true := by simpa using hw
        simp [overwrittenEntry, isOverwritten, hmatch, hw, hti, hw2]
      · have hw2 : ¬ (ow = true ∨ e.2.value.isEmpty = true) := by simpa using hw
        simp [overwrittenEntry, isOverwritten, hmatch, hw, hti, hw2]
    · have hmatch : typeInfoMatches f e.2 = false := by
        cases hm : typeInfoMatches f e.2 with
        | false => rfl
        | true => exact absurd ((typeInfoMatches_iff f e.2).mp hm).symm hti
      simp [overwrittenEntry, isOverwritten, hmatch, hti]

theorem filter_matches_eq (f : TagField Id TI) (L : List (TagField Id TI)) :
    L.filter (fun g => typeInfoMatches f g)
      = L.filter (fun g => decide (g.typeInfo = f.typeInfo)) := by
  apply List.filter_congr
  intro g _
  cases hm : typeInfoMatches f g with
  | true => simp [((typeInfoMatches_iff f g).mp hm).symm]
  | false =>
    have hne : ¬ g.typeInfo = f.typeInfo := fun hEq =>
      absurd ((typeInfoMatches_iff f g).mpr hEq.symm) (by simp [hm])
    simp [hne]

theorem storedWith_body (own : FieldMap Id TI) (h : FieldMap.KeyOrdered own) (n : Nat)
    (f : TagField Id TI) (ow : Bool) (id : Id) (ti : Option TI) :
    Spec.storedWith (insertFieldsBody own n f ow).2 id ti
      = if (!f.value.isEmpty && decide (f.id = id) && decide (f.typeInfo = ti)) = true
        then Spec.mergedWith ow (Spec.storedWith own id ti) f
        else Spec.storedWith own id ti := by
  cases hf : f.value.isEmpty with
  | true =>
    unfold insertFieldsBody
    simp [hf]
  | false =>
    rw [insertFieldsBody_eq own h n f ow hf]
    simp only [Bool.not_false, Bool.true_and]
    unfold Spec.storedWith
    by_cases hid : f.id = id
    · subst hid
      rw [Spec.storedUnder_rebuild own h f.id _ (insertFieldsRange_keys own h f ow),
        Spec.storedUnder_eq_range own h f.id]
      unfold insertFieldsRange
      rw [any_matches_iff, List.map_append, List.filter_append]
      by_cases hti : f.typeInfo = ti
      · subst hti
        rw [filter_overwritten_same, filter_matches_eq]
        simp only [decide_True, Bool.and_self, if_true]
        unfold Spec.mergedWith
        cases hL : ((FieldMap.equalRange own f.id).map Prod.snd).filter
            (fun g => decide (g.typeInfo = f.typeInfo)) with
        | nil => simp
        | cons g rest => simp
      · rw [filter_overwritten_other f ow ti hti]
        simp only [hti, decide_False, Bool.and_false, Bool.false_eq_true, if_false]
        split <;> simp [hti]
    · rw [Spec.storedUnder_rebuild_other own h f.id id (fun hEq => hid hEq.symm) _
        (insertFieldsRange_keys own h f ow)]
      simp [hid]

theorem storedWith_loop (ow : Bool) (id : Id) (ti : Option TI)
    (src : List (Id × TagField Id TI)) :
    ∀ (own : FieldMap Id TI) (n : Nat), FieldMap.KeyOrdered own →
      Spec.storedWith (insertFieldsLoop src own n ow).2 id ti
        = (Spec.sourceGroup src id ti).foldl (Spec.mergedWith ow)
            (Spec.storedWith own id ti) := by
  induction src with
  | nil => intro own n _; rfl
  | cons p rest ih =>
    intro own n h
    unfold insertFieldsLoop
    rw [ih _ _ (insertFieldsBody_ordered own h n p.2 ow), storedWith_body own h n p.2 ow id ti]
    unfold Spec.sourceGroup
    simp only [List.map_cons, List.filter_cons]
    split <;> rfl

theorem foldl_merged_single (ow : Bool) (G : List (TagField Id TI))
    (hG : ∀ f ∈ G, f.value.isEmpty = false) :
    ∀ g : TagField Id TI, g.value.isEmpty = false →
      G.foldl (Spec.mergedWith ow) [g] = [if ow = true then G.getLast?.getD g else g] := by
  induction G with
  | nil => intro g _; simp
  | cons f rest ih =>
    intro g hg
    have hf : f.value.isEmpty = false := hG f (List.mem_cons_self _ _)
    have hrest : ∀ x ∈ rest, x.value.isEmpty = false :=
      fun x hx => hG x (List.mem_cons_of_mem _ hx)
    rw [List.foldl_cons]
    cases ow with
    | true =>
      have hstep : Spec.mergedWith true [g] f = [f] := by simp [Spec.mergedWith]
      rw [hstep, ih hrest f hf]
      simp [List.getLast?_cons]
    | false =>
      have hstep : Spec.mergedWith false [g] f = [g] := by simp [Spec.mergedWith, hg]
      rw [hstep, ih hrest g hg]
      simp

theorem foldl_merged_nil (ow : Bool) (G : List (TagField Id TI))
    (hG : ∀ f ∈ G, f.value.isEmpty = false) :
    G.foldl (Spec.mergedWith ow) []
      = (if ow = true then G.getLast? else G.head?).toList := by
  cases G with
  | nil => cases ow <;> rfl
  | cons f rest =>
    have hf : f.value.isEmpty = false := hG f (List.mem_cons_self _ _)
    have hrest : ∀ x ∈ rest, x.value.isEmpty = false :=
      fun x hx => hG x (List.mem_cons_of_mem _ hx)
    rw [List.foldl_cons]
    have hstep : Spec.mergedWith ow [] f = [f] := by simp [Spec.mergedWith]
    rw [hstep, foldl_merged_single ow rest hrest f hf]
    cases ow <;> simp [List.getLast?_cons]

theorem sourceGroup_nonEmpty (source : FieldMap Id TI) (id : Id) (ti : Option TI) :
    ∀ f ∈ Spec.sourceGroup source id ti, f.value.isEmpty = false := by
  intro f hf
  unfold Spec.sourceGroup at hf
  rw [List.mem_filter] at hf
  have := hf.2
  simp only [Bool.and_eq_true, Bool.not_eq_true', decide_eq_true_eq] at this
  exact this.1.1

/-- C32: `insertFields` into an empty tag keeps at most one entry for each pair of
identifier and type info: of the non-empty source fields with that identifier and type
info the result holds only the last when `overwrite` is true and only the first when it
is false; so `values(id)` of the result can be shorter than `values(id)` of the source,
as it is for a source with three non-empty fields under one identifier. -/
theorem insertFields_into_empty (source : FieldMap Id TI) (overwrite : Bool) (id : Id)
    (ti : Option TI) :
    Spec.storedWith (insertFields [] source overwrite).2 id ti
      = (if overwrite = true then (Spec.sourceGroup source id ti).getLast?
          else (Spec.sourceGroup source id ti).head?).toList ∧
    (Spec.storedWith (insertFields [] source overwrite).2 id ti).length ≤ 1 ∧
    (values (insertFields [] Sample.repeatedSource overwrite).2 1).length = 1 ∧
    (values Sample.repeatedSource 1).length = 3 := by
  have hmain : Spec.storedWith (insertFields [] source overwrite).2 id ti
      = (if overwrite = true then (Spec.sourceGroup source id ti).getLast?
          else (Spec.sourceGroup source id ti).head?).toList := by
    unfold insertFields
    rw [storedWith_loop overwrite id ti source [] 0 List.Pairwise.nil]
    exact foldl_merged_nil overwrite _ (sourceGroup_nonEmpty source id ti)
  refine ⟨hmain, ?_, ?_, by decide⟩
  · rw [hmain]
    cases (if overwrite = true then (Spec.sourceGroup source id ti).getLast?
      else (Spec.sourceGroup source id ti).head?) with
    | none => exact Nat.zero_le _
    | some f => exact Nat.le_refl _
  · cases overwrite <;> decide

theorem insertFields_into_empty_witness :
    (insertFields [] Sample.repeatedSource true).2
      = [Sample.fld 1 (Sample.txt [99]), Sample.fld 2 (Sample.txt [100])] ∧
    Spec.sourceGroup Sample.repeatedSource 1 none
      = [(Sample.fld 1 (Sample.txt [97])).2, (Sample.fld 1 (Sample.txt [98])).2,
          (Sample.fld 1 (Sample.txt [99])).2] ∧
    (Spec.storedWith (insertFields [] Sample.repeatedSource true).2 1 none
        = (if true = true then (Spec.sourceGroup Sample.repeatedSource 1 none).getLast?
            else (Spec.sourceGroup Sample.repeatedSource 1 none).head?).toList ∧
      (Spec.storedWith (insertFields [] Sample.repeatedSource true).2 1 none).length ≤ 1 ∧
      (values (insertFields [] Sample.repeatedSource true).2 1).length = 1 ∧
      (values Sample.repeatedSource 1).length = 3) :=
  ⟨by decide, by decide, insertFields_into_empty Sample.repeatedSource true 1 none⟩

end FieldMapBasedTag

/-! ## The normalised level of the tag target -/

namespace TagTarget

/-- C36: `level()` never returns 0: it returns 50 when the stored level is 0, as it is
for a default-constructed or cleared target and after `setLevel(0)`, and the stored level
otherwise, so `setLevel(l)` followed by `level()` gives `l` for every non-zero `l`;
`toString(tagTargetMapping)` applies the mapping to this level and takes
`TagTargetLevel::Unspecified` when there is no mapping. -/
theorem level_never_zero (t : TagTarget) :
    t.level ≠ 0 ∧
    (t.storedLevel = 0 → t.level = 50) ∧
    (t.storedLevel ≠ 0 → t.level = t.storedLevel) ∧
    createDefault.level = 50 ∧ t.clear.level = 50 ∧ (t.setLevel 0).level = 50 ∧
    (∀ l : Nat, l ≠ 0 → (t.setLevel l).level = l) ∧
    (∀ (toStringLevel : TagTarget → TagTargetLevel → String) (mapping : Nat → TagTargetLevel),
      toString toStringLevel t (some mapping)
        = toStringLevel t (mapping (if t.storedLevel = 0 then 50 else t.storedLevel))) ∧
    (∀ toStringLevel : TagTarget → TagTargetLevel → String,
      toString toStringLevel t none = toStringLevel t TagTargetLevel.unspecified) := by
  refine ⟨?_, ?_, ?_, rfl, rfl, rfl, ?_, ?_, fun _ => rfl⟩
  · unfold level
    split
    · assumption
    · decide
  · intro h0
    unfold level
    rw [if_neg (not_not.mpr h0)]
  · intro hne
    unfold level
    rw [if_pos hne]
  · intro l hl
    unfold level setLevel
    rw [if_pos hl]
  · intro toStringLevel mapping
    unfold toString level
    by_cases h0 : t.storedLevel = 0
    · rw [if_neg (not_not.mpr h0), if_pos h0]
    · rw [if_pos h0, if_neg h0]

theorem level_never_zero_witness :
    toString Sample.levelOnly createDefault (some Sample.albumMapping) = "album" ∧
    toString Sample.levelOnly createDefault none = "" ∧
    (createDefault.level ≠ 0 ∧
      (createDefault.storedLevel = 0 → createDefault.level = 50) ∧
      (createDefault.storedLevel ≠ 0 → createDefault.level = createDefault.storedLevel) ∧
      createDefault.level = 50 ∧ createDefault.clear.level = 50 ∧
      (createDefault.setLevel 0).level = 50 ∧
      (∀ l : Nat, l ≠ 0 → (createDefault.setLevel l).level = l) ∧
      (∀ (toStringLevel : TagTarget → TagTargetLevel → String)
          (mapping : Nat → TagTargetLevel),
        toString toStringLevel createDefault (some mapping)
          = toStringLevel createDefault
              (mapping (if createDefault.storedLevel = 0 then 50
                else createDefault.storedLevel))) ∧
      (∀ toStringLevel : TagTarget → TagTargetLevel → String,
        toString toStringLevel createDefault none
          = toStringLevel createDefault TagTargetLevel.unspecified)) :=
  ⟨rfl, rfl, level_never_zero createDefault⟩

/-- C37: equality compares the normalised levels and does not imply equal emptiness: a
target with the level set to 50 and no ids, and a target with a non-empty level name and
nothing else, compare equal to a default-constructed target, although `isEmpty()` is
false for them and true for the default-constructed target. -/
theorem equals_not_emptiness (name : String) (hname : name.isEmpty = false) :
    (∀ a : TagTarget, equals (a.setLevel 50) (a.setLevel 0) = true) ∧
    equals (create 50 [] [] [] []) createDefault = true ∧
    (create 50 [] [] [] []).isEmpty = false ∧
    equals (createDefault.setLevel 50) createDefault = true ∧
    (createDefault.setLevel 50).isEmpty = false ∧
    equals (createDefault.setLevelName name) createDefault = true ∧
    (createDefault.setLevelName name).isEmpty = false ∧
    createDefault.isEmpty = true := by
  refine ⟨?_, by decide, by decide, by decide, by decide, ?_, ?_, by decide⟩
  · intro a
    unfold equals level setLevel
    simp
  · have hsame : equals (createDefault.setLevelName name) createDefault
        = equals createDefault createDefault := rfl
    rw [hsame]
    decide
  · unfold isEmpty setLevelName
    simp [hname]

theorem equals_not_emptiness_witness :
    ("ALBUM" : String).isEmpty = false ∧
    Sample.namedTarget = createDefault.setLevelName "ALBUM" ∧
    Sample.level50Target = create 50 [] [] [] [] ∧
    ((∀ a : TagTarget, equals (a.setLevel 50) (a.setLevel 0) = true) ∧
      equals (create 50 [] [] [] []) createDefault = true ∧
      (create 50 [] [] [] []).isEmpty = false ∧
      equals (createDefault.setLevel 50) createDefault = true ∧
      (createDefault.setLevel 50).isEmpty = false ∧
      equals (createDefault.setLevelName "ALBUM") createDefault = true ∧
      (createDefault.setLevelName "ALBUM").isEmpty = false ∧
      createDefault.isEmpty = true) :=
  ⟨by decide, rfl, rfl, equals_not_emptiness "ALBUM" (by decide)⟩

end TagTarget

/-! ## The flags of the MP4 test matrix -/

namespace OverallTests

open Mp4TestFlags

theorem removeTagOrTrack_zero : RemoveTagOrTrack = 0 := by decide

theorem hasFlag_removeTagOrTrack (mode : Nat) : hasFlag mode RemoveTagOrTrack = false := by
  unfold hasFlag
  rw [removeTagOrTrack_zero, Nat.and_zero]
  decide

theorem testMp4MakingLoop_eq (sizeMax : Nat) :
    ∀ (fuel mode : Nat), mode ≤ 0x20 → 0x20 - mode < fuel →
      testMp4MakingLoop sizeMax fuel mode
        = some ((List.range' mode (0x20 - mode)).map (testMp4MakingBody sizeMax)) := by
  intro fuel
  induction fuel with
  | zero => intro mode _ hlt; exact absurd hlt (Nat.not_lt_zero _)
  | succ fuel ih =>
    intro mode hle hlt
    unfold testMp4MakingLoop
    by_cases hm : mode = 0x20
    · subst hm
      simp
    · rw [if_pos hm, ih (mode + 1) (by omega) (by omega)]
      have hsplit : 0x20 - mode = (0x20 - (mode + 1)) + 1 := by omega
      conv_rhs => rw [hsplit, List.range'_succ]
      simp

/-- C38: the flag `RemoveTagOrTrack` is 0, so for every mode the test
`m_mode & RemoveTagOrTrack` fails: each pass of the loop of `testMp4Making` sets the tag
status `TestMetaDataPresent`, passes `setMp4TestMetaData` and then `alterMp4Tracks` to
`makeFile`, never prints "removing tag", and `checkMp4Testfile6` expects six tracks with
the tracks 2 and 5 present; the loop makes one pass for each of the modes 0 to 0x1F, in
which each of the 32 combinations of the five flag bits occurs exactly once. -/
theorem removeTagOrTrack_never_set (sizeMax : Nat) :
    RemoveTagOrTrack = 0 ∧
    (∀ mode : Nat, mode &&& RemoveTagOrTrack = 0 ∧ hasFlag mode RemoveTagOrTrack = false) ∧
    (∀ mode : Nat,
      (testMp4MakingBody sizeMax mode).tagStatus = TagStatus.testMetaDataPresent ∧
      (testMp4MakingBody sizeMax mode).calls.map (fun c => c.modifyRoutine)
        = [ModifyRoutine.setMp4TestMetaData, ModifyRoutine.setMp4TestMetaData,
            ModifyRoutine.setMp4TestMetaData, ModifyRoutine.setMp4TestMetaData,
            ModifyRoutine.setMp4TestMetaData, ModifyRoutine.alterMp4Tracks] ∧
      "removing tag" ∉ (testMp4MakingBody sizeMax mode).testConditions ∧
      expectedTrackCount mode = 6 ∧ expectsTracks2And5 mode = true) ∧
    (∀ fuel : Nat, 0x20 < fuel →
      testMp4Making sizeMax fuel
        = some ((List.range 0x20).map (testMp4MakingBody sizeMax))) ∧
    (∀ bits : Bool × Bool × Bool × Bool × Bool,
      ((List.range 0x20).map flagBits).count bits = 1) := by
  refine ⟨removeTagOrTrack_zero, fun mode => ⟨?_, hasFlag_removeTagOrTrack mode⟩,
    fun mode => ⟨?_, ?_, ?_, ?_, ?_⟩, ?_, ?_⟩
  · rw [removeTagOrTrack_zero, Nat.and_zero]
  · simp [testMp4MakingBody, hasFlag_removeTagOrTrack]
  · simp [testMp4MakingBody, hasFlag_removeTagOrTrack]
  · simp only [testMp4MakingBody, testConditions, hasFlag_removeTagOrTrack]
    cases hasFlag mode ForceRewring <;> cases hasFlag mode KeepTagPos <;>
      cases hasFlag mode TagsBeforeData <;> cases hasFlag mode PaddingConstraints <;>
      cases hasFlag mode ForceTagPos <;> decide
  · simp [expectedTrackCount, hasFlag_removeTagOrTrack]
  · simp [expectsTracks2And5, hasFlag_removeTagOrTrack]
  · intro fuel hfuel
    unfold testMp4Making
    rw [testMp4MakingLoop_eq sizeMax fuel 0 (by omega) (by omega), List.range_eq_range']
  · rintro ⟨b1, b2, b3, b4, b5⟩
    cases b1 <;> cases b2 <;> cases b3 <;> cases b4 <;> cases b5 <;> decide

theorem removeTagOrTrack_never_set_witness :
    (testMp4Making 0 33).map (fun runs => runs.map (fun r => r.mode))
      = some (List.range 0x20) ∧
    (testMp4MakingBody 0 0x12).tagPosition = ElementPosition.keep ∧
    (testMp4MakingBody 0 0x12).tagStatus = TagStatus.testMetaDataPresent ∧
    (∀ bits : Bool × Bool × Bool × Bool × Bool,
      ((List.range 0x20).map flagBits).count bits = 1) :=
  ⟨by decide, by decide, by decide, (removeTagOrTrack_never_set 0).2.2.2.2⟩

end OverallTests

end Media
